import Mathlib

/- Shallow embedding of `src/MazeSolver/MazeSolver.py`.

Conventions used throughout:
* `Grid` mirrors the Python two-dimensional list `maze` (a list of rows of
  cell values, `1` = wall, `0` = passage); the Python access `maze[ny][nx]`
  corresponds to `cellAt m nx ny` below.
* Coordinates are pairs `(x, y)` of integers, as in the Python code, where
  neighbour arithmetic can go negative before the bounds check.
* Python dictionaries `parents` / `distances` are modelled as functions into
  `Option`; `none` means the key is absent, matching `in` / `.get`.
* The `heapq` binary heap is modelled as a list kept sorted by the Python
  tuple order.  `heapq.heappop` returns the least element of the heap's
  multiset (tuple comparison is a total order here, so equal elements are
  identical values); the sorted-list head realises exactly that multiset
  semantics, and `heapq.heappush` is insertion.
* Fallible Python operations (out-of-range list indexing) return `none`;
  Python's negative-index wrap-around is reproduced by `pyIdx`.
* Wall-clock timestamps (`time.time()`) are modelled as abstract integer
  streams passed to each step; they influence no control flow.
-/

namespace MS

abbrev Coord := Int × Int

abbrev Grid := List (List Nat)

/- Python list indexing: valid non-negative index, negative wrap-around,
or `IndexError` (`none`). -/
def pyIdx (len : Nat) (i : Int) : Option Nat :=
  if 0 ≤ i ∧ i < (len : Int) then some i.toNat
  else if -(len : Int) ≤ i ∧ i < 0 then some (i + len).toNat
  else none

def pyGet (l : List α) (i : Int) : Option α :=
  (pyIdx l.length i).bind fun j => l.get? j

def pySet (l : List α) (i : Int) (a : α) : Option (List α) :=
  (pyIdx l.length i).map fun j => l.set j a

/- `maze[y][x]` as a read. -/
def pyGet2 (m : Grid) (y x : Int) : Option Nat :=
  (pyGet m y).bind fun row => pyGet row x

/- `maze[y][x] = v` as a write. -/
def pySet2 (m : Grid) (y x : Int) (v : Nat) : Option Grid :=
  (pyGet m y).bind fun row => (pySet row x v).bind fun row2 => pySet m y row2

/- `len(self.maze)` (number of rows) and `len(self.maze[0])` (number of
columns); the search code always runs on a non-empty generated maze, for
which `headD` agrees with Python's `maze[0]`. -/
def gridRows (m : Grid) : Nat := m.length

def gridCols (m : Grid) : Nat := (m.headD []).length

/- Cell read used by the search code, only ever evaluated after the bounds
check `0 <= nx < len(maze[0]) and 0 <= ny < len(maze)`; the default `1`
(wall) is never exercised on rectangular grids within bounds. -/
def cellAt (m : Grid) (x y : Int) : Nat :=
  (m.getD y.toNat []).getD x.toNat 1

def inB (m : Grid) (x y : Int) : Bool :=
  decide (0 ≤ x) && decide (x < (gridCols m : Int)) &&
  decide (0 ≤ y) && decide (y < (gridRows m : Int))

/- The combined test used on every neighbour in the four animate routines:
in bounds and `maze[ny][nx] == 0`. -/
def isPass (m : Grid) (c : Coord) : Bool :=
  inB m c.1 c.2 && (cellAt m c.1 c.2 == 0)

/- Neighbour offsets, in the loop order of the source:
`[(1,0), (0,1), (-1,0), (0,-1)]`. -/
def dirs : List Coord := [(1, 0), (0, 1), (-1, 0), (0, -1)]

def cadd (c d : Coord) : Coord := (c.1 + d.1, c.2 + d.2)

/- A Python dict with `Coord` keys: `none` = key absent. -/
abbrev PMap := Coord → Option (Option Coord)

abbrev DMap := Coord → Option Nat

def pmSet (pm : PMap) (c : Coord) (v : Option Coord) : PMap :=
  fun d => if d = c then some v else pm d

def dmSet (dm : DMap) (c : Coord) (v : Nat) : DMap :=
  fun d => if d = c then some v else dm d

def pmEmpty : PMap := fun _ => none

def dmEmpty : DMap := fun _ => none

/- `self.parents.get(cur)`: `None` both when the key is absent and when the
stored parent is `None`. -/
def pGet (pm : PMap) (c : Coord) : Option Coord := (pm c).bind id

/- Step outcome of one animate call, naming the externally visible signal:
`idle` = the `if not self.solving: return` branch, `pausedTick` = the pause
re-schedule branch, `noSolution` = the empty-frontier message, `goalReached`
= the solved message plus path drawing, `cont` = the list of cells painted
light blue this call. -/
inductive Res where
  | idle
  | pausedTick
  | noSolution
  | goalReached
  | cont (vis : List Coord)
deriving Repr, DecidableEq

/- State shared by the BFS and DFS animate routines: `search_nodes` (a plain
list), `parents`, `solving`, and the elapsed-time accounting. -/
structure QSt where
  nodes : List Coord
  parents : PMap
  solving : Bool
  startT : Int
  sTime : Int

/- State of `animate_dijkstra`: `search_nodes` holds `(cost, coord)` pairs. -/
structure DSt where
  nodes : List (Nat × Coord)
  dists : DMap
  parents : PMap
  solving : Bool
  startT : Int
  sTime : Int

/- State of `animate_astar`: `search_nodes` holds `(f, g, coord)` triples. -/
structure ASt where
  nodes : List (Nat × Nat × Coord)
  dists : DMap
  parents : PMap
  solving : Bool
  startT : Int
  sTime : Int

/- Lexicographic order on coordinates, as Python compares `(x, y)` tuples. -/
def coordLe (a b : Coord) : Bool :=
  decide (a.1 < b.1) || (decide (a.1 = b.1) && decide (a.2 ≤ b.2))

def e2Le (a b : Nat × Coord) : Bool :=
  decide (a.1 < b.1) || (decide (a.1 = b.1) && coordLe a.2 b.2)

def e3Le (a b : Nat × Nat × Coord) : Bool :=
  decide (a.1 < b.1) || (decide (a.1 = b.1) && e2Le a.2 b.2)

/- Insertion into a sorted list; models `heapq.heappush` at multiset level. -/
def sIns (le : α → α → Bool) (a : α) : List α → List α
  | [] => [a]
  | x :: xs => if le a x then a :: x :: xs else x :: sIns le a xs

/- Neighbour expansion of BFS/DFS: one iteration of the
`for dx, dy in [(1,0),(0,1),(-1,0),(0,-1)]` loop.  The accumulator carries
the parents dict, the list of cells appended to `search_nodes`, and the
cells painted this call. -/
def qExpandStep (m : Grid) (c : Coord) (acc : PMap × List Coord) (d : Coord) :
    PMap × List Coord :=
  let n := cadd c d
  if isPass m n && (acc.1 n).isNone then
    (pmSet acc.1 n (some c), acc.2 ++ [n])
  else acc

def qExpand (m : Grid) (c : Coord) (pm : PMap) : PMap × List Coord :=
  dirs.foldl (qExpandStep m c) (pm, [])

/- One call of `animate_bfs`. -/
def bfsStep (m : Grid) (endP : Coord) (paused : Bool) (now : Int) (st : QSt) :
    QSt × Res :=
  if !st.solving then (st, .idle)
  else if paused then (st, .pausedTick)
  else
    match st.nodes with
    | [] => ({ st with solving := false }, .noSolution)
    | c :: rest =>
      if c = endP then
        ({ st with nodes := rest, solving := false, sTime := now - st.startT },
          .goalReached)
      else
        let e := qExpand m c st.parents
        ({ st with nodes := rest ++ e.2, parents := e.1 }, .cont e.2)

/- One call of `animate_dfs`: identical except `search_nodes.pop()` takes the
last element. -/
def dfsStep (m : Grid) (endP : Coord) (paused : Bool) (now : Int) (st : QSt) :
    QSt × Res :=
  if !st.solving then (st, .idle)
  else if paused then (st, .pausedTick)
  else
    match st.nodes.getLast? with
    | none => ({ st with solving := false }, .noSolution)
    | some c =>
      if c = endP then
        ({ st with nodes := st.nodes.dropLast, solving := false, sTime := now - st.startT }, .goalReached)
      else
        let e := qExpand m c st.parents
        ({ st with nodes := st.nodes.dropLast ++ e.2, parents := e.1 },
          .cont e.2)

/- Relaxation of one neighbour in `animate_dijkstra`; the accumulator carries
`(distances, parents, heap, painted)`. -/
def dRelaxStep (m : Grid) (c : Coord) (cost : Nat)
    (acc : DMap × PMap × List (Nat × Coord) × List Coord) (d : Coord) :
    DMap × PMap × List (Nat × Coord) × List Coord :=
  let n := cadd c d
  if isPass m n then
    let nc := cost + 1
    if (acc.1 n).isNone || decide (nc < (acc.1 n).getD 0) then
      (dmSet acc.1 n nc, pmSet acc.2.1 n (some c),
        sIns e2Le (nc, n) acc.2.2.1, acc.2.2.2 ++ [n])
    else acc
  else acc

/- One call of `animate_dijkstra`. -/
def dijStep (m : Grid) (endP : Coord) (paused : Bool) (now : Int) (st : DSt) :
    DSt × Res :=
  if !st.solving then (st, .idle)
  else if paused then (st, .pausedTick)
  else
    match st.nodes with
    | [] => ({ st with solving := false }, .noSolution)
    | (cost, c) :: rest =>
      if c = endP then
        ({ st with nodes := rest, solving := false, sTime := now - st.startT },
          .goalReached)
      else
        let e := dirs.foldl (dRelaxStep m c cost)
          (st.dists, st.parents, rest, [])
        ({ st with nodes := e.2.2.1, dists := e.1, parents := e.2.1 },
          .cont e.2.2.2)

/- Relaxation of one neighbour in `animate_astar`; `h` is the Manhattan
distance to `self.end_point`, computed inline as in the source. -/
def aRelaxStep (m : Grid) (endP : Coord) (c : Coord) (g : Nat)
    (acc : DMap × PMap × List (Nat × Nat × Coord) × List Coord) (d : Coord) :
    DMap × PMap × List (Nat × Nat × Coord) × List Coord :=
  let n := cadd c d
  if isPass m n then
    let ng := g + 1
    let hh := (n.1 - endP.1).natAbs + (n.2 - endP.2).natAbs
    let nf := ng + hh
    if (acc.1 n).isNone || decide (ng < (acc.1 n).getD 0) then
      (dmSet acc.1 n ng, pmSet acc.2.1 n (some c),
        sIns e3Le (nf, ng, n) acc.2.2.1, acc.2.2.2 ++ [n])
    else acc
  else acc

/- One call of `animate_astar`. -/
def astarStep (m : Grid) (endP : Coord) (paused : Bool) (now : Int)
    (st : ASt) : ASt × Res :=
  if !st.solving then (st, .idle)
  else if paused then (st, .pausedTick)
  else
    match st.nodes with
    | [] => ({ st with solving := false }, .noSolution)
    | (_, g, c) :: rest =>
      if c = endP then
        ({ st with nodes := rest, solving := false, sTime := now - st.startT },
          .goalReached)
      else
        let e := dirs.foldl (aRelaxStep m endP c g)
          (st.dists, st.parents, rest, [])
        ({ st with nodes := e.2.2.1, dists := e.1, parents := e.2.1 },
          .cont e.2.2.2)

/- The seeds that `on_solve_maze` builds before entering the animate loop. -/
def qInit (s : Coord) (t0 : Int) : QSt :=
  { nodes := [s], parents := pmSet pmEmpty s none, solving := true,
    startT := t0, sTime := 0 }

def dInit (s : Coord) (t0 : Int) : DSt :=
  { nodes := [(0, s)], dists := dmSet dmEmpty s 0,
    parents := pmSet pmEmpty s none, solving := true, startT := t0,
    sTime := 0 }

def aInit (s : Coord) (t0 : Int) : ASt :=
  { nodes := [(0, 0, s)], dists := dmSet dmEmpty s 0,
    parents := pmSet pmEmpty s none, solving := true, startT := t0,
    sTime := 0 }

/- Driving the engine: `stAfter ... k` is the state after `k` scheduled
calls, where `sched k` says whether the pause flag is set when call `k`
fires and `tms k` is the wall clock it observes. -/
def stAfter (stepF : Bool → Int → σ → σ × Res) (sched : Nat → Bool)
    (tms : Nat → Int) (st0 : σ) : Nat → σ
  | 0 => st0
  | k + 1 => (stepF (sched k) (tms k) (stAfter stepF sched tms st0 k)).1

def resAt (stepF : Bool → Int → σ → σ × Res) (sched : Nat → Bool)
    (tms : Nat → Int) (st0 : σ) (k : Nat) : Res :=
  (stepF (sched k) (tms k) (stAfter stepF sched tms st0 k)).2

/- `draw_solution_path`: walk parent links from `end_point` while `cur` is
not `None`, collecting the cells in walk order (goal first).  The walk has
no loop bound in the source; `fuel` makes nontermination observable as
`none`. -/
def reconAux (pm : PMap) : Nat → Option Coord → List Coord →
    Option (List Coord)
  | _, none, acc => some acc
  | 0, some _, _ => none
  | fuel + 1, some c, acc => reconAux pm fuel (pGet pm c) (acc ++ [c])

def recon (pm : PMap) (endP : Coord) (fuel : Nat) : Option (List Coord) :=
  reconAux pm fuel (some endP) []

/- Maze generation.  Randomness is modelled as an oracle `rng : Nat → Nat`:
the `n`-th call of `random.choice(seq)` returns `seq[rng n % len(seq)]`, so
quantifying over `rng` quantifies over every possible sequence of random
choices.  The `while cell_list:` loop carries fuel; `none` is returned on
fuel exhaustion or on a Python `IndexError`. -/
def genDirs : List Coord := [(2, 0), (-2, 0), (0, 2), (0, -2)]

/- The in-bounds, still-wall two-away neighbours of `(x, y)`, paired with
their offsets, in source order.  The read `maze[ny][nx]` sits behind the
bounds test `0 < nx < width and 0 < ny < height` exactly as in the source
(the loop keeps the grid `height × width`, so the guarded read succeeds). -/
def genNbrs (m : Grid) (w h : Nat) (x y : Int) : List (Coord × Coord) :=
  genDirs.filterMap fun d =>
    if 0 < x + d.1 ∧ x + d.1 < (w : Int) ∧ 0 < y + d.2 ∧ y + d.2 < (h : Int) ∧
        pyGet2 m (y + d.2) (x + d.1) = some 1 then
      some ((x + d.1, y + d.2), d)
    else none

def carve (w h : Nat) (rng : Nat → Nat) : Nat → Nat → Grid → List Coord →
    Option Grid
  | 0, _, _, _ => none
  | fuel + 1, k, m, cl =>
    if cl = [] then some m
    else
      let c := cl.getD (rng k % cl.length) (0, 0)
      let nbs := genNbrs m w h c.1 c.2
      if nbs = [] then carve w h rng fuel (k + 1) m (cl.erase c)
      else
        let nb := nbs.getD (rng (k + 1) % nbs.length) ((0, 0), (0, 0))
        match pySet2 m (c.2 + nb.2.2 / 2) (c.1 + nb.2.1 / 2) 0 with
        | none => none
        | some m1 =>
          match pySet2 m1 nb.1.2 nb.1.1 0 with
          | none => none
          | some m2 => carve w h rng fuel (k + 2) m2 (cl ++ [nb.1])

/- Forcing a dimension to odd by incrementing if even. -/
def normOdd (n : Nat) : Nat := if n % 2 = 0 then n + 1 else n

def generate_maze (rng : Nat → Nat) (fuel : Nat) (width height : Nat) :
    Option Grid :=
  let w := normOdd width
  let h := normOdd height
  let m : Grid := List.replicate h (List.replicate w 1)
  match pySet2 m 1 1 0 with
  | none => none
  | some m1 => carve w h rng fuel 0 m1 [(1, 1)]

/- The algorithm selector of the option menu. -/
inductive Algo where
  | bfs
  | dfs
  | dij
  | astar
deriving Repr, DecidableEq

/- The per-algorithm search state built by `on_solve_maze`. -/
inductive SolveSt where
  | q (st : QSt)
  | d (st : DSt)
  | a (st : ASt)

/- Outcome of `on_solve_maze`: the two blocking `messagebox.showerror`
notifications, or a started solve with its freshly seeded search state. -/
inductive SolveOut where
  | errNoMaze
  | errNoPoints
  | started (s : SolveSt)

/- `on_solve_maze`: error if no maze, error if either endpoint is missing,
otherwise seed `parents` / `search_nodes` / `distances` for the selected
algorithm and start the animation.  No wall or bounds check is performed on
the endpoints. -/
def on_solve_maze (maze : Option Grid) (startP endP : Option Coord)
    (algo : Algo) (t0 : Int) : SolveOut :=
  match maze with
  | none => .errNoMaze
  | some _ =>
    match startP, endP with
    | some s, some _ =>
      .started
        (match algo with
         | .bfs => .q (qInit s t0)
         | .dfs => .q (qInit s t0)
         | .dij => .d (dInit s t0)
         | .astar => .a (aInit s t0))
    | _, _ => .errNoPoints

inductive SelMode where
  | selStart
  | selEnd
deriving Repr, DecidableEq

/- `on_canvas_click` at cell granularity (the pixel-to-cell division is
presentation, out of the modelled scope).  The boolean records whether the
handler raised (`maze[y][x]` out of range, an uncaught `IndexError`); in
every case the pair is the selection after the handler. -/
def on_canvas_click (maze : Option Grid) (mode : Option SelMode) (x y : Int)
    (sp ep : Option Coord) : Bool × Option Coord × Option Coord :=
  match maze with
  | none => (false, sp, ep)
  | some m =>
    match pyGet2 m y x with
    | none => (true, sp, ep)
    | some v =>
      if v ≠ 0 then (false, sp, ep)
      else
        match mode with
        | some .selStart => (false, some (x, y), ep)
        | some .selEnd => (false, sp, some (x, y))
        | none => (false, sp, ep)

/- Fixture grids.  `fix5` is the 5×5 grid of §8 of the spec: a single
straight corridor of passages at `(1,1)`, `(1,2)`, `(1,3)`. -/
def fix5 : Grid :=
  [[1, 1, 1, 1, 1],
   [1, 0, 1, 1, 1],
   [1, 0, 1, 1, 1],
   [1, 0, 1, 1, 1],
   [1, 1, 1, 1, 1]]

/- An unsolvable fixture: passages at `(1,1)` and `(3,3)` are mutually
isolated, so exactly one passage cell is reachable from `(1,1)`. -/
def fixU : Grid :=
  [[1, 1, 1, 1, 1],
   [1, 0, 1, 1, 1],
   [1, 1, 1, 1, 1],
   [1, 1, 1, 0, 1],
   [1, 1, 1, 1, 1]]

def noPause : Nat → Bool := fun _ => false

def zeroT : Nat → Int := fun _ => 0

/- Cells painted light blue by one call (the `Continue` visit events). -/
def visEmitted : Res → List Coord
  | .cont v => v
  | _ => []

/- All cells painted during the first `k` calls. -/
def visUpTo (stepF : Bool → Int → σ → σ × Res) (sched : Nat → Bool)
    (tms : Nat → Int) (st0 : σ) (k : Nat) : List Coord :=
  (List.range k).flatMap fun i => visEmitted (resAt stepF sched tms st0 i)

/- The pause schedule that pauses exactly the ticks `N, …, N+M-1`. -/
def pw (N M : Nat) : Nat → Bool := fun k => decide (N ≤ k ∧ k < N + M)

/- Tick correspondence between the paused and the unpaused drive. -/
def shiftIdx (N M j : Nat) : Nat := if j < N then j else j + M

/- Engine-state components that the drive cadence must not touch (everything
except the wall-clock accounting, which necessarily reads a later clock when
the drive was paused). -/
def coreQ (a b : QSt) : Prop :=
  a.nodes = b.nodes ∧ a.parents = b.parents ∧ a.solving = b.solving

def coreD (a b : DSt) : Prop :=
  a.nodes = b.nodes ∧ a.dists = b.dists ∧ a.parents = b.parents ∧
    a.solving = b.solving

def coreA (a b : ASt) : Prop :=
  a.nodes = b.nodes ∧ a.dists = b.dists ∧ a.parents = b.parents ∧
    a.solving = b.solving

theorem stAfter_succ (stepF : Bool → Int → σ → σ × Res) (sched tms st0)
    (k : Nat) :
    stAfter stepF sched tms st0 (k + 1) =
      (stepF (sched k) (tms k) (stAfter stepF sched tms st0 k)).1 := rfl

theorem visUpTo_succ (stepF : Bool → Int → σ → σ × Res) (sched tms st0)
    (k : Nat) :
    visUpTo stepF sched tms st0 (k + 1) =
      visUpTo stepF sched tms st0 k ++
        visEmitted (resAt stepF sched tms st0 k) := by
  simp [visUpTo, List.range_succ]

section PerStepFacts

variable (m : Grid) (endP : Coord)

theorem bfsStep_idle (p : Bool) (t : Int) (st : QSt)
    (h : st.solving = false) : bfsStep m endP p t st = (st, .idle) := by
  simp [bfsStep, h]

theorem dfsStep_idle (p : Bool) (t : Int) (st : QSt)
    (h : st.solving = false) : dfsStep m endP p t st = (st, .idle) := by
  simp [dfsStep, h]

theorem dijStep_idle (p : Bool) (t : Int) (st : DSt)
    (h : st.solving = false) : dijStep m endP p t st = (st, .idle) := by
  simp [dijStep, h]

theorem astarStep_idle (p : Bool) (t : Int) (st : ASt)
    (h : st.solving = false) : astarStep m endP p t st = (st, .idle) := by
  simp [astarStep, h]

theorem bfsStep_pause (t : Int) (st : QSt) :
    (bfsStep m endP true t st).1 = st ∧
      visEmitted (bfsStep m endP true t st).2 = [] := by
  by_cases h : st.solving = false
  · simp [bfsStep, h, visEmitted]
  · simp only [Bool.not_eq_false] at h
    simp [bfsStep, h, visEmitted]

theorem dfsStep_pause (t : Int) (st : QSt) :
    (dfsStep m endP true t st).1 = st ∧
      visEmitted (dfsStep m endP true t st).2 = [] := by
  by_cases h : st.solving = false
  · simp [dfsStep, h, visEmitted]
  · simp only [Bool.not_eq_false] at h
    simp [dfsStep, h, visEmitted]

theorem dijStep_pause (t : Int) (st : DSt) :
    (dijStep m endP true t st).1 = st ∧
      visEmitted (dijStep m endP true t st).2 = [] := by
  by_cases h : st.solving = false
  · simp [dijStep, h, visEmitted]
  · simp only [Bool.not_eq_false] at h
    simp [dijStep, h, visEmitted]

theorem astarStep_pause (t : Int) (st : ASt) :
    (astarStep m endP true t st).1 = st ∧
      visEmitted (astarStep m endP true t st).2 = [] := by
  by_cases h : st.solving = false
  · simp [astarStep, h, visEmitted]
  · simp only [Bool.not_eq_false] at h
    simp [astarStep, h, visEmitted]

theorem bfsStep_core (p : Bool) (t t' : Int) (s s' : QSt)
    (h : coreQ s s') :
    coreQ (bfsStep m endP p t s).1 (bfsStep m endP p t' s').1 ∧
      (bfsStep m endP p t s).2 = (bfsStep m endP p t' s').2 := by
  obtain ⟨n, pm, sv, a1, a2⟩ := s
  obtain ⟨n2, pm2, sv2, b1, b2⟩ := s'
  obtain ⟨hn, hp, hs⟩ := h
  simp only at hn hp hs
  subst hn; subst hp; subst hs
  unfold bfsStep
  cases sv
  · exact ⟨⟨rfl, rfl, rfl⟩, rfl⟩
  · cases p
    · cases n with
      | nil => exact ⟨⟨rfl, rfl, rfl⟩, rfl⟩
      | cons c rest =>
        by_cases hc : c = endP
        · simp only [if_pos hc]
          exact ⟨⟨rfl, rfl, rfl⟩, rfl⟩
        · simp only [if_neg hc]
          exact ⟨⟨rfl, rfl, rfl⟩, rfl⟩
    · exact ⟨⟨rfl, rfl, rfl⟩, rfl⟩

theorem dfsStep_core (p : Bool) (t t' : Int) (s s' : QSt)
    (h : coreQ s s') :
    coreQ (dfsStep m endP p t s).1 (dfsStep m endP p t' s').1 ∧
      (dfsStep m endP p t s).2 = (dfsStep m endP p t' s').2 := by
  obtain ⟨n, pm, sv, a1, a2⟩ := s
  obtain ⟨n2, pm2, sv2, b1, b2⟩ := s'
  obtain ⟨hn, hp, hs⟩ := h
  simp only at hn hp hs
  subst hn; subst hp; subst hs
  unfold dfsStep
  cases sv
  · exact ⟨⟨rfl, rfl, rfl⟩, rfl⟩
  · cases p
    · cases hq : n.getLast? with
      | none => exact ⟨⟨rfl, rfl, rfl⟩, rfl⟩
      | some c =>
        by_cases hc : c = endP
        · simp only [if_pos hc]
          exact ⟨⟨rfl, rfl, rfl⟩, rfl⟩
        · simp only [if_neg hc]
          exact ⟨⟨rfl, rfl, rfl⟩, rfl⟩
    · exact ⟨⟨rfl, rfl, rfl⟩, rfl⟩

theorem dijStep_core (p : Bool) (t t' : Int) (s s' : DSt)
    (h : coreD s s') :
    coreD (dijStep m endP p t s).1 (dijStep m endP p t' s').1 ∧
      (dijStep m endP p t s).2 = (dijStep m endP p t' s').2 := by
  obtain ⟨n, dm, pm, sv, a1, a2⟩ := s
  obtain ⟨n2, dm2, pm2, sv2, b1, b2⟩ := s'
  obtain ⟨hn, hd, hp, hs⟩ := h
  simp only at hn hd hp hs
  subst hn; subst hd; subst hp; subst hs
  unfold dijStep
  cases sv
  · exact ⟨⟨rfl, rfl, rfl, rfl⟩, rfl⟩
  · cases p
    · cases n with
      | nil => exact ⟨⟨rfl, rfl, rfl, rfl⟩, rfl⟩
      | cons e rest =>
        obtain ⟨cost, c⟩ := e
        by_cases hc : c = endP
        · simp only [if_pos hc]
          exact ⟨⟨rfl, rfl, rfl, rfl⟩, rfl⟩
        · simp only [if_neg hc]
          exact ⟨⟨rfl, rfl, rfl, rfl⟩, rfl⟩
    · exact ⟨⟨rfl, rfl, rfl, rfl⟩, rfl⟩

theorem astarStep_core (p : Bool) (t t' : Int) (s s' : ASt)
    (h : coreA s s') :
    coreA (astarStep m endP p t s).1 (astarStep m endP p t' s').1 ∧
      (astarStep m endP p t s).2 = (astarStep m endP p t' s').2 := by
  obtain ⟨n, dm, pm, sv, a1, a2⟩ := s
  obtain ⟨n2, dm2, pm2, sv2, b1, b2⟩ := s'
  obtain ⟨hn, hd, hp, hs⟩ := h
  simp only at hn hd hp hs
  subst hn; subst hd; subst hp; subst hs
  unfold astarStep
  cases sv
  · exact ⟨⟨rfl, rfl, rfl, rfl⟩, rfl⟩
  · cases p
    · cases n with
      | nil => exact ⟨⟨rfl, rfl, rfl, rfl⟩, rfl⟩
      | cons e rest =>
        obtain ⟨f, g, c⟩ := e
        by_cases hc : c = endP
        · simp only [if_pos hc]
          exact ⟨⟨rfl, rfl, rfl, rfl⟩, rfl⟩
        · simp only [if_neg hc]
          exact ⟨⟨rfl, rfl, rfl, rfl⟩, rfl⟩
    · exact ⟨⟨rfl, rfl, rfl, rfl⟩, rfl⟩

end PerStepFacts

section PauseRun

variable {σ : Type} (stepF : Bool → Int → σ → σ × Res)

theorem stAfter_window (hpause : ∀ t s, (stepF true t s).1 = s)
    (N M : Nat) (tms : Nat → Int) (st0 : σ) :
    ∀ i, i ≤ M →
      stAfter stepF (pw N M) tms st0 (N + i) =
        stAfter stepF (pw N M) tms st0 N := by
  intro i
  induction i with
  | zero => intro _; rfl
  | succ j ih =>
    intro hj
    have hpw : pw N M (N + j) = true := by
      simp only [pw, decide_eq_true_eq]
      omega
    rw [show N + (j + 1) = (N + j) + 1 by omega, stAfter_succ, hpw, hpause,
      ih (by omega)]

theorem stAfter_shift (hpause : ∀ t s, (stepF true t s).1 = s)
    (N M : Nat) (tms : Nat → Int) (st0 : σ) (j : Nat) :
    stAfter stepF (pw N M) tms st0 (shiftIdx N M (j + 1)) =
      (stepF false (tms (shiftIdx N M j))
        (stAfter stepF (pw N M) tms st0 (shiftIdx N M j))).1 := by
  by_cases h1 : j + 1 < N
  · have h0 : j < N := by omega
    have hpw : pw N M j = false := by
      simp only [pw, decide_eq_false_iff_not]
      omega
    simp only [shiftIdx]
    rw [if_pos h1, if_pos h0, stAfter_succ, hpw]
  · by_cases h0 : j < N
    · have hN : N = j + 1 := by omega
      subst hN
      have hpw : pw (j + 1) M j = false := by
        simp only [pw, decide_eq_false_iff_not]
        omega
      simp only [shiftIdx]
      rw [if_neg h1, if_pos h0,
        stAfter_window stepF hpause (j + 1) M tms st0 M (le_refl M),
        stAfter_succ, hpw]
    · have hpw : pw N M (j + M) = false := by
        simp only [pw, decide_eq_false_iff_not]
        omega
      simp only [shiftIdx]
      rw [if_neg h1, if_neg h0,
        show j + 1 + M = (j + M) + 1 by omega, stAfter_succ, hpw]

theorem pauseRun_core (core : σ → σ → Prop)
    (hstep : ∀ p t t' s s', core s s' →
      core (stepF p t s).1 (stepF p t' s').1 ∧
        (stepF p t s).2 = (stepF p t' s').2)
    (hpause : ∀ t s, (stepF true t s).1 = s)
    (N M : Nat) (tms1 tms0 : Nat → Int) (st0 : σ) (hrefl : core st0 st0) :
    ∀ j, core (stAfter stepF (pw N M) tms1 st0 (shiftIdx N M j))
        (stAfter stepF noPause tms0 st0 j) := by
  intro j
  induction j with
  | zero =>
    by_cases h0 : 0 < N
    · simp only [shiftIdx]
      rw [if_pos h0]
      exact hrefl
    · have hN : N = 0 := by omega
      subst hN
      simp only [shiftIdx]
      rw [if_neg h0, show 0 + M = 0 + M by rfl,
        stAfter_window stepF hpause 0 M tms1 st0 M (le_refl M)]
      exact hrefl
  | succ j ih =>
    rw [stAfter_shift stepF hpause N M tms1 st0 j, stAfter_succ]
    have hnp : noPause j = false := rfl
    rw [hnp]
    exact (hstep false _ _ _ _ ih).1

theorem pauseRun_res (core : σ → σ → Prop)
    (hstep : ∀ p t t' s s', core s s' →
      core (stepF p t s).1 (stepF p t' s').1 ∧
        (stepF p t s).2 = (stepF p t' s').2)
    (hpause : ∀ t s, (stepF true t s).1 = s)
    (N M : Nat) (tms1 tms0 : Nat → Int) (st0 : σ) (hrefl : core st0 st0)
    (j : Nat) :
    resAt stepF (pw N M) tms1 st0 (shiftIdx N M j) =
      resAt stepF noPause tms0 st0 j := by
  have hcore := pauseRun_core stepF core hstep hpause N M tms1 tms0 st0 hrefl j
  have hpw : pw N M (shiftIdx N M j) = false := by
    unfold shiftIdx
    by_cases h0 : j < N
    · simp only [if_pos h0, pw, decide_eq_false_iff_not]
      omega
    · simp only [if_neg h0, pw, decide_eq_false_iff_not]
      omega
  unfold resAt
  rw [hpw]
  have hnp : noPause j = false := rfl
  rw [hnp]
  exact (hstep false _ _ _ _ hcore).2

theorem visUpTo_window (hpvis : ∀ t s, visEmitted (stepF true t s).2 = [])
    (N M : Nat) (tms : Nat → Int) (st0 : σ) :
    ∀ i, i ≤ M →
      visUpTo stepF (pw N M) tms st0 (N + i) =
        visUpTo stepF (pw N M) tms st0 N := by
  intro i
  induction i with
  | zero => intro _; rfl
  | succ j ih =>
    intro hj
    have hpw : pw N M (N + j) = true := by
      simp only [pw, decide_eq_true_eq]
      omega
    rw [show N + (j + 1) = (N + j) + 1 by omega, visUpTo_succ]
    unfold resAt
    rw [hpw, hpvis, List.append_nil, ih (by omega)]

theorem pauseRun_vis (core : σ → σ → Prop)
    (hstep : ∀ p t t' s s', core s s' →
      core (stepF p t s).1 (stepF p t' s').1 ∧
        (stepF p t s).2 = (stepF p t' s').2)
    (hpause : ∀ t s, (stepF true t s).1 = s)
    (hpvis : ∀ t s, visEmitted (stepF true t s).2 = [])
    (N M : Nat) (tms1 tms0 : Nat → Int) (st0 : σ) (hrefl : core st0 st0) :
    ∀ j, visUpTo stepF (pw N M) tms1 st0 (shiftIdx N M j) =
        visUpTo stepF noPause tms0 st0 j := by
  intro j
  induction j with
  | zero =>
    by_cases h0 : 0 < N
    · simp only [shiftIdx]
      rw [if_pos h0]
      rfl
    · have hN : N = 0 := by omega
      subst hN
      simp only [shiftIdx]
      rw [if_neg h0,
        visUpTo_window stepF hpvis 0 M tms1 st0 M (le_refl M)]
      rfl
  | succ j ih =>
    have hres := pauseRun_res stepF core hstep hpause N M tms1 tms0 st0 hrefl j
    simp only [shiftIdx] at ih hres ⊢
    by_cases h1 : j + 1 < N
    · have h0 : j < N := by omega
      rw [if_pos h0] at ih hres
      rw [if_pos h1, visUpTo_succ, visUpTo_succ, ih, hres]
    · by_cases h0 : j < N
      · have hN : N = j + 1 := by omega
        subst hN
        rw [if_pos h0] at ih hres
        rw [if_neg h1,
          visUpTo_window stepF hpvis (j + 1) M tms1 st0 M (le_refl M),
          visUpTo_succ, visUpTo_succ, ih, hres]
      · rw [if_neg h0] at ih hres
        rw [if_neg h1, show j + 1 + M = (j + M) + 1 by omega,
          visUpTo_succ, visUpTo_succ, ih, hres]

theorem terminal_stable (solv : σ → Bool)
    (hidle : ∀ p t st, solv st = false → stepF p t st = (st, .idle))
    (hterm : ∀ p t st,
      (stepF p t st).2 = Res.goalReached ∨ (stepF p t st).2 = Res.noSolution →
      solv (stepF p t st).1 = false)
    (sched : Nat → Bool) (tms : Nat → Int) (st0 : σ) (k : Nat)
    (hk : resAt stepF sched tms st0 k = Res.goalReached ∨
      resAt stepF sched tms st0 k = Res.noSolution) :
    ∀ j, k < j →
      stAfter stepF sched tms st0 j = stAfter stepF sched tms st0 (k + 1) ∧
        resAt stepF sched tms st0 j = Res.idle := by
  have hsolv : solv (stAfter stepF sched tms st0 (k + 1)) = false :=
    hterm (sched k) (tms k) (stAfter stepF sched tms st0 k) hk
  intro j
  induction j with
  | zero => omega
  | succ i ih =>
    intro hij
    by_cases hik : k < i
    · obtain ⟨hst, _⟩ := ih hik
      have hstep := hidle (sched i) (tms i) (stAfter stepF sched tms st0 i)
        (by rw [hst]; exact hsolv)
      have hst2 : stAfter stepF sched tms st0 (i + 1) =
          stAfter stepF sched tms st0 (k + 1) := by
        rw [stAfter_succ, hstep]
        exact hst
      refine ⟨hst2, ?_⟩
      have hstep2 := hidle (sched (i + 1)) (tms (i + 1))
        (stAfter stepF sched tms st0 (i + 1)) (by rw [hst2]; exact hsolv)
      unfold resAt
      rw [hstep2]
    · have hik2 : i = k := by omega
      subst hik2
      constructor
      · rfl
      · have hstep := hidle (sched (i + 1)) (tms (i + 1))
          (stAfter stepF sched tms st0 (i + 1)) hsolv
        unfold resAt
        rw [hstep]

end PauseRun

section TerminalFacts

variable (m : Grid) (endP : Coord)

theorem bfsStep_terminal (p : Bool) (t : Int) (st : QSt)
    (h : (bfsStep m endP p t st).2 = Res.goalReached ∨
      (bfsStep m endP p t st).2 = Res.noSolution) :
    ((bfsStep m endP p t st).1).solving = false := by
  obtain ⟨n, pm, sv, a1, a2⟩ := st
  unfold bfsStep at h ⊢
  cases sv
  · rcases h with h | h <;> simp at h
  · cases p
    · cases n with
      | nil => rfl
      | cons c rest =>
        by_cases hc : c = endP
        · simp only [if_pos hc] at h ⊢
          rfl
        · simp only [if_neg hc] at h ⊢
          rcases h with h | h <;> simp at h
    · rcases h with h | h <;> simp at h

theorem dfsStep_terminal (p : Bool) (t : Int) (st : QSt)
    (h : (dfsStep m endP p t st).2 = Res.goalReached ∨
      (dfsStep m endP p t st).2 = Res.noSolution) :
    ((dfsStep m endP p t st).1).solving = false := by
  obtain ⟨n, pm, sv, a1, a2⟩ := st
  unfold dfsStep at h ⊢
  cases sv
  · rcases h with h | h <;> simp at h
  · cases p
    · cases hl : n.getLast? with
      | none => rfl
      | some c =>
        simp only [hl] at h
        by_cases hc : c = endP
        · simp only [if_pos hc] at h ⊢
          rfl
        · simp only [if_neg hc] at h ⊢
          rcases h with h | h <;> simp at h
    · rcases h with h | h <;> simp at h

theorem dijStep_terminal (p : Bool) (t : Int) (st : DSt)
    (h : (dijStep m endP p t st).2 = Res.goalReached ∨
      (dijStep m endP p t st).2 = Res.noSolution) :
    ((dijStep m endP p t st).1).solving = false := by
  obtain ⟨n, dm, pm, sv, a1, a2⟩ := st
  unfold dijStep at h ⊢
  cases sv
  · rcases h with h | h <;> simp at h
  · cases p
    · cases n with
      | nil => rfl
      | cons e rest =>
        obtain ⟨cost, c⟩ := e
        by_cases hc : c = endP
        · simp only [if_pos hc] at h ⊢
          rfl
        · simp only [if_neg hc] at h ⊢
          rcases h with h | h <;> simp at h
    · rcases h with h | h <;> simp at h

theorem astarStep_terminal (p : Bool) (t : Int) (st : ASt)
    (h : (astarStep m endP p t st).2 = Res.goalReached ∨
      (astarStep m endP p t st).2 = Res.noSolution) :
    ((astarStep m endP p t st).1).solving = false := by
  obtain ⟨n, dm, pm, sv, a1, a2⟩ := st
  unfold astarStep at h ⊢
  cases sv
  · rcases h with h | h <;> simp at h
  · cases p
    · cases n with
      | nil => rfl
      | cons e rest =>
        obtain ⟨f, g, c⟩ := e
        by_cases hc : c = endP
        · simp only [if_pos hc] at h ⊢
          rfl
        · simp only [if_neg hc] at h ⊢
          rcases h with h | h <;> simp at h
    · rcases h with h | h <;> simp at h

end TerminalFacts

/-- C3 counterexample: on the 5×5 corridor fixture with start `(1,1)` and
goal `(1,3)`, the BFS variant's reconstructed path is `[(1,3),(1,2),(1,1)]`
— goal-to-start order — and not the claimed `[(1,1),(1,2),(1,3)]`:
`draw_solution_path` collects the backward walk without reversing it. -/
theorem C3_counterexample :
    recon (stAfter (bfsStep fix5 (1, 3)) noPause zeroT (qInit (1, 1) 0)
        3).parents (1, 3) 10 ≠ some [(1, 1), (1, 2), (1, 3)] ∧
    recon (stAfter (bfsStep fix5 (1, 3)) noPause zeroT (qInit (1, 1) 0)
        3).parents (1, 3) 10 = some [(1, 3), (1, 2), (1, 1)] :=
  ⟨by decide, by decide⟩

/-- C3 amended: path reconstruction walks parent links backward from the
goal to the coordinate whose parent is none (the start), and the produced
path is ordered from goal to start (the source never reverses it); on the
5×5 corridor fixture with start `(1,1)` and goal `(1,3)`, each of BFS, DFS,
Dijkstra and A* signals GoalReached on its third call and reports the path
`[(1,3),(1,2),(1,1)]`. -/
theorem C3_path_goal_to_start :
    (resAt (bfsStep fix5 (1, 3)) noPause zeroT (qInit (1, 1) 0) 2 =
        Res.goalReached ∧
      recon (stAfter (bfsStep fix5 (1, 3)) noPause zeroT (qInit (1, 1) 0)
          3).parents (1, 3) 10 = some [(1, 3), (1, 2), (1, 1)]) ∧
    (resAt (dfsStep fix5 (1, 3)) noPause zeroT (qInit (1, 1) 0) 2 =
        Res.goalReached ∧
      recon (stAfter (dfsStep fix5 (1, 3)) noPause zeroT (qInit (1, 1) 0)
          3).parents (1, 3) 10 = some [(1, 3), (1, 2), (1, 1)]) ∧
    (resAt (dijStep fix5 (1, 3)) noPause zeroT (dInit (1, 1) 0) 2 =
        Res.goalReached ∧
      recon (stAfter (dijStep fix5 (1, 3)) noPause zeroT (dInit (1, 1) 0)
          3).parents (1, 3) 10 = some [(1, 3), (1, 2), (1, 1)]) ∧
    (resAt (astarStep fix5 (1, 3)) noPause zeroT (aInit (1, 1) 0) 2 =
        Res.goalReached ∧
      recon (stAfter (astarStep fix5 (1, 3)) noPause zeroT (aInit (1, 1) 0)
          3).parents (1, 3) 10 = some [(1, 3), (1, 2), (1, 1)]) := by
  refine ⟨⟨by decide, by decide⟩, ⟨by decide, by decide⟩,
    ⟨by decide, by decide⟩, ⟨by decide, by decide⟩⟩

/-- C6 counterexample: on the 5×5 corridor fixture BFS signals GoalReached
on its third call, and the next call returns the idle outcome — not the
same terminal result, refuting the claim that further `step()` calls return
the terminal result again. -/
theorem C6_counterexample :
    resAt (bfsStep fix5 (1, 3)) noPause zeroT (qInit (1, 1) 0) 2 =
        Res.goalReached ∧
    resAt (bfsStep fix5 (1, 3)) noPause zeroT (qInit (1, 1) 0) 3 =
        Res.idle ∧
    Res.idle ≠ Res.goalReached :=
  ⟨by decide, by decide, by decide⟩

/-- C6 amended: after a call has returned GoalReached or Exhausted
(no-solution), every further call is a no-error no-op: it returns the idle
outcome (it does not re-signal the terminal result) and leaves every
component of the search state — frontier, parent map, distance map,
solving flag and elapsed-time accounting — unchanged, for each of the four
algorithm variants. -/
theorem C6_terminal_noop :
    (∀ (m : Grid) (endP : Coord) (sched : Nat → Bool) (tms : Nat → Int)
        (st0 : QSt) (k j : Nat),
      resAt (bfsStep m endP) sched tms st0 k = Res.goalReached ∨
        resAt (bfsStep m endP) sched tms st0 k = Res.noSolution →
      k < j →
      stAfter (bfsStep m endP) sched tms st0 j =
          stAfter (bfsStep m endP) sched tms st0 (k + 1) ∧
        resAt (bfsStep m endP) sched tms st0 j = Res.idle) ∧
    (∀ (m : Grid) (endP : Coord) (sched : Nat → Bool) (tms : Nat → Int)
        (st0 : QSt) (k j : Nat),
      resAt (dfsStep m endP) sched tms st0 k = Res.goalReached ∨
        resAt (dfsStep m endP) sched tms st0 k = Res.noSolution →
      k < j →
      stAfter (dfsStep m endP) sched tms st0 j =
          stAfter (dfsStep m endP) sched tms st0 (k + 1) ∧
        resAt (dfsStep m endP) sched tms st0 j = Res.idle) ∧
    (∀ (m : Grid) (endP : Coord) (sched : Nat → Bool) (tms : Nat → Int)
        (st0 : DSt) (k j : Nat),
      resAt (dijStep m endP) sched tms st0 k = Res.goalReached ∨
        resAt (dijStep m endP) sched tms st0 k = Res.noSolution →
      k < j →
      stAfter (dijStep m endP) sched tms st0 j =
          stAfter (dijStep m endP) sched tms st0 (k + 1) ∧
        resAt (dijStep m endP) sched tms st0 j = Res.idle) ∧
    (∀ (m : Grid) (endP : Coord) (sched : Nat → Bool) (tms : Nat → Int)
        (st0 : ASt) (k j : Nat),
      resAt (astarStep m endP) sched tms st0 k = Res.goalReached ∨
        resAt (astarStep m endP) sched tms st0 k = Res.noSolution →
      k < j →
      stAfter (astarStep m endP) sched tms st0 j =
          stAfter (astarStep m endP) sched tms st0 (k + 1) ∧
        resAt (astarStep m endP) sched tms st0 j = Res.idle) := by
  refine ⟨?_, ?_, ?_, ?_⟩
  · intro m endP sched tms st0 k j hk hkj
    exact terminal_stable (bfsStep m endP) QSt.solving
      (fun p t st h => bfsStep_idle m endP p t st h)
      (fun p t st h => bfsStep_terminal m endP p t st h)
      sched tms st0 k hk j hkj
  · intro m endP sched tms st0 k j hk hkj
    exact terminal_stable (dfsStep m endP) QSt.solving
      (fun p t st h => dfsStep_idle m endP p t st h)
      (fun p t st h => dfsStep_terminal m endP p t st h)
      sched tms st0 k hk j hkj
  · intro m endP sched tms st0 k j hk hkj
    exact terminal_stable (dijStep m endP) DSt.solving
      (fun p t st h => dijStep_idle m endP p t st h)
      (fun p t st h => dijStep_terminal m endP p t st h)
      sched tms st0 k hk j hkj
  · intro m endP sched tms st0 k j hk hkj
    exact terminal_stable (astarStep m endP) ASt.solving
      (fun p t st h => astarStep_idle m endP p t st h)
      (fun p t st h => astarStep_terminal m endP p t st h)
      sched tms st0 k hk j hkj

/-- Witness for the amended C6: after BFS terminates on the fixture (call 2
returns GoalReached), call 4 leaves the state of call 3 unchanged and
returns idle. -/
theorem C6_witness :
    (resAt (bfsStep fix5 (1, 3)) noPause zeroT (qInit (1, 1) 0) 2 =
        Res.goalReached ∨
      resAt (bfsStep fix5 (1, 3)) noPause zeroT (qInit (1, 1) 0) 2 =
        Res.noSolution) ∧ 2 < 4 ∧
    (stAfter (bfsStep fix5 (1, 3)) noPause zeroT (qInit (1, 1) 0) 4 =
        stAfter (bfsStep fix5 (1, 3)) noPause zeroT (qInit (1, 1) 0) 3 ∧
      resAt (bfsStep fix5 (1, 3)) noPause zeroT (qInit (1, 1) 0) 4 =
        Res.idle) :=
  ⟨Or.inl (by decide), by decide,
    C6_terminal_noop.1 fix5 (1, 3) noPause zeroT (qInit (1, 1) 0) 2 4
      (Or.inl (by decide)) (by decide)⟩

/-- C8 counterexample: `(0,0)` is a Wall cell of the fixture, yet
`on_solve_maze` with start `(0,0)` does not fail with any notification — it
starts the solve (the seeded state has `solving = true`).  The source
performs no wall or bounds validation at solve time. -/
theorem C8_counterexample :
    isPass fix5 (0, 0) = false ∧
    on_solve_maze (some fix5) (some (0, 0)) (some (1, 1)) Algo.bfs 0 =
      SolveOut.started (SolveSt.q (qInit (0, 0) 0)) ∧
    (qInit (0, 0) 0).solving = true :=
  ⟨by decide, rfl, rfl⟩

/-- C8 amended: a solve with a missing maze or a missing start/goal fails
with a blocking notification and is not started; canvas clicks never select
a wall cell (such clicks leave the selection unchanged) and out-of-range
clicks raise, also leaving the selection unchanged; `on_solve_maze` itself
performs no wall or bounds validation, so any present coordinates start the
solve. -/
theorem C8_validation :
    (∀ (sp ep : Option Coord) (algo : Algo) (t0 : Int),
      on_solve_maze none sp ep algo t0 = SolveOut.errNoMaze) ∧
    (∀ (m : Grid) (ep : Option Coord) (algo : Algo) (t0 : Int),
      on_solve_maze (some m) none ep algo t0 = SolveOut.errNoPoints) ∧
    (∀ (m : Grid) (sp : Option Coord) (algo : Algo) (t0 : Int),
      on_solve_maze (some m) sp none algo t0 = SolveOut.errNoPoints) ∧
    (∀ (m : Grid) (mode : Option SelMode) (x y : Int) (sp ep : Option Coord)
        (v : Nat), pyGet2 m y x = some v → v ≠ 0 →
      on_canvas_click (some m) mode x y sp ep = (false, sp, ep)) ∧
    (∀ (m : Grid) (mode : Option SelMode) (x y : Int) (sp ep : Option Coord),
      pyGet2 m y x = none →
      on_canvas_click (some m) mode x y sp ep = (true, sp, ep)) ∧
    (∀ (m : Grid) (s e : Coord) (t0 : Int),
      on_solve_maze (some m) (some s) (some e) Algo.bfs t0 =
        SolveOut.started (SolveSt.q (qInit s t0))) := by
  refine ⟨?_, ?_, ?_, ?_, ?_, ?_⟩
  · intro sp ep algo t0
    rfl
  · intro m ep algo t0
    cases ep <;> rfl
  · intro m sp algo t0
    cases sp <;> rfl
  · intro m mode x y sp ep v h hv
    simp only [on_canvas_click, h, if_pos hv]
  · intro m mode x y sp ep h
    simp only [on_canvas_click, h]
  · intro m s e t0
    rfl

/-- Witness for the amended C8: a click on the wall cell `(0,0)` of the
fixture leaves the selection unchanged and raises nothing. -/
theorem C8_witness :
    pyGet2 fix5 0 0 = some 1 ∧ (1 : Nat) ≠ 0 ∧
    on_canvas_click (some fix5) (some SelMode.selStart) 0 0 none none =
      (false, none, none) :=
  ⟨by decide, by decide,
    C8_validation.2.2.2.1 fix5 (some SelMode.selStart) 0 0 none none 1
      (by decide) (by decide)⟩

/-- C9: for a fixed grid, start, goal and algorithm choice, a paused drive
tick never modifies engine state, and driving with a pause window of any
width `M` starting after `N` steps yields, at corresponding ticks, the same
painted-cell stream, the same reconstructed path and the same step results
as the never-paused drive — for each of the four algorithm variants. -/
theorem C9_pause_resume (m : Grid) (endP s : Coord) (t0 : Int) (N M : Nat)
    (tms1 tms0 : Nat → Int) (j fuel : Nat) :
    ((∀ (t : Int) (st : QSt), (bfsStep m endP true t st).1 = st) ∧
      visUpTo (bfsStep m endP) (pw N M) tms1 (qInit s t0) (shiftIdx N M j) =
        visUpTo (bfsStep m endP) noPause tms0 (qInit s t0) j ∧
      recon (stAfter (bfsStep m endP) (pw N M) tms1 (qInit s t0)
          (shiftIdx N M j)).parents endP fuel =
        recon (stAfter (bfsStep m endP) noPause tms0 (qInit s t0) j).parents
          endP fuel ∧
      resAt (bfsStep m endP) (pw N M) tms1 (qInit s t0) (shiftIdx N M j) =
        resAt (bfsStep m endP) noPause tms0 (qInit s t0) j) ∧
    ((∀ (t : Int) (st : QSt), (dfsStep m endP true t st).1 = st) ∧
      visUpTo (dfsStep m endP) (pw N M) tms1 (qInit s t0) (shiftIdx N M j) =
        visUpTo (dfsStep m endP) noPause tms0 (qInit s t0) j ∧
      recon (stAfter (dfsStep m endP) (pw N M) tms1 (qInit s t0)
          (shiftIdx N M j)).parents endP fuel =
        recon (stAfter (dfsStep m endP) noPause tms0 (qInit s t0) j).parents
          endP fuel ∧
      resAt (dfsStep m endP) (pw N M) tms1 (qInit s t0) (shiftIdx N M j) =
        resAt (dfsStep m endP) noPause tms0 (qInit s t0) j) ∧
    ((∀ (t : Int) (st : DSt), (dijStep m endP true t st).1 = st) ∧
      visUpTo (dijStep m endP) (pw N M) tms1 (dInit s t0) (shiftIdx N M j) =
        visUpTo (dijStep m endP) noPause tms0 (dInit s t0) j ∧
      recon (stAfter (dijStep m endP) (pw N M) tms1 (dInit s t0)
          (shiftIdx N M j)).parents endP fuel =
        recon (stAfter (dijStep m endP) noPause tms0 (dInit s t0) j).parents
          endP fuel ∧
      resAt (dijStep m endP) (pw N M) tms1 (dInit s t0) (shiftIdx N M j) =
        resAt (dijStep m endP) noPause tms0 (dInit s t0) j) ∧
    ((∀ (t : Int) (st : ASt), (astarStep m endP true t st).1 = st) ∧
      visUpTo (astarStep m endP) (pw N M) tms1 (aInit s t0) (shiftIdx N M j) =
        visUpTo (astarStep m endP) noPause tms0 (aInit s t0) j ∧
      recon (stAfter (astarStep m endP) (pw N M) tms1 (aInit s t0)
          (shiftIdx N M j)).parents endP fuel =
        recon (stAfter (astarStep m endP) noPause tms0 (aInit s t0)
          j).parents endP fuel ∧
      resAt (astarStep m endP) (pw N M) tms1 (aInit s t0) (shiftIdx N M j) =
        resAt (astarStep m endP) noPause tms0 (aInit s t0) j) := by
  refine ⟨?_, ?_, ?_, ?_⟩
  · have hpause := fun t st => (bfsStep_pause m endP t st).1
    have hpvis := fun t st => (bfsStep_pause m endP t st).2
    have hstep := fun p t t' s1 s2 hc => bfsStep_core m endP p t t' s1 s2 hc
    have hrefl : coreQ (qInit s t0) (qInit s t0) := ⟨rfl, rfl, rfl⟩
    have hcore := pauseRun_core (bfsStep m endP) coreQ hstep hpause N M tms1
      tms0 (qInit s t0) hrefl j
    exact ⟨hpause,
      pauseRun_vis (bfsStep m endP) coreQ hstep hpause hpvis N M tms1 tms0
        (qInit s t0) hrefl j,
      by rw [hcore.2.1],
      pauseRun_res (bfsStep m endP) coreQ hstep hpause N M tms1 tms0
        (qInit s t0) hrefl j⟩
  · have hpause := fun t st => (dfsStep_pause m endP t st).1
    have hpvis := fun t st => (dfsStep_pause m endP t st).2
    have hstep := fun p t t' s1 s2 hc => dfsStep_core m endP p t t' s1 s2 hc
    have hrefl : coreQ (qInit s t0) (qInit s t0) := ⟨rfl, rfl, rfl⟩
    have hcore := pauseRun_core (dfsStep m endP) coreQ hstep hpause N M tms1
      tms0 (qInit s t0) hrefl j
    exact ⟨hpause,
      pauseRun_vis (dfsStep m endP) coreQ hstep hpause hpvis N M tms1 tms0
        (qInit s t0) hrefl j,
      by rw [hcore.2.1],
      pauseRun_res (dfsStep m endP) coreQ hstep hpause N M tms1 tms0
        (qInit s t0) hrefl j⟩
  · have hpause := fun t st => (dijStep_pause m endP t st).1
    have hpvis := fun t st => (dijStep_pause m endP t st).2
    have hstep := fun p t t' s1 s2 hc => dijStep_core m endP p t t' s1 s2 hc
    have hrefl : coreD (dInit s t0) (dInit s t0) := ⟨rfl, rfl, rfl, rfl⟩
    have hcore := pauseRun_core (dijStep m endP) coreD hstep hpause N M tms1
      tms0 (dInit s t0) hrefl j
    exact ⟨hpause,
      pauseRun_vis (dijStep m endP) coreD hstep hpause hpvis N M tms1 tms0
        (dInit s t0) hrefl j,
      by rw [hcore.2.2.1],
      pauseRun_res (dijStep m endP) coreD hstep hpause N M tms1 tms0
        (dInit s t0) hrefl j⟩
  · have hpause := fun t st => (astarStep_pause m endP t st).1
    have hpvis := fun t st => (astarStep_pause m endP t st).2
    have hstep := fun p t t' s1 s2 hc => astarStep_core m endP p t t' s1 s2 hc
    have hrefl : coreA (aInit s t0) (aInit s t0) := ⟨rfl, rfl, rfl, rfl⟩
    have hcore := pauseRun_core (astarStep m endP) coreA hstep hpause N M
      tms1 tms0 (aInit s t0) hrefl j
    exact ⟨hpause,
      pauseRun_vis (astarStep m endP) coreA hstep hpause hpvis N M tms1 tms0
        (aInit s t0) hrefl j,
      by rw [hcore.2.2.1],
      pauseRun_res (astarStep m endP) coreA hstep hpause N M tms1 tms0
        (aInit s t0) hrefl j⟩


/- Specification-side notions: 4-connected paths through passage cells and
reachability.  `PathN m s c n` holds when there is a walk of `n` unit moves
from `s` to `c` through passable cells. -/
inductive PathN (m : Grid) (s : Coord) : Coord → Nat → Prop where
  | refl : isPass m s = true → PathN m s s 0
  | step {u : Coord} {n : Nat} {dd : Coord} : PathN m s u n → dd ∈ dirs →
      isPass m (cadd u dd) = true → PathN m s (cadd u dd) (n + 1)

def Reach (m : Grid) (s c : Coord) : Prop := ∃ n, PathN m s c n

theorem PathN.pass_target {m : Grid} {s c : Coord} {n : Nat}
    (h : PathN m s c n) : isPass m c = true := by
  cases h with
  | refl hs => exact hs
  | step _ _ hp => exact hp

theorem PathN.pass_start {m : Grid} {s c : Coord} {n : Nat}
    (h : PathN m s c n) : isPass m s = true := by
  induction h with
  | refl hs => exact hs
  | step _ _ _ ih => exact ih

theorem PathN.monoGrid {m m2 : Grid} {s c : Coord} {n : Nat}
    (hsub : ∀ d, isPass m d = true → isPass m2 d = true)
    (h : PathN m s c n) : PathN m2 s c n := by
  induction h with
  | refl hs => exact .refl (hsub _ hs)
  | step _ hd hp ih => exact .step ih hd (hsub _ hp)

/- Total cell-value sum of a grid; the termination measure of the carve
loop, since carving always zeroes a cell that held `1`. -/
def sumVal (m : Grid) : Nat := (m.map List.sum).sum

theorem pyIdx_pos {len : Nat} {i : Int} (h0 : 0 ≤ i) (h1 : i < (len : Int)) :
    pyIdx len i = some i.toNat := by
  unfold pyIdx
  rw [if_pos ⟨h0, h1⟩]

theorem pyGet_pos {α : Type} {l : List α} {i : Int} (h0 : 0 ≤ i)
    (h1 : i < (l.length : Int)) : pyGet l i = l[i.toNat]? := by
  unfold pyGet
  rw [pyIdx_pos h0 h1]
  simp [List.get?_eq_getElem?]

theorem pySet_pos {α : Type} {l : List α} {i : Int} (h0 : 0 ≤ i)
    (h1 : i < (l.length : Int)) (a : α) :
    pySet l i a = some (l.set i.toNat a) := by
  unfold pySet
  rw [pyIdx_pos h0 h1]
  rfl

theorem pyIdx_none {len : Nat} {i : Int} (h0 : 0 ≤ i)
    (h1 : ¬ i < (len : Int)) : pyIdx len i = none := by
  unfold pyIdx
  rw [if_neg (fun hc => h1 hc.2), if_neg (by omega)]

theorem pyGet_none {α : Type} {l : List α} {i : Int} (h0 : 0 ≤ i)
    (h1 : ¬ i < (l.length : Int)) : pyGet l i = none := by
  unfold pyGet
  rw [pyIdx_none h0 h1]
  rfl

theorem sum_set_nat (l : List Nat) (v : Nat) :
    ∀ (i : Nat) (h : i < l.length), (l.set i v).sum + l[i] = l.sum + v := by
  induction l with
  | nil => intro i h; simp at h
  | cons a t ih =>
    intro i h
    cases i with
    | zero =>
      simp only [List.set_cons_zero, List.sum_cons, List.getElem_cons_zero]
      omega
    | succ j =>
      have hj : j < t.length := by simpa using h
      have := ih j hj
      simp only [List.set_cons_succ, List.sum_cons, List.getElem_cons_succ]
      omega

theorem sumVal_set (m : Grid) (r : List Nat) :
    ∀ (i : Nat) (h : i < m.length),
      sumVal (m.set i r) + m[i].sum = sumVal m + r.sum := by
  induction m with
  | nil => intro i h; simp at h
  | cons a t ih =>
    intro i h
    cases i with
    | zero =>
      simp only [List.set_cons_zero, sumVal, List.map_cons, List.sum_cons,
        List.getElem_cons_zero]
      omega
    | succ j =>
      have hj : j < t.length := by simpa using h
      have := ih j hj
      simp only [List.set_cons_succ, sumVal, List.map_cons, List.sum_cons,
        List.getElem_cons_succ] at *
      omega

/- Effect of the guarded write `maze[y][x] = v` on a rectangular grid:
success, preserved shape, pointwise reads, and the exact sum change. -/
theorem pySet2_spec {m : Grid} {w : Nat} (hrect : ∀ row ∈ m, row.length = w)
    {y x : Int} (hy0 : 0 ≤ y) (hy1 : y < (m.length : Int)) (hx0 : 0 ≤ x)
    (hx1 : x < (w : Int)) (v : Nat) :
    ∃ m2 u, pySet2 m y x v = some m2 ∧ pyGet2 m y x = some u ∧
      m2.length = m.length ∧ (∀ row ∈ m2, row.length = w) ∧
      (∀ y2 x2 : Int, 0 ≤ y2 → 0 ≤ x2 →
        pyGet2 m2 y2 x2 = if y2 = y ∧ x2 = x then some v else pyGet2 m y2 x2) ∧
      sumVal m2 + u = sumVal m + v := by
  have hyn : y.toNat < m.length := by omega
  have hrow := hrect m[y.toNat] (List.getElem_mem hyn)
  have hxn : x.toNat < m[y.toNat].length := by rw [hrow]; omega
  refine ⟨m.set y.toNat (m[y.toNat].set x.toNat v), m[y.toNat][x.toNat],
    ?_, ?_, ?_, ?_, ?_, ?_⟩
  · unfold pySet2
    rw [pyGet_pos hy0 hy1, List.getElem?_eq_getElem hyn, Option.some_bind,
      pySet_pos hx0 (by rw [hrow]; exact hx1) v, Option.some_bind]
    exact pySet_pos hy0 hy1 _
  · unfold pyGet2
    rw [pyGet_pos hy0 hy1, List.getElem?_eq_getElem hyn, Option.some_bind,
      pyGet_pos hx0 (by rw [hrow]; exact hx1), List.getElem?_eq_getElem hxn]
  · exact List.length_set m y.toNat _
  · intro row hmem
    rcases List.mem_or_eq_of_mem_set hmem with h | h
    · exact hrect row h
    · rw [h, List.length_set]
      exact hrow
  · intro y2 x2 hy2 hx2
    by_cases hsame : y2 = y ∧ x2 = x
    · rw [if_pos hsame, hsame.1, hsame.2]
      unfold pyGet2
      rw [pyGet_pos hy0 (by rw [List.length_set]; exact hy1),
        List.getElem?_set_self hyn, Option.some_bind,
        pyGet_pos hx0 (by rw [List.length_set, hrow]; exact hx1),
        List.getElem?_set_self hxn]
    · rw [if_neg hsame]
      unfold pyGet2
      by_cases hy2b : y2 < (m.length : Int)
      · rw [pyGet_pos hy2 (by rw [List.length_set]; exact hy2b),
          pyGet_pos hy2 hy2b]
        by_cases hyy : y2.toNat = y.toNat
        · have hyy2 : y2 = y := by omega
          have hxx : ¬ x2 = x := fun hc => hsame ⟨hyy2, hc⟩
          rw [hyy, List.getElem?_set_self hyn, Option.some_bind,
            List.getElem?_eq_getElem hyn, Option.some_bind]
          by_cases hx2b : x2 < ((m[y.toNat].length : Nat) : Int)
          · rw [pyGet_pos hx2 (by rw [List.length_set]; exact hx2b),
              pyGet_pos hx2 hx2b,
              List.getElem?_set_ne (fun hc : x.toNat = x2.toNat => hxx (by omega))]
          · rw [pyGet_none hx2 (by rw [List.length_set]; exact hx2b),
              pyGet_none hx2 hx2b]
        · rw [List.getElem?_set_ne (fun hc : y.toNat = y2.toNat => hyy hc.symm)]
      · rw [pyGet_none hy2 (by rw [List.length_set]; exact hy2b),
          pyGet_none hy2 hy2b]
  · have h1 := sum_set_nat m[y.toNat] v x.toNat hxn
    have h2 := sumVal_set m (m[y.toNat].set x.toNat v) y.toNat hyn
    omega


theorem getD_mem {α : Type} (l : List α) (r : Nat) (d : α) (h : ¬ l = []) :
    l.getD (r % l.length) d ∈ l := by
  have hlen : 0 < l.length := List.length_pos.mpr h
  have hr : r % l.length < l.length := Nat.mod_lt _ hlen
  rw [List.getD_eq_getElem?_getD, List.getElem?_eq_getElem hr]
  exact List.getElem_mem hr

theorem mem_genNbrs {m : Grid} {w h : Nat} {x y : Int} {nb : Coord × Coord} :
    nb ∈ genNbrs m w h x y ↔ ∃ d ∈ genDirs,
      nb = ((x + d.1, y + d.2), d) ∧ 0 < x + d.1 ∧ x + d.1 < (w : Int) ∧
      0 < y + d.2 ∧ y + d.2 < (h : Int) ∧
      pyGet2 m (y + d.2) (x + d.1) = some 1 := by
  unfold genNbrs
  rw [List.mem_filterMap]
  constructor
  · rintro ⟨d, hd, hf⟩
    split at hf
    · rename_i hcond
      obtain ⟨h1, h2, h3, h4, h5⟩ := hcond
      cases hf
      exact ⟨d, hd, rfl, h1, h2, h3, h4, h5⟩
    · cases hf
  · rintro ⟨d, hd, rfl, h1, h2, h3, h4, h5⟩
    exact ⟨d, hd, by rw [if_pos ⟨h1, h2, h3, h4, h5⟩]⟩

/- Zeta-expanded unfolding of one `while cell_list:` iteration. -/
theorem carve_unfold (w h : Nat) (rng : Nat → Nat) (fuel k : Nat) (m : Grid)
    (cl : List Coord)
    (c0 : Coord) (hc0 : c0 = cl.getD (rng k % cl.length) (0, 0))
    (nbs : List (Coord × Coord)) (hnbs : nbs = genNbrs m w h c0.1 c0.2)
    (nb : Coord × Coord)
    (hnb : nb = nbs.getD (rng (k + 1) % nbs.length) ((0, 0), (0, 0))) :
    carve w h rng (fuel + 1) k m cl =
      if cl = [] then some m
      else if nbs = [] then carve w h rng fuel (k + 1) m (cl.erase c0)
      else
        match pySet2 m (c0.2 + nb.2.2 / 2) (c0.1 + nb.2.1 / 2) 0 with
        | none => none
        | some m1 =>
          match pySet2 m1 nb.1.2 nb.1.1 0 with
          | none => none
          | some m2 => carve w h rng fuel (k + 2) m2 (cl ++ [nb.1]) := by
  subst hc0
  subst hnbs
  subst hnb
  rfl

theorem genDir_cases {d : Coord} (hd : d ∈ genDirs) :
    d = (2, 0) ∨ d = (-2, 0) ∨ d = (0, 2) ∨ d = (0, -2) := by
  simpa [genDirs] using hd


theorem pyGet2_pos {w : Nat} {m : Grid} (hrect : ∀ row ∈ m, row.length = w)
    {y x : Int} (hy0 : 0 ≤ y) (hy1 : y < (m.length : Int)) (hx0 : 0 ≤ x)
    (hx1 : x < (w : Int)) :
    ∃ u, pyGet2 m y x = some u ∧ cellAt m x y = u := by
  have hyn : y.toNat < m.length := by omega
  have hrow := hrect m[y.toNat] (List.getElem_mem hyn)
  have hxn : x.toNat < m[y.toNat].length := by rw [hrow]; omega
  refine ⟨m[y.toNat][x.toNat], ?_, ?_⟩
  · unfold pyGet2
    rw [pyGet_pos hy0 hy1, List.getElem?_eq_getElem hyn, Option.some_bind,
      pyGet_pos hx0 (by rw [hrow]; exact hx1), List.getElem?_eq_getElem hxn]
  · unfold cellAt
    rw [List.getD_eq_getElem?_getD, List.getD_eq_getElem?_getD,
      List.getElem?_eq_getElem hyn]
    simp only [Option.getD_some]
    rw [List.getElem?_eq_getElem hxn]
    simp only [Option.getD_some]

theorem isPass_char {w h : Nat} {m : Grid} (hlen : m.length = h)
    (hrect : ∀ row ∈ m, row.length = w) (hh : 0 < h) (c : Coord) :
    isPass m c = true ↔
      0 ≤ c.1 ∧ c.1 < (w : Int) ∧ 0 ≤ c.2 ∧ c.2 < (h : Int) ∧
        pyGet2 m c.2 c.1 = some 0 := by
  have hcols : gridCols m = w := by
    cases m with
    | nil => rw [← hlen] at hh; simp at hh
    | cons a t =>
      unfold gridCols
      exact hrect a (List.mem_cons_self a t)
  have hrows : gridRows m = h := hlen
  constructor
  · intro hp
    unfold isPass inB at hp
    simp only [Bool.and_eq_true, decide_eq_true_eq, beq_iff_eq] at hp
    obtain ⟨⟨⟨⟨h1, h2⟩, h3⟩, h4⟩, h5⟩ := hp
    rw [hcols] at h2
    rw [hrows] at h4
    obtain ⟨u, hu, hcu⟩ := pyGet2_pos hrect h3 (by omega) h1 h2
    refine ⟨h1, h2, h3, h4, ?_⟩
    rw [hu, ← hcu, h5]
  · rintro ⟨h1, h2, h3, h4, h5⟩
    obtain ⟨u, hu, hcu⟩ := pyGet2_pos hrect h3 (by omega) h1 h2
    have hu0 : u = 0 := by
      rw [hu] at h5
      exact Option.some.inj h5
    unfold isPass inB
    simp only [Bool.and_eq_true, decide_eq_true_eq, beq_iff_eq]
    exact ⟨⟨⟨⟨h1, by rw [hcols]; exact h2⟩, h3⟩, by rw [hrows]; exact h4⟩,
      by rw [hcu, hu0]⟩

/- The two carve writes: success, shape, sum decrease, passage monotonicity,
and the adjacency facts that keep every passage reachable. -/
theorem carve_write_spec {w h : Nat} {m : Grid} (hml : m.length = h)
    (hrect : ∀ row ∈ m, row.length = w)
    {c : Coord} (hcb : 0 < c.1 ∧ c.1 < (w : Int) ∧ 0 < c.2 ∧ c.2 < (h : Int))
    {d : Coord} (hd : d ∈ genDirs)
    (hb1 : 0 < c.1 + d.1) (hb2 : c.1 + d.1 < (w : Int))
    (hb3 : 0 < c.2 + d.2) (hb4 : c.2 + d.2 < (h : Int))
    (hread : pyGet2 m (c.2 + d.2) (c.1 + d.1) = some 1) :
    ∃ m1 m2,
      pySet2 m (c.2 + d.2 / 2) (c.1 + d.1 / 2) 0 = some m1 ∧
      pySet2 m1 (c.2 + d.2) (c.1 + d.1) 0 = some m2 ∧
      m2.length = h ∧ (∀ row ∈ m2, row.length = w) ∧
      sumVal m2 + 1 ≤ sumVal m ∧
      (∀ c2, isPass m c2 = true → isPass m2 c2 = true) ∧
      (d.1 / 2, d.2 / 2) ∈ dirs ∧
      cadd c (d.1 / 2, d.2 / 2) = (c.1 + d.1 / 2, c.2 + d.2 / 2) ∧
      cadd (cadd c (d.1 / 2, d.2 / 2)) (d.1 / 2, d.2 / 2) =
        (c.1 + d.1, c.2 + d.2) ∧
      isPass m2 (c.1 + d.1 / 2, c.2 + d.2 / 2) = true ∧
      isPass m2 (c.1 + d.1, c.2 + d.2) = true ∧
      (∀ c2, isPass m2 c2 = true → isPass m c2 = true ∨
        c2 = (c.1 + d.1 / 2, c.2 + d.2 / 2) ∨ c2 = (c.1 + d.1, c.2 + d.2)) := by
  obtain ⟨hc1, hc2, hc3, hc4⟩ := hcb
  have hh : 0 < h := by omega
  have hdhalf : d.1 / 2 + d.1 / 2 = d.1 ∧ d.2 / 2 + d.2 / 2 = d.2 ∧
      (d.1 / 2, d.2 / 2) ∈ dirs ∧ ¬ (d.2 = d.2 / 2 ∧ d.1 = d.1 / 2) := by
    rcases genDir_cases hd with rfl | rfl | rfl | rfl <;>
      exact ⟨by decide, by decide, by decide, by decide⟩
  have hmb : 0 ≤ c.1 + d.1 / 2 ∧ c.1 + d.1 / 2 < (w : Int) ∧
      0 ≤ c.2 + d.2 / 2 ∧ c.2 + d.2 / 2 < (h : Int) := by
    rcases genDir_cases hd with rfl | rfl | rfl | rfl <;>
      · dsimp only at hb1 hb2 hb3 hb4 ⊢
        norm_num at hb1 hb2 hb3 hb4 ⊢
        omega
  obtain ⟨m1, u1, hw1, hr1, hlen1, hrect1, hchar1, hsum1⟩ :=
    pySet2_spec hrect hmb.2.2.1 (by rw [hml]; exact hmb.2.2.2) hmb.1
      (by exact hmb.2.1) 0
  obtain ⟨m2, u2, hw2, hr2, hlen2, hrect2, hchar2, hsum2⟩ :=
    pySet2_spec hrect1 hb3.le (by rw [hlen1, hml]; exact hb4) hb1.le hb2 0
  have hu2 : u2 = 1 := by
    rw [hchar1 (c.2 + d.2) (c.1 + d.1) (by omega) (by omega),
      if_neg (by intro hcc; exact hdhalf.2.2.2 ⟨by omega, by omega⟩),
      hread] at hr2
    exact (Option.some.inj hr2).symm
  have hml2 : m2.length = h := by rw [hlen2, hlen1, hml]
  have hchar12 : ∀ y2 x2 : Int, 0 ≤ y2 → 0 ≤ x2 →
      pyGet2 m2 y2 x2 =
        if y2 = c.2 + d.2 ∧ x2 = c.1 + d.1 then some 0
        else if y2 = c.2 + d.2 / 2 ∧ x2 = c.1 + d.1 / 2 then some 0
        else pyGet2 m y2 x2 := by
    intro y2 x2 hy2 hx2
    rw [hchar2 y2 x2 hy2 hx2]
    by_cases hcc : y2 = c.2 + d.2 ∧ x2 = c.1 + d.1
    · rw [if_pos hcc, if_pos hcc]
    · rw [if_neg hcc, if_neg hcc, hchar1 y2 x2 hy2 hx2]
  have hpassm2 : ∀ c2 : Coord, isPass m2 c2 = true ↔
      (0 ≤ c2.1 ∧ c2.1 < (w : Int) ∧ 0 ≤ c2.2 ∧ c2.2 < (h : Int) ∧
        pyGet2 m2 c2.2 c2.1 = some 0) :=
    fun c2 => isPass_char hml2 hrect2 hh c2
  have hpassm : ∀ c2 : Coord, isPass m c2 = true ↔
      (0 ≤ c2.1 ∧ c2.1 < (w : Int) ∧ 0 ≤ c2.2 ∧ c2.2 < (h : Int) ∧
        pyGet2 m c2.2 c2.1 = some 0) :=
    fun c2 => isPass_char hml hrect hh c2
  refine ⟨m1, m2, hw1, hw2, hml2, hrect2, by omega, ?_, hdhalf.2.2.1, rfl,
    ?_, ?_, ?_, ?_⟩
  · intro c2 hc2p
    obtain ⟨p1, p2, p3, p4, p5⟩ := (hpassm c2).mp hc2p
    refine (hpassm2 c2).mpr ⟨p1, p2, p3, p4, ?_⟩
    rw [hchar12 c2.2 c2.1 p3 p1]
    by_cases q1 : c2.2 = c.2 + d.2 ∧ c2.1 = c.1 + d.1
    · rw [if_pos q1]
    · rw [if_neg q1]
      by_cases q2 : c2.2 = c.2 + d.2 / 2 ∧ c2.1 = c.1 + d.1 / 2
      · rw [if_pos q2]
      · rw [if_neg q2]
        exact p5
  · unfold cadd
    simp only [Prod.mk.injEq]
    constructor
    · have := hdhalf.1
      omega
    · have := hdhalf.2.1
      omega
  · refine (hpassm2 _).mpr ⟨hmb.1, hmb.2.1, hmb.2.2.1, hmb.2.2.2, ?_⟩
    rw [hchar12 _ _ (by omega) (by omega),
      if_neg (by intro hcc; exact hdhalf.2.2.2 ⟨by omega, by omega⟩),
      if_pos ⟨rfl, rfl⟩]
  · refine (hpassm2 _).mpr ⟨by omega, hb2, by omega, hb4, ?_⟩
    rw [hchar12 _ _ (by omega) (by omega), if_pos ⟨rfl, rfl⟩]
  · intro c2 hc2p
    obtain ⟨p1, p2, p3, p4, p5⟩ := (hpassm2 c2).mp hc2p
    rw [hchar12 c2.2 c2.1 p3 p1] at p5
    by_cases q1 : c2.2 = c.2 + d.2 ∧ c2.1 = c.1 + d.1
    · right; right
      obtain ⟨e1, e2⟩ := q1
      exact Prod.ext e2 e1
    · rw [if_neg q1] at p5
      by_cases q2 : c2.2 = c.2 + d.2 / 2 ∧ c2.1 = c.1 + d.1 / 2
      · right; left
        obtain ⟨e1, e2⟩ := q2
        exact Prod.ext e2 e1
      · rw [if_neg q2] at p5
        left
        exact (hpassm c2).mpr ⟨p1, p2, p3, p4, p5⟩


/- The carve-loop invariant: rectangular `h × w` shape, the active list
holds interior passage cells, and every passage cell is reachable from
`(1,1)`.  The conclusion holds for whatever grid the loop returns. -/
theorem carve_conn (w h : Nat) (rng : Nat → Nat) :
    ∀ (fuel k : Nat) (m : Grid) (cl : List Coord) (g : Grid),
      m.length = h → (∀ row ∈ m, row.length = w) → 0 < h →
      (∀ c ∈ cl, 0 < c.1 ∧ c.1 < (w : Int) ∧ 0 < c.2 ∧ c.2 < (h : Int) ∧
        isPass m c = true) →
      (∀ c, isPass m c = true → Reach m (1, 1) c) →
      carve w h rng fuel k m cl = some g →
      g.length = h ∧ (∀ row ∈ g, row.length = w) ∧
        (∀ c, isPass g c = true → Reach g (1, 1) c) := by
  intro fuel
  induction fuel with
  | zero =>
    intro k m cl g _ _ _ _ _ hc
    exact absurd hc (by simp [carve])
  | succ fuel ih =>
    intro k m cl g hml hrect hh hcl hconn hc
    rw [carve_unfold w h rng fuel k m cl _ rfl _ rfl _ rfl] at hc
    by_cases hcle : cl = []
    · rw [if_pos hcle] at hc
      obtain rfl := Option.some.inj hc
      exact ⟨hml, hrect, hconn⟩
    · rw [if_neg hcle] at hc
      have hcmem : cl.getD (rng k % cl.length) (0, 0) ∈ cl :=
        getD_mem cl _ _ hcle
      set c0 := cl.getD (rng k % cl.length) (0, 0) with hc0def
      obtain ⟨hq1, hq2, hq3, hq4, hq5⟩ := hcl c0 hcmem
      by_cases hnbse : genNbrs m w h c0.1 c0.2 = []
      · rw [if_pos hnbse] at hc
        exact ih (k + 1) m (cl.erase c0) g hml hrect hh
          (fun c2 hcm => hcl c2 (List.mem_of_mem_erase hcm)) hconn hc
      · rw [if_neg hnbse] at hc
        have hnbmem := getD_mem (genNbrs m w h c0.1 c0.2) (rng (k + 1))
          ((0, 0), (0, 0)) hnbse
        set nb := (genNbrs m w h c0.1 c0.2).getD
          (rng (k + 1) % (genNbrs m w h c0.1 c0.2).length) ((0, 0), (0, 0))
          with hnbdef
        obtain ⟨d, hd, hnbeq, hb1, hb2, hb3, hb4, hread⟩ :=
          mem_genNbrs.mp hnbmem
        obtain ⟨m1, m2, hw1, hw2, hml2, hrect2, hsum2, hmono, hddir, hcadd1,
          hcadd2, hpmid, hpnb, hclass⟩ :=
          carve_write_spec hml hrect ⟨hq1, hq2, hq3, hq4⟩ hd hb1 hb2 hb3 hb4
            hread
        rw [hnbeq] at hc
        simp only at hc
        rw [hw1] at hc
        simp only at hc
        rw [hw2] at hc
        simp only at hc
        have hrc0 : Reach m2 (1, 1) c0 := by
          obtain ⟨n, hp⟩ := hconn c0 hq5
          exact ⟨n, hp.monoGrid hmono⟩
        have hrmid : Reach m2 (1, 1) (c0.1 + d.1 / 2, c0.2 + d.2 / 2) := by
          obtain ⟨n, hp⟩ := hrc0
          refine ⟨n + 1, ?_⟩
          rw [← hcadd1]
          exact hp.step hddir (by rw [hcadd1]; exact hpmid)
        have hrnb : Reach m2 (1, 1) (c0.1 + d.1, c0.2 + d.2) := by
          obtain ⟨n, hp⟩ := hrmid
          refine ⟨n + 1, ?_⟩
          rw [← hcadd2]
          refine PathN.step ?_ hddir ?_
          · rw [hcadd1]
            exact hp
          · rw [hcadd2]
            exact hpnb
        have hconn2 : ∀ c2, isPass m2 c2 = true → Reach m2 (1, 1) c2 := by
          intro c2 hp2
          rcases hclass c2 hp2 with hold | hmid | hnbc
          · obtain ⟨n, hp⟩ := hconn c2 hold
            exact ⟨n, hp.monoGrid hmono⟩
          · rw [hmid]
            exact hrmid
          · rw [hnbc]
            exact hrnb
        have hcl2 : ∀ c2 ∈ cl ++ [(c0.1 + d.1, c0.2 + d.2)],
            0 < c2.1 ∧ c2.1 < (w : Int) ∧ 0 < c2.2 ∧ c2.2 < (h : Int) ∧
              isPass m2 c2 = true := by
          intro c2 hcm
          rcases List.mem_append.mp hcm with hcm | hcm
          · obtain ⟨j1, j2, j3, j4, j5⟩ := hcl c2 hcm
            exact ⟨j1, j2, j3, j4, hmono c2 j5⟩
          · obtain rfl := List.mem_singleton.mp hcm
            exact ⟨hb1, hb2, hb3, hb4, hpnb⟩
        exact ih (k + 2) m2 (cl ++ [(c0.1 + d.1, c0.2 + d.2)]) g hml2 hrect2
          hh hcl2 hconn2 hc

/- Termination of the carve loop: with fuel exceeding twice the cell-value
sum plus the active-list length, the loop returns a grid. -/
theorem carve_total (w h : Nat) (rng : Nat → Nat) :
    ∀ (fuel k : Nat) (m : Grid) (cl : List Coord),
      m.length = h → (∀ row ∈ m, row.length = w) → 0 < h →
      (∀ c ∈ cl, 0 < c.1 ∧ c.1 < (w : Int) ∧ 0 < c.2 ∧ c.2 < (h : Int) ∧
        isPass m c = true) →
      2 * sumVal m + cl.length < fuel →
      ∃ g, carve w h rng fuel k m cl = some g := by
  intro fuel
  induction fuel with
  | zero =>
    intro k m cl _ _ _ _ hfuel
    omega
  | succ fuel ih =>
    intro k m cl hml hrect hh hcl hfuel
    rw [carve_unfold w h rng fuel k m cl _ rfl _ rfl _ rfl]
    by_cases hcle : cl = []
    · rw [if_pos hcle]
      exact ⟨m, rfl⟩
    · rw [if_neg hcle]
      have hcmem : cl.getD (rng k % cl.length) (0, 0) ∈ cl :=
        getD_mem cl _ _ hcle
      set c0 := cl.getD (rng k % cl.length) (0, 0) with hc0def
      obtain ⟨hq1, hq2, hq3, hq4, hq5⟩ := hcl c0 hcmem
      by_cases hnbse : genNbrs m w h c0.1 c0.2 = []
      · rw [if_pos hnbse]
        refine ih (k + 1) m (cl.erase c0)  hml hrect hh
          (fun c2 hcm => hcl c2 (List.mem_of_mem_erase hcm)) ?_
        have := List.length_erase_of_mem hcmem
        have hpos : 0 < cl.length := List.length_pos.mpr hcle
        omega
      · rw [if_neg hnbse]
        have hnbmem := getD_mem (genNbrs m w h c0.1 c0.2) (rng (k + 1))
          ((0, 0), (0, 0)) hnbse
        set nb := (genNbrs m w h c0.1 c0.2).getD
          (rng (k + 1) % (genNbrs m w h c0.1 c0.2).length) ((0, 0), (0, 0))
          with hnbdef
        obtain ⟨d, hd, hnbeq, hb1, hb2, hb3, hb4, hread⟩ :=
          mem_genNbrs.mp hnbmem
        obtain ⟨m1, m2, hw1, hw2, hml2, hrect2, hsum2, hmono, hddir, hcadd1,
          hcadd2, hpmid, hpnb, hclass⟩ :=
          carve_write_spec hml hrect ⟨hq1, hq2, hq3, hq4⟩ hd hb1 hb2 hb3 hb4
            hread
        rw [hnbeq]
        simp only
        rw [hw1]
        simp only
        rw [hw2]
        simp only
        have hcl2 : ∀ c2 ∈ cl ++ [(c0.1 + d.1, c0.2 + d.2)],
            0 < c2.1 ∧ c2.1 < (w : Int) ∧ 0 < c2.2 ∧ c2.2 < (h : Int) ∧
              isPass m2 c2 = true := by
          intro c2 hcm
          rcases List.mem_append.mp hcm with hcm | hcm
          · obtain ⟨j1, j2, j3, j4, j5⟩ := hcl c2 hcm
            exact ⟨j1, j2, j3, j4, hmono c2 j5⟩
          · obtain rfl := List.mem_singleton.mp hcm
            exact ⟨hb1, hb2, hb3, hb4, hpnb⟩
        refine ih (k + 2) m2 (cl ++ [(c0.1 + d.1, c0.2 + d.2)]) hml2 hrect2
          hh hcl2 ?_
        have hlapp : (cl ++ [(c0.1 + d.1, c0.2 + d.2)]).length =
            cl.length + 1 := by simp
        omega


theorem sumVal_replicate (hn wn : Nat) :
    sumVal (List.replicate hn (List.replicate wn 1) : Grid) = hn * wn := by
  simp [sumVal, List.sum_replicate, smul_eq_mul]

theorem pyGet2_replicate {hn wn : Nat} {y x : Int} (hy0 : 0 ≤ y)
    (hy1 : y < (hn : Int)) (hx0 : 0 ≤ x) (hx1 : x < (wn : Int)) :
    pyGet2 (List.replicate hn (List.replicate wn 1) : Grid) y x = some 1 := by
  unfold pyGet2
  rw [pyGet_pos hy0 (by rw [List.length_replicate]; exact hy1),
    List.getElem?_replicate, if_pos (by omega), Option.some_bind,
    pyGet_pos hx0 (by rw [List.length_replicate]; exact hx1),
    List.getElem?_replicate, if_pos (by omega)]

theorem init_write_bounds {hn wn : Nat} {m1 : Grid}
    (hs : pySet2 (List.replicate hn (List.replicate wn 1) : Grid) 1 1 0 =
      some m1) : 1 < hn ∧ 1 < wn := by
  by_cases h1 : 1 < hn
  · refine ⟨h1, ?_⟩
    by_cases h2 : 1 < wn
    · exact h2
    · exfalso
      unfold pySet2 at hs
      rw [pyGet_pos (by norm_num)
        (by rw [List.length_replicate]; exact_mod_cast h1),
        List.getElem?_replicate, if_pos (by omega), Option.some_bind] at hs
      unfold pySet at hs
      rw [List.length_replicate,
        pyIdx_none (by norm_num) (by exact_mod_cast h2)] at hs
      simp at hs
  · exfalso
    unfold pySet2 at hs
    unfold pyGet at hs
    rw [List.length_replicate, pyIdx_none (by norm_num)
      (by exact_mod_cast h1)] at hs
    simp at hs

/- The state right after `maze[1][1] = 0` satisfies the carve invariant:
correct shape, `(1,1)` is an interior passage on the active list, the only
passage is `(1,1)` (so connectivity holds trivially) and the cell sum is
`hn * wn - 1`. -/
theorem init_grid_inv {hn wn : Nat} {m1 : Grid}
    (hs : pySet2 (List.replicate hn (List.replicate wn 1) : Grid) 1 1 0 =
      some m1) :
    m1.length = hn ∧ (∀ row ∈ m1, row.length = wn) ∧ 0 < hn ∧
      (∀ c ∈ ([((1 : Int), (1 : Int))] : List Coord),
        0 < c.1 ∧ c.1 < (wn : Int) ∧ 0 < c.2 ∧ c.2 < (hn : Int) ∧
          isPass m1 c = true) ∧
      (∀ c, isPass m1 c = true → Reach m1 (1, 1) c) ∧
      sumVal m1 + 1 = hn * wn := by
  obtain ⟨hhn, hwn⟩ := init_write_bounds hs
  have hwi : (1 : Int) < (wn : Int) := by exact_mod_cast hwn
  have hhi : (1 : Int) < (hn : Int) := by exact_mod_cast hhn
  have hrect0 : ∀ row ∈ (List.replicate hn (List.replicate wn 1) : Grid),
      row.length = wn := by
    intro row hr
    rw [List.eq_of_mem_replicate hr]
    exact List.length_replicate wn 1
  obtain ⟨m1b, u, hwr, hrd, hlen, hrect, hchar, hsum⟩ :=
    @pySet2_spec (List.replicate hn (List.replicate wn 1)) wn hrect0 1 1
      (by norm_num) (by rw [List.length_replicate]; exact hhi)
      (by norm_num) hwi 0
  rw [hs] at hwr
  obtain rfl := Option.some.inj hwr
  have hml : m1.length = hn := by rw [hlen, List.length_replicate]
  have hu : u = 1 := by
    rw [pyGet2_replicate (by norm_num) hhi (by norm_num) hwi] at hrd
    exact (Option.some.inj hrd).symm
  have hpass11 : isPass m1 (1, 1) = true := by
    refine (isPass_char hml hrect (by omega) (1, 1)).mpr
      ⟨by norm_num, hwi, by norm_num, hhi, ?_⟩
    rw [hchar 1 1 (by norm_num) (by norm_num), if_pos ⟨rfl, rfl⟩]
  refine ⟨hml, hrect, by omega, ?_, ?_, ?_⟩
  · intro c hc
    obtain rfl := List.mem_singleton.mp hc
    exact ⟨by norm_num, hwi, by norm_num, hhi, hpass11⟩
  · intro c hp
    obtain ⟨p1, p2, p3, p4, p5⟩ :=
      (isPass_char hml hrect (by omega) c).mp hp
    rw [hchar c.2 c.1 p3 p1] at p5
    by_cases hq : c.2 = 1 ∧ c.1 = 1
    · have hc11 : c = (1, 1) := Prod.ext hq.2 hq.1
      subst hc11
      exact ⟨0, PathN.refl hpass11⟩
    · rw [if_neg hq, pyGet2_replicate p3 p4 p1 p2] at p5
      exact absurd p5 (by simp)
  · rw [hu, sumVal_replicate] at hsum
    omega

theorem normOdd_ge3 {n : Nat} (h : 2 ≤ n) :
    3 ≤ normOdd n ∧ normOdd n % 2 = 1 := by
  unfold normOdd
  split <;> omega

/-- C2: for every pair of input dimensions and every sequence of random
choices (and any loop fuel), every Passage cell of a grid returned by
`generate_maze` is reachable from `(1,1)` by 4-connected moves through
Passage cells only. -/
theorem C2_connectivity (rng : Nat → Nat) (fuel width height : Nat)
    (g : Grid) (hgen : generate_maze rng fuel width height = some g) :
    ∀ c : Coord, isPass g c = true → Reach g (1, 1) c := by
  have hgen2 : (match pySet2
      (List.replicate (normOdd height) (List.replicate (normOdd width) 1) :
        Grid) 1 1 0 with
    | none => none
    | some m1 => carve (normOdd width) (normOdd height) rng fuel 0 m1
        [(1, 1)]) = some g := hgen
  cases hs : pySet2
      (List.replicate (normOdd height) (List.replicate (normOdd width) 1) :
        Grid) 1 1 0 with
  | none =>
    rw [hs] at hgen2
    simp at hgen2
  | some m1 =>
    rw [hs] at hgen2
    simp only at hgen2
    obtain ⟨hml, hrect, hh, hcl, hconn, _⟩ := init_grid_inv hs
    exact (carve_conn (normOdd width) (normOdd height) rng fuel 0 m1
      [(1, 1)] g hml hrect hh hcl hconn hgen2).2.2

/-- Witness for C2: a concrete 3×3 generation (the degenerate single-cell
maze) whose unique passage `(1,1)` the theorem proves reachable. -/
theorem C2_witness :
    generate_maze (fun _ => 0) 5 3 3 =
      some [[1, 1, 1], [1, 0, 1], [1, 1, 1]] ∧
    isPass [[1, 1, 1], [1, 0, 1], [1, 1, 1]] (1, 1) = true ∧
    Reach [[1, 1, 1], [1, 0, 1], [1, 1, 1]] (1, 1) (1, 1) :=
  ⟨by decide, by decide,
    C2_connectivity (fun _ => 0) 5 3 3 _ (by decide) (1, 1) (by decide)⟩

/-- C4 counterexample: `generate_maze` with the positive input pair `(1,1)`
raises an IndexError on the initial write `maze[1][1] = 0` (no grid is
returned, for any random choices and any fuel): the code has no clamping to
a minimum viable odd size. -/
theorem C4_counterexample :
    generate_maze (fun _ => 0) 100 1 1 = none ∧ 0 < 1 := ⟨by decide, by decide⟩

/-- C4 amended: an input of `1` (or `0`) in either dimension makes
`generate_maze` raise (there is no clamping); for every pair of inputs that
are at least 2, and fuel at least `2·(normOdd width · normOdd height) + 1`,
`generate_maze` returns a grid without error, whose height and width are the
inputs incremented by one if even (hence odd and at least 3). -/
theorem C4_dims :
    (∀ (rng : Nat → Nat) (fuel : Nat),
      generate_maze rng fuel 1 1 = none) ∧
    (∀ (rng : Nat → Nat) (width height : Nat), 2 ≤ width → 2 ≤ height →
      ∀ fuel, 2 * (normOdd width * normOdd height) + 1 ≤ fuel →
      ∃ g, generate_maze rng fuel width height = some g ∧
        g.length = normOdd height ∧ (∀ row ∈ g, row.length = normOdd width) ∧
        3 ≤ normOdd width ∧ 3 ≤ normOdd height ∧
        normOdd width % 2 = 1 ∧ normOdd height % 2 = 1) := by
  constructor
  · intro rng fuel
    rfl
  · intro rng width height hw hh fuel hfuel
    obtain ⟨hw3, hwodd⟩ := normOdd_ge3 hw
    obtain ⟨hh3, hhodd⟩ := normOdd_ge3 hh
    have hgeq : generate_maze rng fuel width height = (match pySet2
        (List.replicate (normOdd height) (List.replicate (normOdd width) 1) :
          Grid) 1 1 0 with
      | none => none
      | some m1 => carve (normOdd width) (normOdd height) rng fuel 0 m1
          [(1, 1)]) := rfl
    cases hs : pySet2
        (List.replicate (normOdd height) (List.replicate (normOdd width) 1) :
          Grid) 1 1 0 with
    | none =>
      exfalso
      have hrect0 : ∀ row ∈
          (List.replicate (normOdd height) (List.replicate (normOdd width) 1) :
            Grid), row.length = normOdd width := by
        intro row hr
        rw [List.eq_of_mem_replicate hr]
        exact List.length_replicate (normOdd width) 1
      obtain ⟨m1b, u, hwr, _, _, _, _, _⟩ :=
        @pySet2_spec
          (List.replicate (normOdd height) (List.replicate (normOdd width) 1))
          (normOdd width) hrect0 1 1 (by norm_num)
          (by rw [List.length_replicate]
              exact_mod_cast (by omega : 1 < normOdd height))
          (by norm_num)
          (by exact_mod_cast (by omega : 1 < normOdd width)) 0
      rw [hs] at hwr
      cases hwr
    | some m1 =>
      rw [hs] at hgeq
      simp only at hgeq
      obtain ⟨hml, hrect, hh0, hcl, hconn, hsum⟩ := init_grid_inv hs
      have hcomm : normOdd width * normOdd height =
          normOdd height * normOdd width := Nat.mul_comm _ _
      obtain ⟨g, hg⟩ := carve_total (normOdd width) (normOdd height) rng fuel
        0 m1 [(1, 1)] hml hrect hh0 hcl
        (by simp only [List.length_cons, List.length_nil]; omega)
      obtain ⟨hgl, hgr, _⟩ := carve_conn (normOdd width) (normOdd height) rng
        fuel 0 m1 [(1, 1)] g hml hrect hh0 hcl hconn hg
      rw [hgeq]
      exact ⟨g, hg, hgl, hgr, hw3, hh3, hwodd, hhodd⟩

/-- Witness for the amended C4: `generate(2,2)` yields a 3×3 grid with
enough fuel. -/
theorem C4_witness :
    2 ≤ 2 ∧ 2 * (normOdd 2 * normOdd 2) + 1 ≤ 19 ∧
    (∃ g, generate_maze (fun _ => 0) 19 2 2 = some g ∧
      g.length = normOdd 2 ∧ (∀ row ∈ g, row.length = normOdd 2) ∧
      3 ≤ normOdd 2 ∧ 3 ≤ normOdd 2 ∧
      normOdd 2 % 2 = 1 ∧ normOdd 2 % 2 = 1) :=
  ⟨by decide, by decide,
    C4_dims.2 (fun _ => 0) 2 2 (by decide) (by decide) 19 (by decide)⟩


theorem cadd_inj_right {c a b : Coord} (h : cadd c a = cadd c b) : a = b := by
  unfold cadd at h
  obtain ⟨h1, h2⟩ := Prod.mk.injEq .. ▸ h
  exact Prod.ext (by omega) (by omega)

/- Full characterisation of the BFS/DFS neighbour-expansion fold: it
appends a duplicate-free block of newly discovered cells and records `c`
as their parent, touching nothing else. -/
theorem qExpandF_spec (m : Grid) (c : Coord) :
    ∀ (ds : List Coord) (pm : PMap) (vs : List Coord),
      List.Pairwise (fun a b => cadd c a ≠ cadd c b) ds →
      ∃ ns : List Coord,
        (ds.foldl (qExpandStep m c) (pm, vs)).2 = vs ++ ns ∧
        ns.Nodup ∧
        (∀ v, v ∈ ns ↔ (pm v = none ∧ isPass m v = true ∧
          ∃ dd ∈ ds, v = cadd c dd)) ∧
        (∀ v, v ∈ ns → (ds.foldl (qExpandStep m c) (pm, vs)).1 v =
          some (some c)) ∧
        (∀ v, v ∉ ns → (ds.foldl (qExpandStep m c) (pm, vs)).1 v = pm v) := by
  intro ds
  induction ds with
  | nil =>
    intro pm vs _
    exact ⟨[], by simp, List.nodup_nil, by simp, by simp, fun v _ => rfl⟩
  | cons d ds ih =>
    intro pm vs hpw
    obtain ⟨hd1, hd2⟩ := List.pairwise_cons.mp hpw
    simp only [List.foldl_cons]
    by_cases hstep : (isPass m (cadd c d) && (pm (cadd c d)).isNone) = true
    · have hred : qExpandStep m c (pm, vs) d =
          (pmSet pm (cadd c d) (some c), vs ++ [cadd c d]) := by
        unfold qExpandStep
        rw [if_pos hstep]
      rw [hred]
      obtain ⟨hpass, hnone⟩ := Bool.and_eq_true .. ▸ hstep
      have hnone2 : pm (cadd c d) = none := Option.isNone_iff_eq_none.mp hnone
      obtain ⟨ns1, hr2, hnd, hmem, hval, hkeep⟩ :=
        ih (pmSet pm (cadd c d) (some c)) (vs ++ [cadd c d]) hd2
      have hnotin : cadd c d ∉ ns1 := by
        intro hin
        have := (hmem _).mp hin
        rw [pmSet, if_pos rfl] at this
        exact Option.noConfusion this.1
      refine ⟨cadd c d :: ns1, ?_, ?_, ?_, ?_, ?_⟩
      · rw [hr2, List.append_assoc]
        rfl
      · exact List.nodup_cons.mpr ⟨hnotin, hnd⟩
      · intro v
        constructor
        · intro hv
          rcases List.mem_cons.mp hv with rfl | hv
          · exact ⟨hnone2, hpass, d, List.mem_cons_self d ds, rfl⟩
          · obtain ⟨hpm1, hp1, dd, hdd, hveq⟩ := (hmem v).mp hv
            rw [pmSet] at hpm1
            by_cases hvd : v = cadd c d
            · rw [if_pos hvd] at hpm1
              exact Option.noConfusion hpm1
            · rw [if_neg hvd] at hpm1
              exact ⟨hpm1, hp1, dd, List.mem_cons_of_mem d hdd, hveq⟩
        · rintro ⟨hpm1, hp1, dd, hdd, rfl⟩
          rcases List.mem_cons.mp hdd with rfl | hdd
          · exact List.mem_cons_self _ _
          · refine List.mem_cons_of_mem _ ((hmem _).mpr ⟨?_, hp1, dd, hdd, rfl⟩)
            rw [pmSet, if_neg (hd1 dd hdd).symm]
            exact hpm1
      · intro v hv
        rcases List.mem_cons.mp hv with rfl | hv
        · rw [hkeep _ hnotin, pmSet, if_pos rfl]
        · exact hval v hv
      · intro v hv
        have hvne : v ≠ cadd c d := fun hc => hv (hc ▸ List.mem_cons_self _ _)
        rw [hkeep v (fun hc => hv (List.mem_cons_of_mem _ hc)), pmSet,
          if_neg hvne]
    · have hred : qExpandStep m c (pm, vs) d = (pm, vs) := by
        unfold qExpandStep
        rw [if_neg hstep]
      rw [hred]
      obtain ⟨ns1, hr2, hnd, hmem, hval, hkeep⟩ := ih pm vs hd2
      refine ⟨ns1, hr2, hnd, ?_, hval, hkeep⟩
      intro v
      rw [hmem v]
      constructor
      · rintro ⟨h1, h2, dd, hdd, rfl⟩
        exact ⟨h1, h2, dd, List.mem_cons_of_mem d hdd, rfl⟩
      · rintro ⟨h1, h2, dd, hdd, rfl⟩
        rcases List.mem_cons.mp hdd with rfl | hdd
        · exfalso
          apply hstep
          rw [h2, Option.isNone_iff_eq_none.mpr h1]
          rfl
        · exact ⟨h1, h2, dd, hdd, rfl⟩

theorem dirs_pairwise (c : Coord) :
    List.Pairwise (fun a b => cadd c a ≠ cadd c b) dirs := by
  have hnd : List.Pairwise (fun a b : Coord => a ≠ b) dirs := by
    unfold dirs
    refine List.pairwise_cons.mpr ⟨?_, List.pairwise_cons.mpr ⟨?_,
      List.pairwise_cons.mpr ⟨?_, List.pairwise_cons.mpr ⟨?_,
        List.Pairwise.nil⟩⟩⟩⟩ <;> intro a ha <;> fin_cases ha <;> decide
  exact hnd.imp fun hne hc => hne (cadd_inj_right hc)

theorem qExpand_spec (m : Grid) (c : Coord) (pm : PMap) :
    ∃ ns : List Coord,
      (qExpand m c pm).2 = ns ∧
      ns.Nodup ∧
      (∀ v, v ∈ ns ↔ (pm v = none ∧ isPass m v = true ∧
        ∃ dd ∈ dirs, v = cadd c dd)) ∧
      (∀ v, v ∈ ns → (qExpand m c pm).1 v = some (some c)) ∧
      (∀ v, v ∉ ns → (qExpand m c pm).1 v = pm v) := by
  obtain ⟨ns, h1, h2, h3, h4, h5⟩ :=
    qExpandF_spec m c dirs pm [] (dirs_pairwise c)
  exact ⟨ns, by simpa using h1, h2, h3, h4, h5⟩


/- Shortest 4-connected passage-path length, as a relation. -/
def IsShort (m : Grid) (s v : Coord) (n : Nat) : Prop :=
  PathN m s v n ∧ ∀ k, PathN m s v k → n ≤ k

theorem IsShort.unique {m : Grid} {s v : Coord} {n k : Nat}
    (h1 : IsShort m s v n) (h2 : IsShort m s v k) : n = k :=
  Nat.le_antisymm (h1.2 k h2.1) (h2.2 n h1.1)

theorem exists_isShort {m : Grid} {s v : Coord} {n : Nat}
    (h : PathN m s v n) : ∃ k, IsShort m s v k ∧ k ≤ n := by
  classical
  have hex : ∃ k, PathN m s v k := ⟨n, h⟩
  exact ⟨Nat.find hex, ⟨Nat.find_spec hex, fun k hk => Nat.find_min' hex hk⟩,
    Nat.find_min' hex h⟩

theorem isShort_zero {m : Grid} {s : Coord} (hp : isPass m s = true) :
    IsShort m s s 0 :=
  ⟨PathN.refl hp, fun k _ => Nat.zero_le k⟩

theorem pathN_zero {m : Grid} {s v : Coord} (h : PathN m s v 0) : v = s := by
  cases h
  rfl

/- A shortest path of positive length decomposes into a shortest path to a
predecessor followed by one step. -/
theorem isShort_succ_pred {m : Grid} {s v : Coord} {n : Nat}
    (h : IsShort m s v (n + 1)) :
    ∃ u dd, dd ∈ dirs ∧ v = cadd u dd ∧ isPass m v = true ∧
      IsShort m s u n := by
  obtain ⟨hp, hmin⟩ := h
  cases hp with
  | step hu hdd hpv =>
    rename_i u dd
    obtain ⟨k2, hk2, hk2le⟩ := exists_isShort hu
    have hle : n ≤ k2 := by
      have := hmin (k2 + 1) (hk2.1.step hdd hpv)
      omega
    have hk2n : k2 = n := by omega
    exact ⟨u, dd, hdd, rfl, hpv, hk2n ▸ hk2⟩

/- Parent-chain of length `n` from `v` back to the start in a parents
dictionary. -/
inductive ChainN (pm : PMap) (s : Coord) : Coord → Nat → Prop where
  | refl : pm s = some none → ChainN pm s s 0
  | step {v u : Coord} {n : Nat} : ChainN pm s u n → pm v = some (some u) →
      ChainN pm s v (n + 1)

theorem ChainN.monoMap {pm pm2 : PMap} {s v : Coord} {n : Nat}
    (hsub : ∀ x, pm x ≠ none → pm2 x = pm x) (h : ChainN pm s v n) :
    ChainN pm2 s v n := by
  induction h with
  | refl hs => exact .refl ((hsub _ (by rw [hs]; exact Option.noConfusion)) ▸ hs)
  | step hu hv ih =>
    exact ih.step ((hsub _ (by rw [hv]; exact Option.noConfusion)) ▸ hv)

/- The backward walk of `draw_solution_path` on a coordinate whose parent
chain reaches the start terminates and collects `n + 1` cells. -/
theorem reconAux_none {pm : PMap} (f : Nat) (acc : List Coord) :
    reconAux pm f none acc = some acc := by
  cases f <;> rfl

theorem reconAux_of_chain {pm : PMap} {s : Coord} :
    ∀ {v : Coord} {n : Nat}, ChainN pm s v n →
      ∀ (fuel : Nat), n < fuel → ∀ (acc : List Coord),
        ∃ l, reconAux pm fuel (some v) acc = some (acc ++ l) ∧
          l.length = n + 1 ∧ l.getLast? = some s ∧ l.head? = some v := by
  intro v n h
  induction h with
  | refl hs =>
    intro fuel hfuel acc
    cases fuel with
    | zero => omega
    | succ f =>
      refine ⟨[s], ?_, rfl, rfl, rfl⟩
      show reconAux pm f (pGet pm s) (acc ++ [s]) = some (acc ++ [s])
      rw [pGet, hs]
      exact reconAux_none f (acc ++ [s])
  | step hu hv ih =>
    rename_i vv u n
    intro fuel hfuel acc
    cases fuel with
    | zero => omega
    | succ f =>
      obtain ⟨l, hl, hlen, hlast, _⟩ := ih f (by omega) (acc ++ [vv])
      refine ⟨vv :: l, ?_, by simp [hlen], ?_, rfl⟩
      · show reconAux pm f (pGet pm vv) (acc ++ [vv]) = some (acc ++ vv :: l)
        rw [pGet, hv]
        show reconAux pm f (some u) (acc ++ [vv]) = some (acc ++ vv :: l)
        rw [hl, List.append_assoc]
        rfl
      · rw [List.getLast?_cons, hlast]
        cases l with
        | nil => simp at hlen
        | cons a t => rfl

/- Manhattan distance on coordinates.  A unit move changes it by at most
one, giving the lower bound that certifies shortest paths on concrete
fixture grids. -/
def manh (a b : Coord) : Nat := (a.1 - b.1).natAbs + (a.2 - b.2).natAbs

theorem manh_step {a u dd : Coord} (hdd : dd ∈ dirs) :
    manh a (cadd u dd) ≤ manh a u + 1 := by
  have hd : dd ∈ ([(1, 0), (0, 1), (-1, 0), (0, -1)] : List Coord) := hdd
  fin_cases hd <;> simp only [manh, cadd] <;> omega

theorem pathN_manh_le {m : Grid} {s v : Coord} {n : Nat}
    (h : PathN m s v n) : manh s v ≤ n := by
  induction h with
  | refl _ => simp [manh]
  | step hu hdd hp ih => exact le_trans (manh_step hdd) (Nat.succ_le_succ ih)

/- The BFS loop invariant: while the engine is still solving, the parents
dictionary is a tree of shortest paths rooted at the start, the queue holds
exactly two consecutive distance layers (the first nonempty), and every
discovered cell is either still queued or has had all its passable
neighbours discovered. -/
def BInv (m : Grid) (s : Coord) (st : QSt) : Prop :=
  st.solving = true →
    st.parents s = some none ∧
    (∀ v, st.parents v ≠ none →
      ∃ n, ChainN st.parents s v n ∧ IsShort m s v n) ∧
    (∀ v ∈ st.nodes, st.parents v ≠ none) ∧
    (st.nodes = [] ∨ ∃ dl A B, st.nodes = A ++ B ∧ A ≠ [] ∧
      (∀ a ∈ A, IsShort m s a dl) ∧ (∀ b ∈ B, IsShort m s b (dl + 1))) ∧
    (∀ u, st.parents u ≠ none → u ∈ st.nodes ∨
      ∀ dd ∈ dirs, isPass m (cadd u dd) = true →
        st.parents (cadd u dd) ≠ none)

theorem binv_not_solving (m : Grid) (s : Coord) (l : List Coord) (q : PMap)
    (x y : Int) : BInv m s ⟨l, q, false, x, y⟩ :=
  fun h => Bool.noConfusion h

/- Layer closure: under the queue invariant every cell strictly closer to
the start than the queue's first layer has already been discovered. -/
theorem binv_layer_closed {m : Grid} {s : Coord} {pm : PMap}
    {q A B : List Coord} {dl : Nat}
    (h1 : pm s = some none)
    (hq : q = A ++ B)
    (hA : ∀ a ∈ A, IsShort m s a dl) (hB : ∀ b ∈ B, IsShort m s b (dl + 1))
    (h5 : ∀ u, pm u ≠ none → u ∈ q ∨
      ∀ dd ∈ dirs, isPass m (cadd u dd) = true → pm (cadd u dd) ≠ none) :
    ∀ j, j < dl → ∀ y, IsShort m s y j → pm y ≠ none := by
  intro j
  induction j with
  | zero =>
    intro _ y hy
    have hys : y = s := pathN_zero hy.1
    rw [hys, h1]
    exact fun hx => Option.noConfusion hx
  | succ i ih =>
    intro hlt y hy
    obtain ⟨u, dd, hdd, hveq, hpy, hu⟩ := isShort_succ_pred hy
    have hpu : pm u ≠ none := ih (by omega) u hu
    rcases h5 u hpu with huq | hexp
    · exfalso
      rw [hq] at huq
      rcases List.mem_append.mp huq with hua | hub
      · have := (hA u hua).unique hu
        omega
      · have := (hB u hub).unique hu
        omega
    · rw [hveq]
      exact hexp dd hdd (hveq ▸ hpy)

theorem head_of_append {c : Coord} {rest A B : List Coord}
    (h : c :: rest = A ++ B) (hA : A ≠ []) :
    ∃ A2, A = c :: A2 ∧ rest = A2 ++ B := by
  cases A with
  | nil => exact absurd rfl hA
  | cons a A2 =>
    simp only [List.cons_append, List.cons.injEq] at h
    exact ⟨A2, by rw [h.1], h.2⟩

/- One `animate_bfs` call preserves the invariant, for every pause flag and
clock value. -/
theorem bfsStep_preserves (m : Grid) (s t : Coord) (p : Bool) (tm : Int)
    (st : QSt) (hinv : BInv m s st) : BInv m s (bfsStep m t p tm st).1 := by
  obtain ⟨nds, pm, sv, a1, a2⟩ := st
  unfold bfsStep
  cases sv
  · exact hinv
  · cases p
    · cases nds with
      | nil => exact binv_not_solving m s [] pm a1 a2
      | cons c rest =>
        by_cases hc : c = t
        · simp only [if_pos hc]
          exact binv_not_solving m s rest pm a1 (tm - a1)
        · simp only [if_neg hc]
          obtain ⟨h1, h2, h3, h4, h5⟩ := hinv rfl
          have h1b : pm s = some none := h1
          have h2b : ∀ v, pm v ≠ none →
              ∃ n0, ChainN pm s v n0 ∧ IsShort m s v n0 := h2
          have h3b : ∀ v ∈ c :: rest, pm v ≠ none := h3
          have h5b : ∀ u, pm u ≠ none → u ∈ c :: rest ∨
              ∀ dd ∈ dirs, isPass m (cadd u dd) = true →
                pm (cadd u dd) ≠ none := h5
          rcases h4 with h40 | ⟨dl, A, B, hqAB, hAne, hA, hB⟩
          · have h40b : c :: rest = ([] : List Coord) := h40
            exact absurd h40b (by simp)
          have hqAB2 : c :: rest = A ++ B := hqAB
          obtain ⟨A2, hAeq, hrest⟩ := head_of_append hqAB2 hAne
          have hcA : c ∈ A := by
            rw [hAeq]
            exact List.mem_cons_self c A2
          have hcshort : IsShort m s c dl := hA c hcA
          have hcpm : pm c ≠ none := h3b c (List.mem_cons_self c rest)
          obtain ⟨ns, hns2, hnd, hmem, hval, hkeep⟩ := qExpand_spec m c pm
          have hmono : ∀ x, pm x ≠ none → (qExpand m c pm).1 x = pm x :=
            fun x hx => hkeep x (fun hin => hx ((hmem x).mp hin).1)
          have hdom : ∀ v, (qExpand m c pm).1 v ≠ none ↔
              (pm v ≠ none ∨ v ∈ ns) := by
            intro v
            constructor
            · intro hv
              by_cases hvns : v ∈ ns
              · exact Or.inr hvns
              · rw [hkeep v hvns] at hv
                exact Or.inl hv
            · intro h
              rcases h with hold | hnew
              · rw [hmono v hold]
                exact hold
              · rw [hval v hnew]
                exact fun hx => Option.noConfusion hx
          have hlayer := binv_layer_closed h1b hqAB2 hA hB h5b
          have hshort_ns : ∀ v ∈ ns, IsShort m s v (dl + 1) := by
            intro v hv
            obtain ⟨hvnone, hvpass, dd, hdd, rfl⟩ := (hmem v).mp hv
            have hpath : PathN m s (cadd c dd) (dl + 1) :=
              hcshort.1.step hdd hvpass
            obtain ⟨l0, hl0, hle⟩ := exists_isShort hpath
            have hl0eq : l0 = dl + 1 := by
              by_contra hne
              have hlt : l0 < dl + 1 := by omega
              cases l0 with
              | zero =>
                have hvs : cadd c dd = s := pathN_zero hl0.1
                rw [hvs, h1b] at hvnone
                exact Option.noConfusion hvnone
              | succ j =>
                obtain ⟨y, dd2, hdd2, hveq, hpz, hy⟩ := isShort_succ_pred hl0
                have hpy : pm y ≠ none := hlayer j (by omega) y hy
                rcases h5b y hpy with hyq | hexp
                · rcases List.mem_append.mp (hqAB2 ▸ hyq) with hya | hyb
                  · have := (hA y hya).unique hy
                    omega
                  · have := (hB y hyb).unique hy
                    omega
                · have hz := hexp dd2 hdd2 (hveq ▸ hpz)
                  rw [← hveq] at hz
                  exact hz hvnone
            rw [← hl0eq]
            exact hl0
          have hBns : ∀ b ∈ B ++ ns, IsShort m s b (dl + 1) := by
            intro b hb
            rcases List.mem_append.mp hb with hbB | hbn
            · exact hB b hbB
            · exact hshort_ns b hbn
          show BInv m s ⟨rest ++ (qExpand m c pm).2, (qExpand m c pm).1,
            true, a1, a2⟩
          rw [hns2]
          intro _
          refine ⟨?_, ?_, ?_, ?_, ?_⟩
          · show (qExpand m c pm).1 s = some none
            have hs1 : pm s ≠ none := by
              rw [h1b]
              exact fun hx => Option.noConfusion hx
            rw [hmono s hs1]
            exact h1b
          · intro v hv
            have hv2 : (qExpand m c pm).1 v ≠ none := hv
            rcases (hdom v).mp hv2 with hold | hnew
            · obtain ⟨n0, hch, hsh⟩ := h2b v hold
              exact ⟨n0, hch.monoMap hmono, hsh⟩
            · obtain ⟨nc, hchc, hshc⟩ := h2b c hcpm
              have hnc : nc = dl := hshc.unique hcshort
              subst hnc
              exact ⟨nc + 1, (hchc.monoMap hmono).step (hval v hnew),
                hshort_ns v hnew⟩
          · intro v hv
            have hv2 : v ∈ rest ++ ns := hv
            show (qExpand m c pm).1 v ≠ none
            rcases List.mem_append.mp hv2 with hvr | hvn
            · exact (hdom v).mpr (Or.inl (h3b v (List.mem_cons_of_mem c hvr)))
            · exact (hdom v).mpr (Or.inr hvn)
          · show rest ++ ns = [] ∨ ∃ dl2 C D, rest ++ ns = C ++ D ∧ C ≠ [] ∧
              (∀ a ∈ C, IsShort m s a dl2) ∧ (∀ b ∈ D, IsShort m s b (dl2 + 1))
            rw [hrest]
            cases A2 with
            | nil =>
              by_cases hE : B ++ ns = []
              · left
                simpa using hE
              · right
                exact ⟨dl + 1, B ++ ns, [], by simp, hE, hBns, by simp⟩
            | cons a0 A2b =>
              right
              refine ⟨dl, a0 :: A2b, B ++ ns, by rw [List.append_assoc],
                by simp, ?_, hBns⟩
              intro a ha
              refine hA a ?_
              rw [hAeq]
              exact List.mem_cons_of_mem c ha
          · intro u hu
            have hu2 : (qExpand m c pm).1 u ≠ none := hu
            rcases (hdom u).mp hu2 with hold | hnew
            · rcases h5b u hold with huq | hexp
              · rcases List.mem_cons.mp huq with heq | hur
                · right
                  intro dd hdd hpass
                  show (qExpand m c pm).1 (cadd u dd) ≠ none
                  rw [heq] at hpass ⊢
                  by_cases hpn : pm (cadd c dd) = none
                  · have hin : cadd c dd ∈ ns :=
                      (hmem _).mpr ⟨hpn, hpass, dd, hdd, rfl⟩
                    rw [hval _ hin]
                    exact fun hx => Option.noConfusion hx
                  · rw [hmono _ hpn]
                    exact hpn
                · exact Or.inl (List.mem_append.mpr (Or.inl hur))
              · right
                intro dd hdd hpass
                exact (hdom _).mpr (Or.inl (hexp dd hdd hpass))
            · exact Or.inl (List.mem_append.mpr (Or.inr hnew))
    · exact hinv

/- The invariant holds in the seeded state and hence after any number of
driven calls. -/
theorem bfs_inv (m : Grid) (s t : Coord) (t0 : Int) (sched : Nat → Bool)
    (tms : Nat → Int) (hps : isPass m s = true) :
    ∀ k, BInv m s (stAfter (bfsStep m t) sched tms (qInit s t0) k) := by
  intro k
  induction k with
  | zero =>
    intro _
    have hss : pmSet pmEmpty s none s = some none := by
      rw [pmSet, if_pos rfl]
    have hso : ∀ v, v ≠ s → pmSet pmEmpty s none v = none := by
      intro v hv
      rw [pmSet, if_neg hv]
      rfl
    refine ⟨hss, ?_, ?_, ?_, ?_⟩
    · intro v hv
      have hv2 : pmSet pmEmpty s none v ≠ none := hv
      by_cases hvs : v = s
      · subst hvs
        exact ⟨0, ChainN.refl hss, isShort_zero hps⟩
      · exact absurd (hso v hvs) hv2
    · intro v hv
      have hv2 : v ∈ [s] := hv
      have hvs : v = s := by simpa using hv2
      subst hvs
      show pmSet pmEmpty v none v ≠ none
      rw [pmSet, if_pos rfl]
      exact fun hx => Option.noConfusion hx
    · right
      refine ⟨0, [s], [], rfl, by simp, ?_, by simp⟩
      intro a ha
      have has : a = s := by simpa using ha
      subst has
      exact isShort_zero hps
    · intro u hu
      have hu2 : pmSet pmEmpty s none u ≠ none := hu
      by_cases hus : u = s
      · subst hus
        exact Or.inl (List.mem_cons_self u [])
      · exact absurd (hso u hus) hu2
  | succ k ih =>
    exact bfsStep_preserves m s t (sched k) (tms k)
      (stAfter (bfsStep m t) sched tms (qInit s t0) k) ih

/- When a call returns GoalReached, the engine was solving, the goal was at
the queue's head, and the parents dictionary is left untouched. -/
theorem bfsStep_goal (m : Grid) (t : Coord) (p : Bool) (tm : Int) (st : QSt)
    (h : (bfsStep m t p tm st).2 = Res.goalReached) :
    st.solving = true ∧ (∃ rest, st.nodes = t :: rest) ∧
      (bfsStep m t p tm st).1.parents = st.parents := by
  obtain ⟨nds, pm, sv, a1, a2⟩ := st
  unfold bfsStep at h ⊢
  cases sv
  · simp at h
  · cases p
    · cases nds with
      | nil => simp at h
      | cons c rest =>
        by_cases hc : c = t
        · simp only [if_pos hc] at h ⊢
          subst hc
          exact ⟨trivial, ⟨rest, rfl⟩, rfl⟩
        · simp only [if_neg hc] at h
          simp at h
    · simp at h

/- On the corridor fixture the shortest path from `(1,1)` to `(1,3)` has
exactly two edges: the explicit walk gives the upper bound and the
Manhattan distance the lower bound. -/
theorem fix5_short : IsShort fix5 (1, 1) (1, 3) 2 := by
  constructor
  · have h1 : PathN fix5 (1, 1) (cadd (1, 1) (0, 1)) 1 :=
      PathN.step (PathN.refl (by decide)) (by decide) (by decide)
    have h2 : PathN fix5 (1, 1) (cadd (cadd (1, 1) (0, 1)) (0, 1)) 2 :=
      PathN.step h1 (by decide) (by decide)
    exact h2
  · intro k hk
    have hle := pathN_manh_le hk
    have hm : manh ((1, 1) : Coord) ((1, 3) : Coord) = 2 := by decide
    omega

/-- C1: BFS shortest-path optimality.  For every grid, start and goal with
a shortest passage path of `n` edges, every pause schedule and every clock
stream, if the BFS engine signals GoalReached at some call then the
backward walk of path reconstruction (given enough fuel) succeeds on the
resulting parents dictionary and returns a path of exactly `n + 1` cells —
`n` edges, the true shortest 4-connected passage-path length — leading
from the goal back to the start. -/
theorem C1_bfs_optimal (m : Grid) (s t : Coord) (t0 : Int)
    (sched : Nat → Bool) (tms : Nat → Int) (n fuel k : Nat)
    (hps : isPass m s = true) (hshort : IsShort m s t n)
    (hgoal : resAt (bfsStep m t) sched tms (qInit s t0) k = Res.goalReached)
    (hfuel : n < fuel) :
    ∃ p, recon (stAfter (bfsStep m t) sched tms (qInit s t0) (k + 1)).parents
        t fuel = some p ∧ p.length = n + 1 ∧ p.head? = some t ∧
      p.getLast? = some s := by
  have hinv := bfs_inv m s t t0 sched tms hps k
  have hgr : (bfsStep m t (sched k) (tms k)
      (stAfter (bfsStep m t) sched tms (qInit s t0) k)).2 =
        Res.goalReached := hgoal
  obtain ⟨hsv, ⟨rest, hnodes⟩, hpar⟩ := bfsStep_goal m t (sched k) (tms k)
    (stAfter (bfsStep m t) sched tms (qInit s t0) k) hgr
  obtain ⟨h1, h2, h3, h4, h5⟩ := hinv hsv
  have htq : t ∈ (stAfter (bfsStep m t) sched tms (qInit s t0) k).nodes := by
    rw [hnodes]
    exact List.mem_cons_self t rest
  obtain ⟨n2, hch, hsh⟩ := h2 t (h3 t htq)
  have hn2 : n2 = n := hsh.unique hshort
  subst hn2
  have hpar2 : (stAfter (bfsStep m t) sched tms (qInit s t0) (k + 1)).parents
      = (stAfter (bfsStep m t) sched tms (qInit s t0) k).parents := hpar
  rw [hpar2]
  obtain ⟨l, hl, hlen, hlast, hhd⟩ := reconAux_of_chain hch fuel hfuel []
  refine ⟨l, ?_, hlen, hhd, hlast⟩
  show reconAux (stAfter (bfsStep m t) sched tms (qInit s t0) k).parents
    fuel (some t) [] = some l
  rw [hl]
  simp

/-- Witness for C1 on the 5×5 corridor fixture: the shortest path from
`(1,1)` to `(1,3)` has 2 edges, the unpaused BFS drive signals GoalReached
on its third call (index 2), and the reconstructed path has 3 cells with
head `(1,3)` and last `(1,1)`. -/
theorem C1_witness :
    isPass fix5 (1, 1) = true ∧ IsShort fix5 (1, 1) (1, 3) 2 ∧
      resAt (bfsStep fix5 (1, 3)) noPause zeroT (qInit (1, 1) 0) 2 =
        Res.goalReached ∧ 2 < 4 ∧
      ∃ p, recon (stAfter (bfsStep fix5 (1, 3)) noPause zeroT
          (qInit (1, 1) 0) 3).parents (1, 3) 4 = some p ∧
        p.length = 3 ∧ p.head? = some (1, 3) ∧ p.getLast? = some (1, 1) :=
  ⟨by decide, fix5_short, by decide, by decide,
    C1_bfs_optimal fix5 (1, 1) (1, 3) 0 noPause zeroT 2 4 2 (by decide)
      fix5_short (by decide) (by decide)⟩

/- Membership in the sorted-insert used to model `heapq.heappush`. -/
theorem sIns_mem {α : Type} (le : α → α → Bool) (x : α) :
    ∀ (l : List α) (a : α), a ∈ sIns le x l ↔ a = x ∨ a ∈ l := by
  intro l
  induction l with
  | nil =>
    intro a
    simp [sIns]
  | cons y ys ih =>
    intro a
    unfold sIns
    by_cases hle : le x y = true
    · rw [if_pos hle]
      simp only [List.mem_cons]
    · rw [if_neg hle]
      simp only [List.mem_cons, ih a]
      tauto

theorem cadd_ne_self {c : Coord} : ∀ d ∈ dirs, cadd c d ≠ c := by
  intro d hd
  have hd2 : d ∈ ([(1, 0), (0, 1), (-1, 0), (0, -1)] : List Coord) := hd
  intro h
  have h1 := congrArg Prod.fst h
  have h2 := congrArg Prod.snd h
  fin_cases hd2 <;> simp only [cadd] at h1 h2 <;> omega

/- Reusable consequences of `qExpand_spec`. -/
theorem qExpand_mono (m : Grid) (c : Coord) (pm : PMap) :
    ∀ x, pm x ≠ none → (qExpand m c pm).1 x = pm x := by
  obtain ⟨ns, hns2, _, hmem, _, hkeep⟩ := qExpand_spec m c pm
  intro x hx
  exact hkeep x (fun hin => hx ((hmem x).mp hin).1)

theorem qExpand_val (m : Grid) (c : Coord) (pm : PMap) :
    ∀ v ∈ (qExpand m c pm).2, (qExpand m c pm).1 v = some (some c) := by
  obtain ⟨ns, hns2, _, _, hval, _⟩ := qExpand_spec m c pm
  rw [hns2]
  exact hval

theorem qExpand_dom (m : Grid) (c : Coord) (pm : PMap) :
    ∀ v, (qExpand m c pm).1 v ≠ none ↔
      (pm v ≠ none ∨ v ∈ (qExpand m c pm).2) := by
  obtain ⟨ns, hns2, _, hmem, hval, hkeep⟩ := qExpand_spec m c pm
  rw [hns2]
  intro v
  constructor
  · intro hv
    by_cases hvns : v ∈ ns
    · exact Or.inr hvns
    · rw [hkeep v hvns] at hv
      exact Or.inl hv
  · intro h
    rcases h with hold | hnew
    · rw [hkeep v (fun hin => hold ((hmem v).mp hin).1)]
      exact hold
    · rw [hval v hnew]
      exact fun hx => Option.noConfusion hx

/- The parents dictionary of the BFS/DFS loops is a tree rooted at the
start, at every instant (also after termination): the start maps to None,
every queued cell is recorded, and every recorded cell has a finite parent
chain back to the start. -/
def qTree (s : Coord) (st : QSt) : Prop :=
  st.parents s = some none ∧
  (∀ v ∈ st.nodes, st.parents v ≠ none) ∧
  (∀ v, st.parents v ≠ none → ∃ n, ChainN st.parents s v n)

/- The expansion that both BFS and DFS perform preserves the tree shape of
the parents dictionary, whichever cell of the queue is popped. -/
theorem qExpand_tree {m : Grid} {s c : Coord} {pm : PMap}
    (h1 : pm s = some none) (hc : pm c ≠ none)
    (h3 : ∀ v, pm v ≠ none → ∃ n, ChainN pm s v n) :
    (qExpand m c pm).1 s = some none ∧
    (∀ v ∈ (qExpand m c pm).2, (qExpand m c pm).1 v ≠ none) ∧
    (∀ v, (qExpand m c pm).1 v ≠ none → ∃ n, ChainN (qExpand m c pm).1 s v n) := by
  have hmono := qExpand_mono m c pm
  have hdom := qExpand_dom m c pm
  have hval := qExpand_val m c pm
  refine ⟨?_, ?_, ?_⟩
  · rw [hmono s (by rw [h1]; exact fun hx => Option.noConfusion hx)]
    exact h1
  · intro v hv
    exact (hdom v).mpr (Or.inr hv)
  · intro v hv
    rcases (hdom v).mp hv with hold | hnew
    · obtain ⟨n0, hch⟩ := h3 v hold
      exact ⟨n0, hch.monoMap hmono⟩
    · obtain ⟨n0, hch⟩ := h3 c hc
      exact ⟨n0 + 1, (hch.monoMap hmono).step (hval v hnew)⟩

theorem bfsStep_qTree (m : Grid) (endP s : Coord) (p : Bool) (tm : Int)
    (st : QSt) (h : qTree s st) : qTree s (bfsStep m endP p tm st).1 := by
  obtain ⟨nds, pm, sv, a1, a2⟩ := st
  unfold bfsStep
  cases sv
  · exact h
  · cases p
    · cases nds with
      | nil => exact h
      | cons c rest =>
        obtain ⟨h1, h2, h3⟩ := h
        have h2b : ∀ v ∈ c :: rest, pm v ≠ none := h2
        by_cases hc : c = endP
        · simp only [if_pos hc]
          exact ⟨h1, fun v hv => h2b v (List.mem_cons_of_mem c hv), h3⟩
        · simp only [if_neg hc]
          show qTree s ⟨rest ++ (qExpand m c pm).2, (qExpand m c pm).1,
            true, a1, a2⟩
          obtain ⟨g1, g2, g3⟩ :=
            qExpand_tree h1 (h2b c (List.mem_cons_self c rest)) h3
          refine ⟨g1, ?_, g3⟩
          intro v hv
          have hv2 : v ∈ rest ++ (qExpand m c pm).2 := hv
          rcases List.mem_append.mp hv2 with hvr | hvn
          · show (qExpand m c pm).1 v ≠ none
            rw [qExpand_mono m c pm v (h2b v (List.mem_cons_of_mem c hvr))]
            exact h2b v (List.mem_cons_of_mem c hvr)
          · exact g2 v hvn
    · exact h

theorem dfsStep_qTree (m : Grid) (endP s : Coord) (p : Bool) (tm : Int)
    (st : QSt) (h : qTree s st) : qTree s (dfsStep m endP p tm st).1 := by
  obtain ⟨nds, pm, sv, a1, a2⟩ := st
  unfold dfsStep
  cases sv
  · exact h
  · cases p
    · cases hl : nds.getLast? with
      | none => exact h
      | some c =>
        obtain ⟨h1, h2, h3⟩ := h
        have h2b : ∀ v ∈ nds, pm v ≠ none := h2
        have hcm : c ∈ nds := List.mem_of_mem_getLast? hl
        by_cases hc : c = endP
        · simp only [if_pos hc]
          exact ⟨h1, fun v hv => h2b v (List.dropLast_subset nds hv), h3⟩
        · simp only [if_neg hc]
          show qTree s ⟨nds.dropLast ++ (qExpand m c pm).2,
            (qExpand m c pm).1, true, a1, a2⟩
          obtain ⟨g1, g2, g3⟩ := qExpand_tree h1 (h2b c hcm) h3
          refine ⟨g1, ?_, g3⟩
          intro v hv
          have hv2 : v ∈ nds.dropLast ++ (qExpand m c pm).2 := hv
          rcases List.mem_append.mp hv2 with hvr | hvn
          · show (qExpand m c pm).1 v ≠ none
            rw [qExpand_mono m c pm v (h2b v (List.dropLast_subset nds hvr))]
            exact h2b v (List.dropLast_subset nds hvr)
          · exact g2 v hvn
    · exact h

theorem qInit_qTree (s : Coord) (t0 : Int) : qTree s (qInit s t0) := by
  have hss : pmSet pmEmpty s none s = some none := by
    rw [pmSet, if_pos rfl]
  refine ⟨hss, ?_, ?_⟩
  · intro v hv
    have hv2 : v ∈ [s] := hv
    have hvs : v = s := by simpa using hv2
    subst hvs
    show pmSet pmEmpty v none v ≠ none
    rw [pmSet, if_pos rfl]
    exact fun hx => Option.noConfusion hx
  · intro v hv
    have hv2 : pmSet pmEmpty s none v ≠ none := hv
    by_cases hvs : v = s
    · subst hvs
      exact ⟨0, ChainN.refl hss⟩
    · exfalso
      apply hv2
      rw [pmSet, if_neg hvs]
      rfl

/- Invariant of the Dijkstra and A* dictionaries, stated over an abstract
heap-entry type: the start is recorded with distance 0, every heap entry's
coordinate is recorded with a distance not above the entry's cost key, and
every parent link strictly decreases the recorded distance — which is what
keeps the parents dictionary acyclic across relaxation overwrites. -/
def DPI {eT : Type} (s : Coord) (cost : eT → Nat) (co : eT → Coord)
    (dm : DMap) (pm : PMap) (hp : List eT) : Prop :=
  pm s = some none ∧
  (∀ v, pm v = some none → v = s) ∧
  dm s = some 0 ∧
  (∀ e ∈ hp, pm (co e) ≠ none ∧ ∃ dv, dm (co e) = some dv ∧ dv ≤ cost e) ∧
  (∀ v u, pm v = some (some u) → pm u ≠ none ∧
    ∃ dv du, dm v = some dv ∧ dm u = some du ∧ du < dv)

theorem dRelaxStep_ok {m : Grid} {s c : Coord} {dc cost : Nat}
    {acc : DMap × PMap × List (Nat × Coord) × List Coord} {d : Coord}
    (hne : cadd c d ≠ c)
    (hI : DPI s Prod.fst Prod.snd acc.1 acc.2.1 acc.2.2.1)
    (hc : acc.2.1 c ≠ none) (hdc : acc.1 c = some dc) (hcost : dc ≤ cost) :
    DPI s Prod.fst Prod.snd (dRelaxStep m c cost acc d).1
        (dRelaxStep m c cost acc d).2.1 (dRelaxStep m c cost acc d).2.2.1 ∧
      (dRelaxStep m c cost acc d).2.1 c ≠ none ∧
      (dRelaxStep m c cost acc d).1 c = some dc := by
  obtain ⟨dm, pm, hp, vs⟩ := acc
  replace hI : DPI s Prod.fst Prod.snd dm pm hp := hI
  replace hc : pm c ≠ none := hc
  replace hdc : dm c = some dc := hdc
  by_cases hp1 : isPass m (cadd c d) = true
  · by_cases hcond : ((dm (cadd c d)).isNone ||
        decide (cost + 1 < (dm (cadd c d)).getD 0)) = true
    · have hred : dRelaxStep m c cost (dm, pm, hp, vs) d =
          (dmSet dm (cadd c d) (cost + 1), pmSet pm (cadd c d) (some c),
            sIns e2Le (cost + 1, cadd c d) hp, vs ++ [cadd c d]) := by
        unfold dRelaxStep
        rw [if_pos hp1, if_pos hcond]
      rw [hred]
      obtain ⟨hI1, hI2, hI3, hI4, hI5⟩ := hI
      have hnes : cadd c d ≠ s := by
        intro hns
        rw [hns, hI3] at hcond
        simp at hcond
      have hnsym : ¬(s = cadd c d) := fun h => hnes h.symm
      have hcsym : ¬(c = cadd c d) := fun h => hne h.symm
      refine ⟨⟨?_, ?_, ?_, ?_, ?_⟩, ?_, ?_⟩
      · show pmSet pm (cadd c d) (some c) s = some none
        rw [pmSet, if_neg hnsym]
        exact hI1
      · intro v hv
        have hv2 : pmSet pm (cadd c d) (some c) v = some none := hv
        by_cases hvn : v = cadd c d
        · rw [pmSet, if_pos hvn] at hv2
          simp at hv2
        · rw [pmSet, if_neg hvn] at hv2
          exact hI2 v hv2
      · show dmSet dm (cadd c d) (cost + 1) s = some 0
        rw [dmSet, if_neg hnsym]
        exact hI3
      · intro e he
        have he2 := (sIns_mem e2Le (cost + 1, cadd c d) hp e).mp he
        rcases he2 with heq | hold
        · subst heq
          constructor
          · show pmSet pm (cadd c d) (some c) (cadd c d) ≠ none
            rw [pmSet, if_pos rfl]
            exact fun hx => Option.noConfusion hx
          · refine ⟨cost + 1, ?_, le_refl _⟩
            show dmSet dm (cadd c d) (cost + 1) (cadd c d) = some (cost + 1)
            rw [dmSet, if_pos rfl]
        · obtain ⟨hpe, dv, hdve, hle⟩ := hI4 e hold
          constructor
          · show pmSet pm (cadd c d) (some c) e.2 ≠ none
            by_cases h2n : e.2 = cadd c d
            · rw [pmSet, if_pos h2n]
              exact fun hx => Option.noConfusion hx
            · rw [pmSet, if_neg h2n]
              exact hpe
          · by_cases h2n : e.2 = cadd c d
            · refine ⟨cost + 1, ?_, ?_⟩
              · show dmSet dm (cadd c d) (cost + 1) e.2 = some (cost + 1)
                rw [dmSet, if_pos h2n]
              · rw [h2n] at hdve
                rw [hdve] at hcond
                simp at hcond
                omega
            · refine ⟨dv, ?_, hle⟩
              show dmSet dm (cadd c d) (cost + 1) e.2 = some dv
              rw [dmSet, if_neg h2n]
              exact hdve
      · intro v u hvu
        have hvu2 : pmSet pm (cadd c d) (some c) v = some (some u) := hvu
        by_cases hvn : v = cadd c d
        · rw [pmSet, if_pos hvn] at hvu2
          have huc : u = c := by
            have h9 := Option.some.inj hvu2
            exact (Option.some.inj h9).symm
          constructor
          · show pmSet pm (cadd c d) (some c) u ≠ none
            rw [huc, pmSet, if_neg hcsym]
            exact hc
          · refine ⟨cost + 1, dc, ?_, ?_, by omega⟩
            · show dmSet dm (cadd c d) (cost + 1) v = some (cost + 1)
              rw [dmSet, if_pos hvn]
            · show dmSet dm (cadd c d) (cost + 1) u = some dc
              rw [huc, dmSet, if_neg hcsym]
              exact hdc
        · rw [pmSet, if_neg hvn] at hvu2
          obtain ⟨hpu, dv, du, hdv, hdu, hlt⟩ := hI5 v u hvu2
          constructor
          · show pmSet pm (cadd c d) (some c) u ≠ none
            by_cases hun : u = cadd c d
            · rw [pmSet, if_pos hun]
              exact fun hx => Option.noConfusion hx
            · rw [pmSet, if_neg hun]
              exact hpu
          · by_cases hun : u = cadd c d
            · refine ⟨dv, cost + 1, ?_, ?_, ?_⟩
              · show dmSet dm (cadd c d) (cost + 1) v = some dv
                rw [dmSet, if_neg hvn]
                exact hdv
              · show dmSet dm (cadd c d) (cost + 1) u = some (cost + 1)
                rw [dmSet, if_pos hun]
              · rw [hun] at hdu
                rw [hdu] at hcond
                simp at hcond
                omega
            · refine ⟨dv, du, ?_, ?_, hlt⟩
              · show dmSet dm (cadd c d) (cost + 1) v = some dv
                rw [dmSet, if_neg hvn]
                exact hdv
              · show dmSet dm (cadd c d) (cost + 1) u = some du
                rw [dmSet, if_neg hun]
                exact hdu
      · show pmSet pm (cadd c d) (some c) c ≠ none
        rw [pmSet, if_neg hcsym]
        exact hc
      · show dmSet dm (cadd c d) (cost + 1) c = some dc
        rw [dmSet, if_neg hcsym]
        exact hdc
    · have hred : dRelaxStep m c cost (dm, pm, hp, vs) d = (dm, pm, hp, vs) := by
        unfold dRelaxStep
        rw [if_pos hp1, if_neg hcond]
      rw [hred]
      exact ⟨hI, hc, hdc⟩
  · have hred : dRelaxStep m c cost (dm, pm, hp, vs) d = (dm, pm, hp, vs) := by
      unfold dRelaxStep
      rw [if_neg hp1]
    rw [hred]
    exact ⟨hI, hc, hdc⟩

theorem dRelaxFold_ok {m : Grid} {s c : Coord} {dc cost : Nat} :
    ∀ (ds : List Coord) (acc : DMap × PMap × List (Nat × Coord) × List Coord),
      (∀ d ∈ ds, cadd c d ≠ c) →
      DPI s Prod.fst Prod.snd acc.1 acc.2.1 acc.2.2.1 →
      acc.2.1 c ≠ none → acc.1 c = some dc → dc ≤ cost →
      DPI s Prod.fst Prod.snd (ds.foldl (dRelaxStep m c cost) acc).1
        (ds.foldl (dRelaxStep m c cost) acc).2.1
        (ds.foldl (dRelaxStep m c cost) acc).2.2.1 := by
  intro ds
  induction ds with
  | nil =>
    intro acc _ hI _ _ _
    exact hI
  | cons d ds ih =>
    intro acc hne hI hc hdc hcost
    simp only [List.foldl_cons]
    obtain ⟨hI2, hc2, hdc2⟩ :=
      dRelaxStep_ok (hne d (List.mem_cons_self d ds)) hI hc hdc hcost
    exact ih _ (fun x hx => hne x (List.mem_cons_of_mem d hx)) hI2 hc2 hdc2 hcost

/- The Dijkstra engine state keeps the dictionary invariant at all times. -/
def dstOK (s : Coord) (st : DSt) : Prop :=
  DPI s Prod.fst Prod.snd st.dists st.parents st.nodes

theorem dijStep_dstOK (m : Grid) (endP s : Coord) (p : Bool) (tm : Int)
    (st : DSt) (h : dstOK s st) : dstOK s (dijStep m endP p tm st).1 := by
  obtain ⟨nds, dm, pm, sv, a1, a2⟩ := st
  unfold dijStep
  cases sv
  · exact h
  · cases p
    · cases nds with
      | nil => exact h
      | cons e rest =>
        obtain ⟨cost, c⟩ := e
        obtain ⟨h1, h2, h3, h4, h5⟩ := h
        have h4b : ∀ e ∈ (cost, c) :: rest,
            pm e.2 ≠ none ∧ ∃ dv, dm e.2 = some dv ∧ dv ≤ e.1 := h4
        have hI0 : DPI s Prod.fst Prod.snd dm pm rest :=
          ⟨h1, h2, h3, fun e he => h4b e (List.mem_cons_of_mem _ he), h5⟩
        by_cases hc : c = endP
        · simp only [if_pos hc]
          exact ⟨h1, h2, h3, fun e he => h4b e (List.mem_cons_of_mem _ he), h5⟩
        · simp only [if_neg hc]
          obtain ⟨hpc, dc, hdc, hcost⟩ := h4b (cost, c) (List.mem_cons_self _ _)
          exact dRelaxFold_ok dirs (dm, pm, rest, [])
            (fun d hd => cadd_ne_self d hd) hI0 hpc hdc hcost
    · exact h

theorem dInit_dstOK (s : Coord) (t0 : Int) : dstOK s (dInit s t0) := by
  have hss : pmSet pmEmpty s none s = some none := by
    rw [pmSet, if_pos rfl]
  have hds : dmSet dmEmpty s 0 s = some 0 := by
    rw [dmSet, if_pos rfl]
  refine ⟨hss, ?_, hds, ?_, ?_⟩
  · intro v hv
    have hv2 : pmSet pmEmpty s none v = some none := hv
    by_cases hvs : v = s
    · exact hvs
    · rw [pmSet, if_neg hvs] at hv2
      exact Option.noConfusion hv2
  · intro e he
    have he2 : e ∈ [((0 : Nat), s)] := he
    have hes : e = (0, s) := by simpa using he2
    subst hes
    constructor
    · show pmSet pmEmpty s none s ≠ none
      rw [hss]
      exact fun hx => Option.noConfusion hx
    · exact ⟨0, hds, le_refl 0⟩
  · intro v u hvu
    have hvu2 : pmSet pmEmpty s none v = some (some u) := hvu
    by_cases hvs : v = s
    · rw [pmSet, if_pos hvs] at hvu2
      simp at hvu2
    · rw [pmSet, if_neg hvs] at hvu2
      exact Option.noConfusion hvu2

/- Distance descent makes every recorded cell's parent chain reach the
start. -/
theorem dpi_chain {eT : Type} {s : Coord} {cost : eT → Nat} {co : eT → Coord}
    {dm : DMap} {pm : PMap} {hp : List eT}
    (h : DPI s cost co dm pm hp) :
    ∀ v, pm v ≠ none → ∃ n, ChainN pm s v n := by
  obtain ⟨h1, h2, h3, _, h5⟩ := h
  have key : ∀ dv v, dm v = some dv → pm v ≠ none → ∃ n, ChainN pm s v n := by
    intro dv
    induction dv using Nat.strong_induction_on with
    | _ dv ih =>
      intro v hdv hpv
      cases hpv2 : pm v with
      | none => exact absurd hpv2 hpv
      | some o =>
        cases o with
        | none =>
          have hvs : v = s := h2 v hpv2
          subst hvs
          exact ⟨0, ChainN.refl hpv2⟩
        | some u =>
          obtain ⟨hpu, dv2, du, hdv2, hdu, hlt⟩ := h5 v u hpv2
          have hdd : dv2 = dv := by
            rw [hdv] at hdv2
            exact (Option.some.inj hdv2).symm
          obtain ⟨n0, hch⟩ := ih du (by omega) u hdu hpu
          exact ⟨n0 + 1, hch.step hpv2⟩
  intro v hpv
  cases hpv2 : pm v with
  | none => exact absurd hpv2 hpv
  | some o =>
    cases o with
    | none =>
      have hvs : v = s := h2 v hpv2
      subst hvs
      exact ⟨0, ChainN.refl hpv2⟩
    | some u =>
      obtain ⟨_, dv, du, hdv, _, _⟩ := h5 v u hpv2
      exact key dv v hdv hpv

theorem aRelaxStep_ok {m : Grid} {endP s c : Coord} {dc g : Nat}
    {acc : DMap × PMap × List (Nat × Nat × Coord) × List Coord} {d : Coord}
    (hne : cadd c d ≠ c)
    (hI : DPI s (fun e => e.2.1) (fun e => e.2.2) acc.1 acc.2.1 acc.2.2.1)
    (hc : acc.2.1 c ≠ none) (hdc : acc.1 c = some dc) (hcost : dc ≤ g) :
    DPI s (fun e => e.2.1) (fun e => e.2.2) (aRelaxStep m endP c g acc d).1
        (aRelaxStep m endP c g acc d).2.1 (aRelaxStep m endP c g acc d).2.2.1 ∧
      (aRelaxStep m endP c g acc d).2.1 c ≠ none ∧
      (aRelaxStep m endP c g acc d).1 c = some dc := by
  obtain ⟨dm, pm, hp, vs⟩ := acc
  replace hI : DPI s (fun e => e.2.1) (fun e => e.2.2) dm pm hp := hI
  replace hc : pm c ≠ none := hc
  replace hdc : dm c = some dc := hdc
  by_cases hp1 : isPass m (cadd c d) = true
  · by_cases hcond : ((dm (cadd c d)).isNone ||
        decide (g + 1 < (dm (cadd c d)).getD 0)) = true
    · have hred : aRelaxStep m endP c g (dm, pm, hp, vs) d =
          (dmSet dm (cadd c d) (g + 1), pmSet pm (cadd c d) (some c),
            sIns e3Le (g + 1 + (((cadd c d).1 - endP.1).natAbs +
              ((cadd c d).2 - endP.2).natAbs), g + 1, cadd c d) hp,
            vs ++ [cadd c d]) := by
        unfold aRelaxStep
        rw [if_pos hp1, if_pos hcond]
      rw [hred]
      obtain ⟨hI1, hI2, hI3, hI4, hI5⟩ := hI
      have hnes : cadd c d ≠ s := by
        intro hns
        rw [hns, hI3] at hcond
        simp at hcond
      have hnsym : ¬(s = cadd c d) := fun h => hnes h.symm
      have hcsym : ¬(c = cadd c d) := fun h => hne h.symm
      refine ⟨⟨?_, ?_, ?_, ?_, ?_⟩, ?_, ?_⟩
      · show pmSet pm (cadd c d) (some c) s = some none
        rw [pmSet, if_neg hnsym]
        exact hI1
      · intro v hv
        have hv2 : pmSet pm (cadd c d) (some c) v = some none := hv
        by_cases hvn : v = cadd c d
        · rw [pmSet, if_pos hvn] at hv2
          simp at hv2
        · rw [pmSet, if_neg hvn] at hv2
          exact hI2 v hv2
      · show dmSet dm (cadd c d) (g + 1) s = some 0
        rw [dmSet, if_neg hnsym]
        exact hI3
      · intro e he
        have he2 := (sIns_mem e3Le (g + 1 + (((cadd c d).1 - endP.1).natAbs +
          ((cadd c d).2 - endP.2).natAbs), g + 1, cadd c d) hp e).mp he
        rcases he2 with heq | hold
        · subst heq
          constructor
          · show pmSet pm (cadd c d) (some c) (cadd c d) ≠ none
            rw [pmSet, if_pos rfl]
            exact fun hx => Option.noConfusion hx
          · refine ⟨g + 1, ?_, le_refl _⟩
            show dmSet dm (cadd c d) (g + 1) (cadd c d) = some (g + 1)
            rw [dmSet, if_pos rfl]
        · obtain ⟨hpe, dv, hdve, hle⟩ := hI4 e hold
          replace hdve : dm e.2.2 = some dv := hdve
          replace hle : dv ≤ e.2.1 := hle
          constructor
          · show pmSet pm (cadd c d) (some c) e.2.2 ≠ none
            by_cases h2n : e.2.2 = cadd c d
            · rw [pmSet, if_pos h2n]
              exact fun hx => Option.noConfusion hx
            · rw [pmSet, if_neg h2n]
              exact hpe
          · by_cases h2n : e.2.2 = cadd c d
            · refine ⟨g + 1, ?_, ?_⟩
              · show dmSet dm (cadd c d) (g + 1) e.2.2 = some (g + 1)
                rw [dmSet, if_pos h2n]
              · show g + 1 ≤ e.2.1
                rw [h2n] at hdve
                rw [hdve] at hcond
                simp at hcond
                omega
            · refine ⟨dv, ?_, hle⟩
              show dmSet dm (cadd c d) (g + 1) e.2.2 = some dv
              rw [dmSet, if_neg h2n]
              exact hdve
      · intro v u hvu
        have hvu2 : pmSet pm (cadd c d) (some c) v = some (some u) := hvu
        by_cases hvn : v = cadd c d
        · rw [pmSet, if_pos hvn] at hvu2
          have huc : u = c := by
            have h9 := Option.some.inj hvu2
            exact (Option.some.inj h9).symm
          constructor
          · show pmSet pm (cadd c d) (some c) u ≠ none
            rw [huc, pmSet, if_neg hcsym]
            exact hc
          · refine ⟨g + 1, dc, ?_, ?_, by omega⟩
            · show dmSet dm (cadd c d) (g + 1) v = some (g + 1)
              rw [dmSet, if_pos hvn]
            · show dmSet dm (cadd c d) (g + 1) u = some dc
              rw [huc, dmSet, if_neg hcsym]
              exact hdc
        · rw [pmSet, if_neg hvn] at hvu2
          obtain ⟨hpu, dv, du, hdv, hdu, hlt⟩ := hI5 v u hvu2
          constructor
          · show pmSet pm (cadd c d) (some c) u ≠ none
            by_cases hun : u = cadd c d
            · rw [pmSet, if_pos hun]
              exact fun hx => Option.noConfusion hx
            · rw [pmSet, if_neg hun]
              exact hpu
          · by_cases hun : u = cadd c d
            · refine ⟨dv, g + 1, ?_, ?_, ?_⟩
              · show dmSet dm (cadd c d) (g + 1) v = some dv
                rw [dmSet, if_neg hvn]
                exact hdv
              · show dmSet dm (cadd c d) (g + 1) u = some (g + 1)
                rw [dmSet, if_pos hun]
              · rw [hun] at hdu
                rw [hdu] at hcond
                simp at hcond
                omega
            · refine ⟨dv, du, ?_, ?_, hlt⟩
              · show dmSet dm (cadd c d) (g + 1) v = some dv
                rw [dmSet, if_neg hvn]
                exact hdv
              · show dmSet dm (cadd c d) (g + 1) u = some du
                rw [dmSet, if_neg hun]
                exact hdu
      · show pmSet pm (cadd c d) (some c) c ≠ none
        rw [pmSet, if_neg hcsym]
        exact hc
      · show dmSet dm (cadd c d) (g + 1) c = some dc
        rw [dmSet, if_neg hcsym]
        exact hdc
    · have hred : aRelaxStep m endP c g (dm, pm, hp, vs) d =
          (dm, pm, hp, vs) := by
        unfold aRelaxStep
        rw [if_pos hp1, if_neg hcond]
      rw [hred]
      exact ⟨hI, hc, hdc⟩
  · have hred : aRelaxStep m endP c g (dm, pm, hp, vs) d =
        (dm, pm, hp, vs) := by
      unfold aRelaxStep
      rw [if_neg hp1]
    rw [hred]
    exact ⟨hI, hc, hdc⟩

theorem aRelaxFold_ok {m : Grid} {endP s c : Coord} {dc g : Nat} :
    ∀ (ds : List Coord)
      (acc : DMap × PMap × List (Nat × Nat × Coord) × List Coord),
      (∀ d ∈ ds, cadd c d ≠ c) →
      DPI s (fun e => e.2.1) (fun e => e.2.2) acc.1 acc.2.1 acc.2.2.1 →
      acc.2.1 c ≠ none → acc.1 c = some dc → dc ≤ g →
      DPI s (fun e => e.2.1) (fun e => e.2.2)
        (ds.foldl (aRelaxStep m endP c g) acc).1
        (ds.foldl (aRelaxStep m endP c g) acc).2.1
        (ds.foldl (aRelaxStep m endP c g) acc).2.2.1 := by
  intro ds
  induction ds with
  | nil =>
    intro acc _ hI _ _ _
    exact hI
  | cons d ds ih =>
    intro acc hne hI hc hdc hcost
    simp only [List.foldl_cons]
    obtain ⟨hI2, hc2, hdc2⟩ :=
      aRelaxStep_ok (hne d (List.mem_cons_self d ds)) hI hc hdc hcost
    exact ih _ (fun x hx => hne x (List.mem_cons_of_mem d hx)) hI2 hc2 hdc2 hcost

/- The A* engine state keeps the same dictionary invariant, reading the
accumulated cost out of the middle component of each heap entry. -/
def astOK (s : Coord) (st : ASt) : Prop :=
  DPI s (fun e => e.2.1) (fun e => e.2.2) st.dists st.parents st.nodes

theorem astarStep_astOK (m : Grid) (endP s : Coord) (p : Bool) (tm : Int)
    (st : ASt) (h : astOK s st) : astOK s (astarStep m endP p tm st).1 := by
  obtain ⟨nds, dm, pm, sv, a1, a2⟩ := st
  unfold astarStep
  cases sv
  · exact h
  · cases p
    · cases nds with
      | nil => exact h
      | cons e rest =>
        obtain ⟨f0, g, c⟩ := e
        obtain ⟨h1, h2, h3, h4, h5⟩ := h
        have h4b : ∀ e ∈ (f0, g, c) :: rest,
            pm e.2.2 ≠ none ∧ ∃ dv, dm e.2.2 = some dv ∧ dv ≤ e.2.1 := h4
        have hI0 : DPI s (fun e => e.2.1) (fun e => e.2.2) dm pm rest :=
          ⟨h1, h2, h3, fun e he => h4b e (List.mem_cons_of_mem _ he), h5⟩
        by_cases hc : c = endP
        · simp only [if_pos hc]
          exact ⟨h1, h2, h3, fun e he => h4b e (List.mem_cons_of_mem _ he), h5⟩
        · simp only [if_neg hc]
          obtain ⟨hpc, dc, hdc, hcost⟩ :=
            h4b (f0, g, c) (List.mem_cons_self _ _)
          exact aRelaxFold_ok dirs (dm, pm, rest, [])
            (fun d hd => cadd_ne_self d hd) hI0 hpc hdc hcost
    · exact h

theorem aInit_astOK (s : Coord) (t0 : Int) : astOK s (aInit s t0) := by
  have hss : pmSet pmEmpty s none s = some none := by
    rw [pmSet, if_pos rfl]
  have hds : dmSet dmEmpty s 0 s = some 0 := by
    rw [dmSet, if_pos rfl]
  refine ⟨hss, ?_, hds, ?_, ?_⟩
  · intro v hv
    have hv2 : pmSet pmEmpty s none v = some none := hv
    by_cases hvs : v = s
    · exact hvs
    · rw [pmSet, if_neg hvs] at hv2
      exact Option.noConfusion hv2
  · intro e he
    have he2 : e ∈ [((0 : Nat), (0 : Nat), s)] := he
    have hes : e = (0, 0, s) := by simpa using he2
    subst hes
    constructor
    · show pmSet pmEmpty s none s ≠ none
      rw [hss]
      exact fun hx => Option.noConfusion hx
    · exact ⟨0, hds, le_refl 0⟩
  · intro v u hvu
    have hvu2 : pmSet pmEmpty s none v = some (some u) := hvu
    by_cases hvs : v = s
    · rw [pmSet, if_pos hvs] at hvu2
      simp at hvu2
    · rw [pmSet, if_neg hvs] at hvu2
      exact Option.noConfusion hvu2

/- The property C10 asserts of a parents dictionary: the start maps to
None, and every recorded coordinate has a finite parent chain to the
start, so the backward walk of `draw_solution_path` terminates on it. -/
def ParentsOK (s : Coord) (pm : PMap) : Prop :=
  pm s = some none ∧
  ∀ v, pm v ≠ none → ∃ n, ChainN pm s v n ∧
    ∀ fuel, n < fuel → ∃ p, recon pm v fuel = some p ∧ p.getLast? = some s

theorem parentsOK_of_chains {s : Coord} {pm : PMap}
    (h1 : pm s = some none)
    (h2 : ∀ v, pm v ≠ none → ∃ n, ChainN pm s v n) : ParentsOK s pm := by
  refine ⟨h1, fun v hv => ?_⟩
  obtain ⟨n, hch⟩ := h2 v hv
  refine ⟨n, hch, fun fuel hf => ?_⟩
  obtain ⟨l, hl, _, hlast, _⟩ := reconAux_of_chain hch fuel hf []
  exact ⟨l, by simpa [recon] using hl, hlast⟩

theorem bfs_qTree_all (m : Grid) (endP s : Coord) (t0 : Int)
    (sched : Nat → Bool) (tms : Nat → Int) :
    ∀ k, qTree s (stAfter (bfsStep m endP) sched tms (qInit s t0) k) := by
  intro k
  induction k with
  | zero => exact qInit_qTree s t0
  | succ k ih =>
    exact bfsStep_qTree m endP s (sched k) (tms k)
      (stAfter (bfsStep m endP) sched tms (qInit s t0) k) ih

theorem dfs_qTree_all (m : Grid) (endP s : Coord) (t0 : Int)
    (sched : Nat → Bool) (tms : Nat → Int) :
    ∀ k, qTree s (stAfter (dfsStep m endP) sched tms (qInit s t0) k) := by
  intro k
  induction k with
  | zero => exact qInit_qTree s t0
  | succ k ih =>
    exact dfsStep_qTree m endP s (sched k) (tms k)
      (stAfter (dfsStep m endP) sched tms (qInit s t0) k) ih

theorem dij_dstOK_all (m : Grid) (endP s : Coord) (t0 : Int)
    (sched : Nat → Bool) (tms : Nat → Int) :
    ∀ k, dstOK s (stAfter (dijStep m endP) sched tms (dInit s t0) k) := by
  intro k
  induction k with
  | zero => exact dInit_dstOK s t0
  | succ k ih =>
    exact dijStep_dstOK m endP s (sched k) (tms k)
      (stAfter (dijStep m endP) sched tms (dInit s t0) k) ih

theorem astar_astOK_all (m : Grid) (endP s : Coord) (t0 : Int)
    (sched : Nat → Bool) (tms : Nat → Int) :
    ∀ k, astOK s (stAfter (astarStep m endP) sched tms (aInit s t0) k) := by
  intro k
  induction k with
  | zero => exact aInit_astOK s t0
  | succ k ih =>
    exact astarStep_astOK m endP s (sched k) (tms k)
      (stAfter (astarStep m endP) sched tms (aInit s t0) k) ih

/-- C10: in every state reachable by seeding a solve and stepping any of
the four algorithm variants any number of times — under every grid, goal,
pause schedule and clock stream — the parents dictionary is acyclic: the
start's entry is None and is never overwritten, every recorded coordinate
reaches the start by following parent links finitely many times, and the
backward walk of path reconstruction terminates (given fuel exceeding the
chain length) ending at the start.  This holds for Dijkstra and A* too,
whose relaxation may overwrite a parent when a strictly cheaper cost is
found, because every parent link strictly decreases the recorded
distance. -/
theorem C10_parent_acyclic (m : Grid) (endP s : Coord) (t0 : Int)
    (sched : Nat → Bool) (tms : Nat → Int) (k : Nat) :
    ParentsOK s (stAfter (bfsStep m endP) sched tms (qInit s t0) k).parents ∧
    ParentsOK s (stAfter (dfsStep m endP) sched tms (qInit s t0) k).parents ∧
    ParentsOK s (stAfter (dijStep m endP) sched tms (dInit s t0) k).parents ∧
    ParentsOK s
      (stAfter (astarStep m endP) sched tms (aInit s t0) k).parents := by
  refine ⟨?_, ?_, ?_, ?_⟩
  · obtain ⟨h1, _, h3⟩ := bfs_qTree_all m endP s t0 sched tms k
    exact parentsOK_of_chains h1 h3
  · obtain ⟨h1, _, h3⟩ := dfs_qTree_all m endP s t0 sched tms k
    exact parentsOK_of_chains h1 h3
  · have h := dij_dstOK_all m endP s t0 sched tms k
    exact parentsOK_of_chains h.1 (dpi_chain h)
  · have h := astar_astOK_all m endP s t0 sched tms k
    exact parentsOK_of_chains h.1 (dpi_chain h)

theorem sIns_length {α : Type} (le : α → α → Bool) (x : α) :
    ∀ l : List α, (sIns le x l).length = l.length + 1 := by
  intro l
  induction l with
  | nil => rfl
  | cons y ys ih =>
    unfold sIns
    by_cases hle : le x y = true
    · rw [if_pos hle]
      rfl
    · rw [if_neg hle]
      simp only [List.length_cons, ih]

/- Full characterisation of one `animate_dijkstra` relaxation sweep: the
cells written are exactly the passable neighbours that are undiscovered or
strictly improved, they all get distance `cost + 1` and parent `c`, one
heap entry `(cost + 1, v)` is pushed for each, and nothing else changes. -/
theorem dRelaxF_spec (m : Grid) (c : Coord) (cost : Nat) :
    ∀ (ds : List Coord) (dm : DMap) (pm : PMap)
      (hp : List (Nat × Coord)) (vs : List Coord),
      List.Pairwise (fun a b => cadd c a ≠ cadd c b) ds →
      ∃ ps : List Coord,
        ps.Nodup ∧
        (∀ v, v ∈ ps ↔ (isPass m v = true ∧ (∃ dd ∈ ds, v = cadd c dd) ∧
          (dm v = none ∨ ∃ dv, dm v = some dv ∧ cost + 1 < dv))) ∧
        (∀ v ∈ ps,
          (ds.foldl (dRelaxStep m c cost) (dm, pm, hp, vs)).1 v =
            some (cost + 1) ∧
          (ds.foldl (dRelaxStep m c cost) (dm, pm, hp, vs)).2.1 v =
            some (some c)) ∧
        (∀ v, v ∉ ps →
          (ds.foldl (dRelaxStep m c cost) (dm, pm, hp, vs)).1 v = dm v ∧
          (ds.foldl (dRelaxStep m c cost) (dm, pm, hp, vs)).2.1 v = pm v) ∧
        (∀ e, e ∈ (ds.foldl (dRelaxStep m c cost) (dm, pm, hp, vs)).2.2.1 ↔
          (e ∈ hp ∨ ∃ v ∈ ps, e = (cost + 1, v))) ∧
        (ds.foldl (dRelaxStep m c cost) (dm, pm, hp, vs)).2.2.1.length =
          hp.length + ps.length := by
  intro ds
  induction ds with
  | nil =>
    intro dm pm hp vs _
    refine ⟨[], List.nodup_nil, by simp, by simp, fun v _ => ⟨rfl, rfl⟩,
      ?_, rfl⟩
    intro e
    simp
  | cons d ds ih =>
    intro dm pm hp vs hpw
    obtain ⟨hd1, hd2⟩ := List.pairwise_cons.mp hpw
    simp only [List.foldl_cons]
    by_cases hp1 : isPass m (cadd c d) = true
    · by_cases hcond : ((dm (cadd c d)).isNone ||
          decide (cost + 1 < (dm (cadd c d)).getD 0)) = true
      · have hred : dRelaxStep m c cost (dm, pm, hp, vs) d =
            (dmSet dm (cadd c d) (cost + 1), pmSet pm (cadd c d) (some c),
              sIns e2Le (cost + 1, cadd c d) hp, vs ++ [cadd c d]) := by
          unfold dRelaxStep
          rw [if_pos hp1, if_pos hcond]
        rw [hred]
        obtain ⟨ps1, hnd, hmem, hval, hkeep, hheap, hlen⟩ :=
          ih (dmSet dm (cadd c d) (cost + 1)) (pmSet pm (cadd c d) (some c))
            (sIns e2Le (cost + 1, cadd c d) hp) (vs ++ [cadd c d]) hd2
        have hncond : (dm (cadd c d) = none ∨
            ∃ dv, dm (cadd c d) = some dv ∧ cost + 1 < dv) := by
          rcases Bool.or_eq_true .. ▸ hcond with h | h
          · exact Or.inl (Option.isNone_iff_eq_none.mp h)
          · cases hdmn : dm (cadd c d) with
            | none => exact Or.inl rfl
            | some dv =>
              refine Or.inr ⟨dv, rfl, ?_⟩
              rw [hdmn] at h
              simpa using of_decide_eq_true h
        have hnotin : cadd c d ∉ ps1 := by
          intro hin
          obtain ⟨_, _, hbad⟩ := (hmem _).mp hin
          rcases hbad with hbad | ⟨dv, hbad, hlt⟩
          · rw [dmSet, if_pos rfl] at hbad
            exact Option.noConfusion hbad
          · rw [dmSet, if_pos rfl] at hbad
            have : dv = cost + 1 := (Option.some.inj hbad).symm
            omega
        refine ⟨cadd c d :: ps1, List.nodup_cons.mpr ⟨hnotin, hnd⟩,
          ?_, ?_, ?_, ?_, ?_⟩
        · intro v
          constructor
          · intro hv
            rcases List.mem_cons.mp hv with rfl | hv
            · exact ⟨hp1, ⟨d, List.mem_cons_self d ds, rfl⟩, hncond⟩
            · obtain ⟨hq1, ⟨dd, hdd, hveq⟩, hq3⟩ := (hmem v).mp hv
              have hvne : v ≠ cadd c d := by
                intro hc2
                exact hnotin (hc2 ▸ hv)
              refine ⟨hq1, ⟨dd, List.mem_cons_of_mem d hdd, hveq⟩, ?_⟩
              rcases hq3 with hq3 | ⟨dv, hq3, hlt⟩
              · rw [dmSet, if_neg hvne] at hq3
                exact Or.inl hq3
              · rw [dmSet, if_neg hvne] at hq3
                exact Or.inr ⟨dv, hq3, hlt⟩
          · rintro ⟨hq1, ⟨dd, hdd, rfl⟩, hq3⟩
            rcases List.mem_cons.mp hdd with rfl | hdd
            · exact List.mem_cons_self _ _
            · have hvne : cadd c dd ≠ cadd c d := (hd1 dd hdd).symm
              refine List.mem_cons_of_mem _ ((hmem _).mpr
                ⟨hq1, ⟨dd, hdd, rfl⟩, ?_⟩)
              rcases hq3 with hq3 | ⟨dv, hq3, hlt⟩
              · left
                rw [dmSet, if_neg hvne]
                exact hq3
              · right
                refine ⟨dv, ?_, hlt⟩
                rw [dmSet, if_neg hvne]
                exact hq3
        · intro v hv
          rcases List.mem_cons.mp hv with rfl | hv
          · obtain ⟨hk1, hk2⟩ := hkeep _ hnotin
            constructor
            · rw [hk1, dmSet, if_pos rfl]
            · rw [hk2, pmSet, if_pos rfl]
          · exact hval v hv
        · intro v hv
          have hvne : v ≠ cadd c d := by
            intro hc2
            exact hv (hc2 ▸ List.mem_cons_self _ _)
          have hvps1 : v ∉ ps1 := fun hc2 =>
            hv (List.mem_cons_of_mem _ hc2)
          obtain ⟨hk1, hk2⟩ := hkeep v hvps1
          constructor
          · rw [hk1, dmSet, if_neg hvne]
          · rw [hk2, pmSet, if_neg hvne]
        · intro e
          rw [hheap e]
          constructor
          · intro h
            rcases h with h | ⟨v, hv, rfl⟩
            · rcases (sIns_mem e2Le (cost + 1, cadd c d) hp e).mp h with
                rfl | h
              · exact Or.inr ⟨cadd c d, List.mem_cons_self _ _, rfl⟩
              · exact Or.inl h
            · exact Or.inr ⟨v, List.mem_cons_of_mem _ hv, rfl⟩
          · intro h
            rcases h with h | ⟨v, hv, rfl⟩
            · exact Or.inl
                ((sIns_mem e2Le (cost + 1, cadd c d) hp e).mpr (Or.inr h))
            · rcases List.mem_cons.mp hv with rfl | hv
              · exact Or.inl ((sIns_mem e2Le (cost + 1, cadd c d) hp
                  ((cost + 1, cadd c d))).mpr (Or.inl rfl))
              · exact Or.inr ⟨v, hv, rfl⟩
        · rw [hlen, sIns_length]
          simp only [List.length_cons]
          omega
      · have hred2 : dRelaxStep m c cost (dm, pm, hp, vs) d =
            (dm, pm, hp, vs) := by
          unfold dRelaxStep
          rw [if_pos hp1, if_neg hcond]
        rw [hred2]
        obtain ⟨ps1, hnd, hmem, hval, hkeep, hheap, hlen⟩ :=
          ih dm pm hp vs hd2
        refine ⟨ps1, hnd, ?_, hval, hkeep, hheap, hlen⟩
        intro v
        rw [hmem v]
        constructor
        · rintro ⟨hq1, ⟨dd, hdd, rfl⟩, hq3⟩
          exact ⟨hq1, ⟨dd, List.mem_cons_of_mem d hdd, rfl⟩, hq3⟩
        · rintro ⟨hq1, ⟨dd, hdd, rfl⟩, hq3⟩
          rcases List.mem_cons.mp hdd with rfl | hdd
          · exfalso
            apply hcond
            rcases hq3 with hq3 | ⟨dv, hq3, hlt⟩
            · rw [hq3]
              rfl
            · rw [hq3]
              simp only [Option.isNone_some, Bool.false_or, Option.getD_some]
              exact decide_eq_true hlt
          · exact ⟨hq1, ⟨dd, hdd, rfl⟩, hq3⟩
    · have hred2 : dRelaxStep m c cost (dm, pm, hp, vs) d =
          (dm, pm, hp, vs) := by
        unfold dRelaxStep
        rw [if_neg hp1]
      rw [hred2]
      obtain ⟨ps1, hnd, hmem, hval, hkeep, hheap, hlen⟩ := ih dm pm hp vs hd2
      refine ⟨ps1, hnd, ?_, hval, hkeep, hheap, hlen⟩
      intro v
      rw [hmem v]
      constructor
      · rintro ⟨hq1, ⟨dd, hdd, rfl⟩, hq3⟩
        exact ⟨hq1, ⟨dd, List.mem_cons_of_mem d hdd, rfl⟩, hq3⟩
      · rintro ⟨hq1, ⟨dd, hdd, rfl⟩, hq3⟩
        rcases List.mem_cons.mp hdd with rfl | hdd
        · exact absurd hq1 hp1
        · exact ⟨hq1, ⟨dd, hdd, rfl⟩, hq3⟩

/- Full characterisation of one `animate_astar` relaxation sweep: the
cells written are exactly the passable neighbours that are undiscovered or
strictly improved, they all get distance `g + 1` and parent `c`, one heap
entry `(g + 1 + manh v endP, g + 1, v)` is pushed for each, and nothing
else changes. -/
theorem aRelaxF_spec (m : Grid) (endP c : Coord) (g : Nat) :
    ∀ (ds : List Coord) (dm : DMap) (pm : PMap)
      (hp : List (Nat × Nat × Coord)) (vs : List Coord),
      List.Pairwise (fun a b => cadd c a ≠ cadd c b) ds →
      ∃ ps : List Coord,
        ps.Nodup ∧
        (∀ v, v ∈ ps ↔ (isPass m v = true ∧ (∃ dd ∈ ds, v = cadd c dd) ∧
          (dm v = none ∨ ∃ dv, dm v = some dv ∧ g + 1 < dv))) ∧
        (∀ v ∈ ps,
          (ds.foldl (aRelaxStep m endP c g) (dm, pm, hp, vs)).1 v =
            some (g + 1) ∧
          (ds.foldl (aRelaxStep m endP c g) (dm, pm, hp, vs)).2.1 v =
            some (some c)) ∧
        (∀ v, v ∉ ps →
          (ds.foldl (aRelaxStep m endP c g) (dm, pm, hp, vs)).1 v = dm v ∧
          (ds.foldl (aRelaxStep m endP c g) (dm, pm, hp, vs)).2.1 v = pm v) ∧
        (∀ e, e ∈ (ds.foldl (aRelaxStep m endP c g) (dm, pm, hp, vs)).2.2.1 ↔
          (e ∈ hp ∨ ∃ v ∈ ps, e = (g + 1 + manh v endP, g + 1, v))) ∧
        (ds.foldl (aRelaxStep m endP c g) (dm, pm, hp, vs)).2.2.1.length =
          hp.length + ps.length := by
  intro ds
  induction ds with
  | nil =>
    intro dm pm hp vs _
    refine ⟨[], List.nodup_nil, by simp, by simp, fun v _ => ⟨rfl, rfl⟩,
      ?_, rfl⟩
    intro e
    simp
  | cons d ds ih =>
    intro dm pm hp vs hpw
    obtain ⟨hd1, hd2⟩ := List.pairwise_cons.mp hpw
    simp only [List.foldl_cons]
    by_cases hp1 : isPass m (cadd c d) = true
    · by_cases hcond : ((dm (cadd c d)).isNone ||
          decide (g + 1 < (dm (cadd c d)).getD 0)) = true
      · have hred : aRelaxStep m endP c g (dm, pm, hp, vs) d =
            (dmSet dm (cadd c d) (g + 1), pmSet pm (cadd c d) (some c),
              sIns e3Le (g + 1 + manh (cadd c d) endP, g + 1, cadd c d) hp, vs ++ [cadd c d]) := by
          unfold aRelaxStep
          rw [if_pos hp1, if_pos hcond]
          rfl
        rw [hred]
        obtain ⟨ps1, hnd, hmem, hval, hkeep, hheap, hlen⟩ :=
          ih (dmSet dm (cadd c d) (g + 1)) (pmSet pm (cadd c d) (some c))
            (sIns e3Le (g + 1 + manh (cadd c d) endP, g + 1, cadd c d) hp) (vs ++ [cadd c d]) hd2
        have hncond : (dm (cadd c d) = none ∨
            ∃ dv, dm (cadd c d) = some dv ∧ g + 1 < dv) := by
          rcases Bool.or_eq_true .. ▸ hcond with h | h
          · exact Or.inl (Option.isNone_iff_eq_none.mp h)
          · cases hdmn : dm (cadd c d) with
            | none => exact Or.inl rfl
            | some dv =>
              refine Or.inr ⟨dv, rfl, ?_⟩
              rw [hdmn] at h
              simpa using of_decide_eq_true h
        have hnotin : cadd c d ∉ ps1 := by
          intro hin
          obtain ⟨_, _, hbad⟩ := (hmem _).mp hin
          rcases hbad with hbad | ⟨dv, hbad, hlt⟩
          · rw [dmSet, if_pos rfl] at hbad
            exact Option.noConfusion hbad
          · rw [dmSet, if_pos rfl] at hbad
            have : dv = g + 1 := (Option.some.inj hbad).symm
            omega
        refine ⟨cadd c d :: ps1, List.nodup_cons.mpr ⟨hnotin, hnd⟩,
          ?_, ?_, ?_, ?_, ?_⟩
        · intro v
          constructor
          · intro hv
            rcases List.mem_cons.mp hv with rfl | hv
            · exact ⟨hp1, ⟨d, List.mem_cons_self d ds, rfl⟩, hncond⟩
            · obtain ⟨hq1, ⟨dd, hdd, hveq⟩, hq3⟩ := (hmem v).mp hv
              have hvne : v ≠ cadd c d := by
                intro hc2
                exact hnotin (hc2 ▸ hv)
              refine ⟨hq1, ⟨dd, List.mem_cons_of_mem d hdd, hveq⟩, ?_⟩
              rcases hq3 with hq3 | ⟨dv, hq3, hlt⟩
              · rw [dmSet, if_neg hvne] at hq3
                exact Or.inl hq3
              · rw [dmSet, if_neg hvne] at hq3
                exact Or.inr ⟨dv, hq3, hlt⟩
          · rintro ⟨hq1, ⟨dd, hdd, rfl⟩, hq3⟩
            rcases List.mem_cons.mp hdd with rfl | hdd
            · exact List.mem_cons_self _ _
            · have hvne : cadd c dd ≠ cadd c d := (hd1 dd hdd).symm
              refine List.mem_cons_of_mem _ ((hmem _).mpr
                ⟨hq1, ⟨dd, hdd, rfl⟩, ?_⟩)
              rcases hq3 with hq3 | ⟨dv, hq3, hlt⟩
              · left
                rw [dmSet, if_neg hvne]
                exact hq3
              · right
                refine ⟨dv, ?_, hlt⟩
                rw [dmSet, if_neg hvne]
                exact hq3
        · intro v hv
          rcases List.mem_cons.mp hv with rfl | hv
          · obtain ⟨hk1, hk2⟩ := hkeep _ hnotin
            constructor
            · rw [hk1, dmSet, if_pos rfl]
            · rw [hk2, pmSet, if_pos rfl]
          · exact hval v hv
        · intro v hv
          have hvne : v ≠ cadd c d := by
            intro hc2
            exact hv (hc2 ▸ List.mem_cons_self _ _)
          have hvps1 : v ∉ ps1 := fun hc2 =>
            hv (List.mem_cons_of_mem _ hc2)
          obtain ⟨hk1, hk2⟩ := hkeep v hvps1
          constructor
          · rw [hk1, dmSet, if_neg hvne]
          · rw [hk2, pmSet, if_neg hvne]
        · intro e
          rw [hheap e]
          constructor
          · intro h
            rcases h with h | ⟨v, hv, rfl⟩
            · rcases (sIns_mem e3Le (g + 1 + manh (cadd c d) endP, g + 1, cadd c d) hp e).mp h with
                rfl | h
              · exact Or.inr ⟨cadd c d, List.mem_cons_self _ _, rfl⟩
              · exact Or.inl h
            · exact Or.inr ⟨v, List.mem_cons_of_mem _ hv, rfl⟩
          · intro h
            rcases h with h | ⟨v, hv, rfl⟩
            · exact Or.inl
                ((sIns_mem e3Le (g + 1 + manh (cadd c d) endP, g + 1, cadd c d) hp e).mpr (Or.inr h))
            · rcases List.mem_cons.mp hv with rfl | hv
              · exact Or.inl ((sIns_mem e3Le (g + 1 + manh (cadd c d) endP, g + 1, cadd c d) hp
                  ((g + 1 + manh (cadd c d) endP, g + 1, cadd c d))).mpr (Or.inl rfl))
              · exact Or.inr ⟨v, hv, rfl⟩
        · rw [hlen, sIns_length]
          simp only [List.length_cons]
          omega
      · have hred2 : aRelaxStep m endP c g (dm, pm, hp, vs) d =
            (dm, pm, hp, vs) := by
          unfold aRelaxStep
          rw [if_pos hp1, if_neg hcond]
        rw [hred2]
        obtain ⟨ps1, hnd, hmem, hval, hkeep, hheap, hlen⟩ :=
          ih dm pm hp vs hd2
        refine ⟨ps1, hnd, ?_, hval, hkeep, hheap, hlen⟩
        intro v
        rw [hmem v]
        constructor
        · rintro ⟨hq1, ⟨dd, hdd, rfl⟩, hq3⟩
          exact ⟨hq1, ⟨dd, List.mem_cons_of_mem d hdd, rfl⟩, hq3⟩
        · rintro ⟨hq1, ⟨dd, hdd, rfl⟩, hq3⟩
          rcases List.mem_cons.mp hdd with rfl | hdd
          · exfalso
            apply hcond
            rcases hq3 with hq3 | ⟨dv, hq3, hlt⟩
            · rw [hq3]
              rfl
            · rw [hq3]
              simp only [Option.isNone_some, Bool.false_or, Option.getD_some]
              exact decide_eq_true hlt
          · exact ⟨hq1, ⟨dd, hdd, rfl⟩, hq3⟩
    · have hred2 : aRelaxStep m endP c g (dm, pm, hp, vs) d =
          (dm, pm, hp, vs) := by
        unfold aRelaxStep
        rw [if_neg hp1]
      rw [hred2]
      obtain ⟨ps1, hnd, hmem, hval, hkeep, hheap, hlen⟩ := ih dm pm hp vs hd2
      refine ⟨ps1, hnd, ?_, hval, hkeep, hheap, hlen⟩
      intro v
      rw [hmem v]
      constructor
      · rintro ⟨hq1, ⟨dd, hdd, rfl⟩, hq3⟩
        exact ⟨hq1, ⟨dd, List.mem_cons_of_mem d hdd, rfl⟩, hq3⟩
      · rintro ⟨hq1, ⟨dd, hdd, rfl⟩, hq3⟩
        rcases List.mem_cons.mp hdd with rfl | hdd
        · exact absurd hq1 hp1
        · exact ⟨hq1, ⟨dd, hdd, rfl⟩, hq3⟩

theorem Reach.step {m : Grid} {s u dd : Coord} (h : Reach m s u)
    (hdd : dd ∈ dirs) (hp : isPass m (cadd u dd) = true) :
    Reach m s (cadd u dd) := by
  obtain ⟨n, hn⟩ := h
  exact ⟨n + 1, hn.step hdd hp⟩

/- Evaluation of one unpaused `animate_bfs` call on an empty and on a
nonempty frontier. -/
theorem bfsStep_empty (m : Grid) (endP : Coord) (t : Int) {st : QSt}
    (hsv : st.solving = true) (hn : st.nodes = []) :
    bfsStep m endP false t st = ({ st with solving := false },
      .noSolution) := by
  obtain ⟨nds, pm, sv, a1, a2⟩ := st
  simp only at hsv hn
  subst hsv
  subst hn
  rfl

theorem bfsStep_cont (m : Grid) (endP : Coord) (t : Int) {st : QSt}
    {c : Coord} {rest : List Coord} (hsv : st.solving = true)
    (hn : st.nodes = c :: rest) (hc : c ≠ endP) :
    bfsStep m endP false t st =
      ({ st with nodes := rest ++ (qExpand m c st.parents).2, parents := (qExpand m c st.parents).1 },
        .cont (qExpand m c st.parents).2) := by
  obtain ⟨nds, pm, sv, a1, a2⟩ := st
  simp only at hsv hn
  subst hsv
  subst hn
  unfold bfsStep
  simp only [if_neg hc]
  rfl

theorem dfsStep_empty (m : Grid) (endP : Coord) (t : Int) {st : QSt}
    (hsv : st.solving = true) (hn : st.nodes.getLast? = none) :
    dfsStep m endP false t st = ({ st with solving := false },
      .noSolution) := by
  obtain ⟨nds, pm, sv, a1, a2⟩ := st
  simp only at hsv hn
  subst hsv
  unfold dfsStep
  simp only [hn]
  rfl

theorem dfsStep_cont (m : Grid) (endP : Coord) (t : Int) {st : QSt}
    {c : Coord} (hsv : st.solving = true) (hn : st.nodes.getLast? = some c)
    (hc : c ≠ endP) :
    dfsStep m endP false t st =
      ({ st with nodes := st.nodes.dropLast ++ (qExpand m c st.parents).2, parents := (qExpand m c st.parents).1 },
        .cont (qExpand m c st.parents).2) := by
  obtain ⟨nds, pm, sv, a1, a2⟩ := st
  simp only at hsv hn
  subst hsv
  unfold dfsStep
  simp only [hn, if_neg hc]
  rfl

/- The counting invariant of the BFS/DFS exhaustion bound: `dl` lists the
recorded cells without duplicates, recorded cells are passable and
reachable, and the frontier is duplicate-free and recorded. -/
def QTI (m : Grid) (s : Coord) (dl : List Coord) (st : QSt) : Prop :=
  dl.Nodup ∧ (∀ v, st.parents v ≠ none ↔ v ∈ dl) ∧
  (∀ v ∈ dl, isPass m v = true ∧ Reach m s v) ∧
  st.nodes.Nodup ∧ (∀ v ∈ st.nodes, v ∈ dl)

theorem QTI_expand {m : Grid} {s c : Coord} {dl : List Coord} {pm : PMap}
    (hnd : dl.Nodup) (hiff : ∀ v, pm v ≠ none ↔ v ∈ dl)
    (hpr : ∀ v ∈ dl, isPass m v = true ∧ Reach m s v) (hc : c ∈ dl) :
    (dl ++ (qExpand m c pm).2).Nodup ∧
    (∀ v, (qExpand m c pm).1 v ≠ none ↔ v ∈ dl ++ (qExpand m c pm).2) ∧
    (∀ v ∈ dl ++ (qExpand m c pm).2, isPass m v = true ∧ Reach m s v) ∧
    (∀ v ∈ (qExpand m c pm).2, v ∉ dl) ∧
    (qExpand m c pm).2.Nodup := by
  obtain ⟨ns, hns2, hnsnd, hmem, hval, hkeep⟩ := qExpand_spec m c pm
  have hdom := qExpand_dom m c pm
  have hfresh : ∀ v ∈ (qExpand m c pm).2, v ∉ dl := by
    rw [hns2]
    intro v hv hvdl
    exact ((hiff v).mpr hvdl) ((hmem v).mp hv).1
  refine ⟨?_, ?_, ?_, hfresh, by rw [hns2]; exact hnsnd⟩
  · rw [hns2]
    refine List.Nodup.append hnd hnsnd ?_
    intro a ha hb
    exact hfresh a (by rw [hns2]; exact hb) ha
  · intro v
    rw [hdom v, List.mem_append, hiff v]
  · intro v hv
    rcases List.mem_append.mp hv with hvd | hvn
    · exact hpr v hvd
    · rw [hns2] at hvn
      obtain ⟨_, hps, dd, hdd, rfl⟩ := (hmem _).mp hvn
      exact ⟨hps, ((hpr c hc).2).step hdd hps⟩

theorem bfs_exhaust (m : Grid) (endP s : Coord) (t0 : Int)
    (sched : Nat → Bool) (tms : Nat → Int) (rl : List Coord)
    (hsched : ∀ i, sched i = false) (hrl : rl.Nodup)
    (hcov : ∀ v, isPass m v = true → Reach m s v → v ∈ rl)
    (hunreach : ¬ Reach m s endP) :
    ∀ (M k : Nat) (dl : List Coord),
      QTI m s dl (stAfter (bfsStep m endP) sched tms (qInit s t0) k) →
      (stAfter (bfsStep m endP) sched tms (qInit s t0) k).solving = true →
      (stAfter (bfsStep m endP) sched tms (qInit s t0) k).nodes.length +
        rl.length ≤ M + dl.length →
      ∃ j, j ≤ k + M ∧
        resAt (bfsStep m endP) sched tms (qInit s t0) j =
          Res.noSolution := by
  intro M
  induction M with
  | zero =>
    intro k dl hq hsv hM
    obtain ⟨hnd, hiff, hpr, hqnd, hqsub⟩ := hq
    have hdl : dl.length ≤ rl.length :=
      List.Subperm.length_le (List.subperm_of_subset hnd
        (fun a ha => hcov a (hpr a ha).1 (hpr a ha).2))
    have hempty : (stAfter (bfsStep m endP) sched tms (qInit s t0) k).nodes
        = [] := by
      cases hnn : (stAfter (bfsStep m endP) sched tms
          (qInit s t0) k).nodes with
      | nil => rfl
      | cons c rest =>
        exfalso
        rw [hnn] at hM
        simp only [List.length_cons] at hM
        omega
    refine ⟨k, by omega, ?_⟩
    show (bfsStep m endP (sched k) (tms k)
      (stAfter (bfsStep m endP) sched tms (qInit s t0) k)).2 = Res.noSolution
    rw [hsched k, bfsStep_empty m endP (tms k) hsv hempty]
  | succ M ih =>
    intro k dl hq hsv hM
    obtain ⟨hnd, hiff, hpr, hqnd, hqsub⟩ := hq
    cases hnn : (stAfter (bfsStep m endP) sched tms (qInit s t0) k).nodes with
    | nil =>
      refine ⟨k, by omega, ?_⟩
      show (bfsStep m endP (sched k) (tms k)
        (stAfter (bfsStep m endP) sched tms (qInit s t0) k)).2 =
          Res.noSolution
      rw [hsched k, bfsStep_empty m endP (tms k) hsv hnn]
    | cons c rest =>
      have hcdl : c ∈ dl := hqsub c (by
        rw [hnn]
        exact List.mem_cons_self c rest)
      have hcne : c ≠ endP := fun hce =>
        hunreach (hce ▸ (hpr c hcdl).2)
      have hstep := bfsStep_cont m endP (tms k) hsv hnn hcne
      have hnods : (stAfter (bfsStep m endP) sched tms (qInit s t0)
          (k + 1)).nodes = rest ++ (qExpand m c (stAfter (bfsStep m endP)
            sched tms (qInit s t0) k).parents).2 := by
        rw [stAfter_succ, hsched k, hstep]
      have hpars : (stAfter (bfsStep m endP) sched tms (qInit s t0)
          (k + 1)).parents = (qExpand m c (stAfter (bfsStep m endP)
            sched tms (qInit s t0) k).parents).1 := by
        rw [stAfter_succ, hsched k, hstep]
      have hsv' : (stAfter (bfsStep m endP) sched tms (qInit s t0)
          (k + 1)).solving = true := by
        rw [stAfter_succ, hsched k, hstep]
        exact hsv
      obtain ⟨hnd', hiff', hpr', hfresh, hnsnd⟩ :=
        QTI_expand hnd hiff hpr hcdl
      have hrestnd : rest.Nodup := by
        rw [hnn] at hqnd
        exact (List.nodup_cons.mp hqnd).2
      have hq' : QTI m s (dl ++ (qExpand m c (stAfter (bfsStep m endP)
          sched tms (qInit s t0) k).parents).2)
          (stAfter (bfsStep m endP) sched tms (qInit s t0) (k + 1)) := by
        refine ⟨hnd', ?_, hpr', ?_, ?_⟩
        · intro v
          rw [hpars]
          exact hiff' v
        · rw [hnods]
          refine List.Nodup.append hrestnd hnsnd ?_
          intro a ha hb
          exact hfresh a hb (hqsub a (by
            rw [hnn]
            exact List.mem_cons_of_mem c ha))
        · intro v hv
          rw [hnods] at hv
          rcases List.mem_append.mp hv with hvr | hvn
          · exact List.mem_append.mpr (Or.inl (hqsub v (by
              rw [hnn]
              exact List.mem_cons_of_mem c hvr)))
          · exact List.mem_append.mpr (Or.inr hvn)
      have hM' : (stAfter (bfsStep m endP) sched tms (qInit s t0)
          (k + 1)).nodes.length + rl.length ≤
          M + (dl ++ (qExpand m c (stAfter (bfsStep m endP) sched tms
            (qInit s t0) k).parents).2).length := by
        rw [hnods]
        rw [hnn] at hM
        simp only [List.length_cons] at hM
        simp only [List.length_append]
        omega
      obtain ⟨j, hj, hres⟩ := ih (k + 1) _ hq' hsv' hM'
      exact ⟨j, by omega, hres⟩

theorem dfs_exhaust (m : Grid) (endP s : Coord) (t0 : Int)
    (sched : Nat → Bool) (tms : Nat → Int) (rl : List Coord)
    (hsched : ∀ i, sched i = false) (hrl : rl.Nodup)
    (hcov : ∀ v, isPass m v = true → Reach m s v → v ∈ rl)
    (hunreach : ¬ Reach m s endP) :
    ∀ (M k : Nat) (dl : List Coord),
      QTI m s dl (stAfter (dfsStep m endP) sched tms (qInit s t0) k) →
      (stAfter (dfsStep m endP) sched tms (qInit s t0) k).solving = true →
      (stAfter (dfsStep m endP) sched tms (qInit s t0) k).nodes.length +
        rl.length ≤ M + dl.length →
      ∃ j, j ≤ k + M ∧
        resAt (dfsStep m endP) sched tms (qInit s t0) j =
          Res.noSolution := by
  intro M
  induction M with
  | zero =>
    intro k dl hq hsv hM
    obtain ⟨hnd, hiff, hpr, hqnd, hqsub⟩ := hq
    have hdl : dl.length ≤ rl.length :=
      List.Subperm.length_le (List.subperm_of_subset hnd
        (fun a ha => hcov a (hpr a ha).1 (hpr a ha).2))
    have hempty : (stAfter (dfsStep m endP) sched tms (qInit s t0) k).nodes
        = [] := by
      cases hnn : (stAfter (dfsStep m endP) sched tms
          (qInit s t0) k).nodes with
      | nil => rfl
      | cons c rest =>
        exfalso
        rw [hnn] at hM
        simp only [List.length_cons] at hM
        omega
    refine ⟨k, by omega, ?_⟩
    show (dfsStep m endP (sched k) (tms k)
      (stAfter (dfsStep m endP) sched tms (qInit s t0) k)).2 = Res.noSolution
    rw [hsched k, dfsStep_empty m endP (tms k) hsv (by
      rw [hempty]
      rfl)]
  | succ M ih =>
    intro k dl hq hsv hM
    obtain ⟨hnd, hiff, hpr, hqnd, hqsub⟩ := hq
    cases hnn : (stAfter (dfsStep m endP) sched tms
        (qInit s t0) k).nodes.getLast? with
    | none =>
      refine ⟨k, by omega, ?_⟩
      show (dfsStep m endP (sched k) (tms k)
        (stAfter (dfsStep m endP) sched tms (qInit s t0) k)).2 =
          Res.noSolution
      rw [hsched k, dfsStep_empty m endP (tms k) hsv hnn]
    | some c =>
      have hcdl : c ∈ dl := hqsub c (List.mem_of_mem_getLast? hnn)
      have hcne : c ≠ endP := fun hce =>
        hunreach (hce ▸ (hpr c hcdl).2)
      have hstep := dfsStep_cont m endP (tms k) hsv hnn hcne
      have hnods : (stAfter (dfsStep m endP) sched tms (qInit s t0)
          (k + 1)).nodes = (stAfter (dfsStep m endP) sched tms (qInit s t0)
            k).nodes.dropLast ++ (qExpand m c (stAfter (dfsStep m endP)
            sched tms (qInit s t0) k).parents).2 := by
        rw [stAfter_succ, hsched k, hstep]
      have hpars : (stAfter (dfsStep m endP) sched tms (qInit s t0)
          (k + 1)).parents = (qExpand m c (stAfter (dfsStep m endP)
            sched tms (qInit s t0) k).parents).1 := by
        rw [stAfter_succ, hsched k, hstep]
      have hsv' : (stAfter (dfsStep m endP) sched tms (qInit s t0)
          (k + 1)).solving = true := by
        rw [stAfter_succ, hsched k, hstep]
        exact hsv
      obtain ⟨hnd', hiff', hpr', hfresh, hnsnd⟩ :=
        QTI_expand hnd hiff hpr hcdl
      have hdropnd : (stAfter (dfsStep m endP) sched tms (qInit s t0)
          k).nodes.dropLast.Nodup :=
        hqnd.sublist (List.dropLast_sublist _)
      have hq' : QTI m s (dl ++ (qExpand m c (stAfter (dfsStep m endP)
          sched tms (qInit s t0) k).parents).2)
          (stAfter (dfsStep m endP) sched tms (qInit s t0) (k + 1)) := by
        refine ⟨hnd', ?_, hpr', ?_, ?_⟩
        · intro v
          rw [hpars]
          exact hiff' v
        · rw [hnods]
          refine List.Nodup.append hdropnd hnsnd ?_
          intro a ha hb
          exact hfresh a hb (hqsub a (List.dropLast_subset _ ha))
        · intro v hv
          rw [hnods] at hv
          rcases List.mem_append.mp hv with hvr | hvn
          · exact List.mem_append.mpr
              (Or.inl (hqsub v (List.dropLast_subset _ hvr)))
          · exact List.mem_append.mpr (Or.inr hvn)
      have hpos : 0 < (stAfter (dfsStep m endP) sched tms
          (qInit s t0) k).nodes.length := by
        cases hnn2 : (stAfter (dfsStep m endP) sched tms
            (qInit s t0) k).nodes with
        | nil =>
          rw [hnn2] at hnn
          exact Option.noConfusion hnn
        | cons a t =>
          simp
      have hM' : (stAfter (dfsStep m endP) sched tms (qInit s t0)
          (k + 1)).nodes.length + rl.length ≤
          M + (dl ++ (qExpand m c (stAfter (dfsStep m endP) sched tms
            (qInit s t0) k).parents).2).length := by
        rw [hnods]
        simp only [List.length_append, List.length_dropLast]
        omega
      obtain ⟨j, hj, hres⟩ := ih (k + 1) _ hq' hsv' hM'
      exact ⟨j, by omega, hres⟩

theorem e2Le_true_le {a b : Nat × Coord} (h : e2Le a b = true) :
    a.1 ≤ b.1 := by
  unfold e2Le at h
  simp only [Bool.or_eq_true, Bool.and_eq_true, decide_eq_true_eq] at h
  rcases h with h | ⟨h, _⟩
  · omega
  · omega

theorem e2Le_false_le {a b : Nat × Coord} (h : e2Le a b = false) :
    b.1 ≤ a.1 := by
  unfold e2Le at h
  simp only [Bool.or_eq_false_iff, Bool.and_eq_false_iff,
    decide_eq_false_iff_not] at h
  omega

/- Sorted insertion keeps the heap sorted by cost key. -/
theorem sIns_pairwise2 (x : Nat × Coord) :
    ∀ l : List (Nat × Coord),
      List.Pairwise (fun a b : Nat × Coord => a.1 ≤ b.1) l →
      List.Pairwise (fun a b : Nat × Coord => a.1 ≤ b.1) (sIns e2Le x l) := by
  intro l
  induction l with
  | nil =>
    intro _
    exact List.pairwise_cons.mpr ⟨by simp, List.Pairwise.nil⟩
  | cons y ys ih =>
    intro h
    obtain ⟨hy, hys⟩ := List.pairwise_cons.mp h
    unfold sIns
    by_cases hle : e2Le x y = true
    · rw [if_pos hle]
      refine List.pairwise_cons.mpr ⟨?_, h⟩
      intro z hz
      rcases List.mem_cons.mp hz with rfl | hz
      · exact e2Le_true_le hle
      · exact Nat.le_trans (e2Le_true_le hle) (hy z hz)
    · rw [if_neg hle]
      have hfalse : e2Le x y = false := Bool.not_eq_true _ ▸ hle
      refine List.pairwise_cons.mpr ⟨?_, ih hys⟩
      intro z hz
      rcases (sIns_mem e2Le x ys z).mp hz with rfl | hz
      · exact e2Le_false_le hfalse
      · exact hy z hz

theorem dRelaxStep_pairwise (m : Grid) (c : Coord) (cost : Nat)
    (acc : DMap × PMap × List (Nat × Coord) × List Coord) (d : Coord)
    (h : List.Pairwise (fun a b : Nat × Coord => a.1 ≤ b.1) acc.2.2.1) :
    List.Pairwise (fun a b : Nat × Coord => a.1 ≤ b.1)
      (dRelaxStep m c cost acc d).2.2.1 := by
  obtain ⟨dm, pm, hp, vs⟩ := acc
  by_cases hp1 : isPass m (cadd c d) = true
  · by_cases hcond : ((dm (cadd c d)).isNone ||
        decide (cost + 1 < (dm (cadd c d)).getD 0)) = true
    · have hred : dRelaxStep m c cost (dm, pm, hp, vs) d =
          (dmSet dm (cadd c d) (cost + 1), pmSet pm (cadd c d) (some c),
            sIns e2Le (cost + 1, cadd c d) hp, vs ++ [cadd c d]) := by
        unfold dRelaxStep
        rw [if_pos hp1, if_pos hcond]
      rw [hred]
      exact sIns_pairwise2 (cost + 1, cadd c d) hp h
    · have hred : dRelaxStep m c cost (dm, pm, hp, vs) d =
          (dm, pm, hp, vs) := by
        unfold dRelaxStep
        rw [if_pos hp1, if_neg hcond]
      rw [hred]
      exact h
  · have hred : dRelaxStep m c cost (dm, pm, hp, vs) d =
        (dm, pm, hp, vs) := by
      unfold dRelaxStep
      rw [if_neg hp1]
    rw [hred]
    exact h

theorem dRelaxFold_pairwise (m : Grid) (c : Coord) (cost : Nat) :
    ∀ (ds : List Coord) (acc : DMap × PMap × List (Nat × Coord) × List Coord),
      List.Pairwise (fun a b : Nat × Coord => a.1 ≤ b.1) acc.2.2.1 →
      List.Pairwise (fun a b : Nat × Coord => a.1 ≤ b.1)
        (ds.foldl (dRelaxStep m c cost) acc).2.2.1 := by
  intro ds
  induction ds with
  | nil =>
    intro acc h
    exact h
  | cons d ds ih =>
    intro acc h
    simp only [List.foldl_cons]
    exact ih _ (dRelaxStep_pairwise m c cost acc d h)

theorem dijStep_empty (m : Grid) (endP : Coord) (t : Int) {st : DSt}
    (hsv : st.solving = true) (hn : st.nodes = []) :
    dijStep m endP false t st = ({ st with solving := false },
      .noSolution) := by
  obtain ⟨nds, dm, pm, sv, a1, a2⟩ := st
  simp only at hsv hn
  subst hsv
  subst hn
  rfl

theorem dijStep_cont (m : Grid) (endP : Coord) (t : Int) {st : DSt}
    {cost : Nat} {c : Coord} {rest : List (Nat × Coord)}
    (hsv : st.solving = true) (hn : st.nodes = (cost, c) :: rest)
    (hc : c ≠ endP) :
    dijStep m endP false t st =
      ({ st with nodes := (dirs.foldl (dRelaxStep m c cost) (st.dists, st.parents, rest, [])).2.2.1, dists := (dirs.foldl (dRelaxStep m c cost) (st.dists, st.parents, rest, [])).1, parents := (dirs.foldl (dRelaxStep m c cost) (st.dists, st.parents, rest, [])).2.1 },
        .cont (dirs.foldl (dRelaxStep m c cost)
          (st.dists, st.parents, rest, [])).2.2.2) := by
  obtain ⟨nds, dm, pm, sv, a1, a2⟩ := st
  simp only at hsv hn
  subst hsv
  subst hn
  unfold dijStep
  simp only [if_neg hc]
  rfl

/- The counting invariant of the Dijkstra exhaustion bound.  Because the
heap is sorted by cost and every recorded distance is at most one above
the minimum heap key, a relaxation can never strictly improve a recorded
distance, so every push discovers a fresh cell. -/
def DTI (m : Grid) (s : Coord) (dl : List Coord) (st : DSt) : Prop :=
  dl.Nodup ∧
  (∀ v, st.dists v ≠ none ↔ v ∈ dl) ∧
  (∀ v ∈ dl, isPass m v = true ∧ Reach m s v) ∧
  (∀ e ∈ st.nodes, e.2 ∈ dl) ∧
  List.Pairwise (fun a b : Nat × Coord => a.1 ≤ b.1) st.nodes ∧
  (∀ e0, st.nodes.head? = some e0 → ∀ v dv, st.dists v = some dv →
    dv ≤ e0.1 + 1)

theorem DTI_step {m : Grid} {s c : Coord} {cost : Nat}
    {rest : List (Nat × Coord)} {dl : List Coord} {dm : DMap} {pm : PMap}
    (hnd : dl.Nodup) (hiff : ∀ v, dm v ≠ none ↔ v ∈ dl)
    (hpr : ∀ v ∈ dl, isPass m v = true ∧ Reach m s v)
    (hent : ∀ e ∈ (cost, c) :: rest, (e : Nat × Coord).2 ∈ dl)
    (hpw : List.Pairwise (fun a b : Nat × Coord => a.1 ≤ b.1)
      ((cost, c) :: rest))
    (hT7 : ∀ v dv, dm v = some dv → dv ≤ cost + 1) :
    ∃ ps : List Coord,
      (dl ++ ps).Nodup ∧
      (∀ v, (dirs.foldl (dRelaxStep m c cost) (dm, pm, rest, [])).1 v ≠ none
        ↔ v ∈ dl ++ ps) ∧
      (∀ v ∈ dl ++ ps, isPass m v = true ∧ Reach m s v) ∧
      (∀ e ∈ (dirs.foldl (dRelaxStep m c cost) (dm, pm, rest, [])).2.2.1,
        (e : Nat × Coord).2 ∈ dl ++ ps) ∧
      List.Pairwise (fun a b : Nat × Coord => a.1 ≤ b.1)
        (dirs.foldl (dRelaxStep m c cost) (dm, pm, rest, [])).2.2.1 ∧
      (∀ e0, (dirs.foldl (dRelaxStep m c cost)
          (dm, pm, rest, [])).2.2.1.head? = some e0 →
        ∀ v dv, (dirs.foldl (dRelaxStep m c cost)
          (dm, pm, rest, [])).1 v = some dv → dv ≤ e0.1 + 1) ∧
      (dirs.foldl (dRelaxStep m c cost) (dm, pm, rest, [])).2.2.1.length =
        rest.length + ps.length := by
  obtain ⟨hpwc, hpwrest⟩ := List.pairwise_cons.mp hpw
  obtain ⟨ps, hnd2, hmem, hval, hkeep, hheap, hlen⟩ :=
    dRelaxF_spec m c cost dirs dm pm rest [] (dirs_pairwise c)
  have hfresh : ∀ v ∈ ps, dm v = none := by
    intro v hv
    obtain ⟨_, _, hcase⟩ := (hmem v).mp hv
    rcases hcase with h | ⟨dv, hdv, hlt⟩
    · exact h
    · have := hT7 v dv hdv
      omega
  have hdisj : ∀ v ∈ ps, v ∉ dl := by
    intro v hv hvdl
    exact ((hiff v).mpr hvdl) (hfresh v hv)
  have hcdl : c ∈ dl := hent (cost, c) (List.mem_cons_self _ _)
  have hgeq : ∀ e, e ∈ (dirs.foldl (dRelaxStep m c cost)
      (dm, pm, rest, [])).2.2.1 → cost ≤ e.1 := by
    intro e he
    rcases (hheap e).mp he with he | ⟨v, hv, rfl⟩
    · exact hpwc e he
    · exact Nat.le_succ cost
  refine ⟨ps, ?_, ?_, ?_, ?_, ?_, ?_, hlen⟩
  · exact List.Nodup.append hnd hnd2 (fun a ha hb => hdisj a hb ha)
  · intro v
    constructor
    · intro hv
      by_cases hvps : v ∈ ps
      · exact List.mem_append.mpr (Or.inr hvps)
      · rw [(hkeep v hvps).1] at hv
        exact List.mem_append.mpr (Or.inl ((hiff v).mp hv))
    · intro hv
      rcases List.mem_append.mp hv with hv | hv
      · by_cases hvps : v ∈ ps
        · rw [(hval v hvps).1]
          exact fun h => Option.noConfusion h
        · rw [(hkeep v hvps).1]
          exact (hiff v).mpr hv
      · rw [(hval v hv).1]
        exact fun h => Option.noConfusion h
  · intro v hv
    rcases List.mem_append.mp hv with hv | hv
    · exact hpr v hv
    · obtain ⟨hps1, ⟨dd, hdd, rfl⟩, _⟩ := (hmem _).mp hv
      exact ⟨hps1, ((hpr c hcdl).2).step hdd hps1⟩
  · intro e he
    rcases (hheap e).mp he with he | ⟨v, hv, rfl⟩
    · exact List.mem_append.mpr (Or.inl (hent e (List.mem_cons_of_mem _ he)))
    · exact List.mem_append.mpr (Or.inr hv)
  · exact dRelaxFold_pairwise m c cost dirs (dm, pm, rest, []) hpwrest
  · intro e0 he0 v dv hdv
    have he0m := List.mem_of_mem_head? he0
    have hce0 : cost ≤ e0.1 := hgeq e0 he0m
    by_cases hvps : v ∈ ps
    · rw [(hval v hvps).1] at hdv
      have : dv = cost + 1 := (Option.some.inj hdv).symm
      omega
    · rw [(hkeep v hvps).1] at hdv
      have := hT7 v dv hdv
      omega

theorem dij_exhaust (m : Grid) (endP s : Coord) (t0 : Int)
    (sched : Nat → Bool) (tms : Nat → Int) (rl : List Coord)
    (hsched : ∀ i, sched i = false) (hrl : rl.Nodup)
    (hcov : ∀ v, isPass m v = true → Reach m s v → v ∈ rl)
    (hunreach : ¬ Reach m s endP) :
    ∀ (M k : Nat) (dl : List Coord),
      DTI m s dl (stAfter (dijStep m endP) sched tms (dInit s t0) k) →
      (stAfter (dijStep m endP) sched tms (dInit s t0) k).solving = true →
      (stAfter (dijStep m endP) sched tms (dInit s t0) k).nodes.length +
        rl.length ≤ M + dl.length →
      ∃ j, j ≤ k + M ∧
        resAt (dijStep m endP) sched tms (dInit s t0) j =
          Res.noSolution := by
  intro M
  induction M with
  | zero =>
    intro k dl hq hsv hM
    obtain ⟨hnd, hiff, hpr, hent, hpw, hT7⟩ := hq
    have hdl : dl.length ≤ rl.length :=
      List.Subperm.length_le (List.subperm_of_subset hnd
        (fun a ha => hcov a (hpr a ha).1 (hpr a ha).2))
    have hempty : (stAfter (dijStep m endP) sched tms (dInit s t0) k).nodes
        = [] := by
      cases hnn : (stAfter (dijStep m endP) sched tms
          (dInit s t0) k).nodes with
      | nil => rfl
      | cons e rest =>
        exfalso
        rw [hnn] at hM
        simp only [List.length_cons] at hM
        omega
    refine ⟨k, by omega, ?_⟩
    show (dijStep m endP (sched k) (tms k)
      (stAfter (dijStep m endP) sched tms (dInit s t0) k)).2 = Res.noSolution
    rw [hsched k, dijStep_empty m endP (tms k) hsv hempty]
  | succ M ih =>
    intro k dl hq hsv hM
    obtain ⟨hnd, hiff, hpr, hent, hpw, hT7⟩ := hq
    cases hnn : (stAfter (dijStep m endP) sched tms (dInit s t0) k).nodes with
    | nil =>
      refine ⟨k, by omega, ?_⟩
      show (dijStep m endP (sched k) (tms k)
        (stAfter (dijStep m endP) sched tms (dInit s t0) k)).2 =
          Res.noSolution
      rw [hsched k, dijStep_empty m endP (tms k) hsv hnn]
    | cons e rest =>
      obtain ⟨cost, c⟩ := e
      have hcdl : c ∈ dl := hent (cost, c) (by
        rw [hnn]
        exact List.mem_cons_self _ _)
      have hcne : c ≠ endP := fun hce =>
        hunreach (hce ▸ (hpr c hcdl).2)
      have hstep := dijStep_cont m endP (tms k) hsv hnn hcne
      have hent2 : ∀ e ∈ (cost, c) :: rest, (e : Nat × Coord).2 ∈ dl := by
        intro e he
        exact hent e (by rw [hnn]; exact he)
      have hpw2 : List.Pairwise (fun a b : Nat × Coord => a.1 ≤ b.1)
          ((cost, c) :: rest) := by
        rw [hnn] at hpw
        exact hpw
      have hT72 : ∀ v dv, (stAfter (dijStep m endP) sched tms
          (dInit s t0) k).dists v = some dv → dv ≤ cost + 1 := by
        intro v dv hdv
        exact hT7 (cost, c) (by rw [hnn]; rfl) v dv hdv
      obtain ⟨ps, gnd, giff, gpr, gent, gpw, gT7, glen⟩ :=
        DTI_step hnd hiff hpr hent2 hpw2 hT72
      have hnods : (stAfter (dijStep m endP) sched tms (dInit s t0)
          (k + 1)).nodes = (dirs.foldl (dRelaxStep m c cost)
            ((stAfter (dijStep m endP) sched tms (dInit s t0) k).dists,
             (stAfter (dijStep m endP) sched tms (dInit s t0) k).parents,
             rest, [])).2.2.1 := by
        rw [stAfter_succ, hsched k, hstep]
      have hdists : (stAfter (dijStep m endP) sched tms (dInit s t0)
          (k + 1)).dists = (dirs.foldl (dRelaxStep m c cost)
            ((stAfter (dijStep m endP) sched tms (dInit s t0) k).dists,
             (stAfter (dijStep m endP) sched tms (dInit s t0) k).parents,
             rest, [])).1 := by
        rw [stAfter_succ, hsched k, hstep]
      have hsv' : (stAfter (dijStep m endP) sched tms (dInit s t0)
          (k + 1)).solving = true := by
        rw [stAfter_succ, hsched k, hstep]
        exact hsv
      have hq' : DTI m s (dl ++ ps)
          (stAfter (dijStep m endP) sched tms (dInit s t0) (k + 1)) := by
        refine ⟨gnd, ?_, gpr, ?_, ?_, ?_⟩
        · intro v
          rw [hdists]
          exact giff v
        · intro e he
          rw [hnods] at he
          exact gent e he
        · rw [hnods]
          exact gpw
        · intro e0 he0 v dv hdv
          rw [hnods] at he0
          rw [hdists] at hdv
          exact gT7 e0 he0 v dv hdv
      have hM' : (stAfter (dijStep m endP) sched tms (dInit s t0)
          (k + 1)).nodes.length + rl.length ≤ M + (dl ++ ps).length := by
        rw [hnods, glen]
        rw [hnn] at hM
        simp only [List.length_cons] at hM
        simp only [List.length_append]
        omega
      obtain ⟨j, hj, hres⟩ := ih (k + 1) _ hq' hsv' hM'
      exact ⟨j, by omega, hres⟩

theorem astarStep_empty (m : Grid) (endP : Coord) (t : Int) {st : ASt}
    (hsv : st.solving = true) (hn : st.nodes = []) :
    astarStep m endP false t st = ({ st with solving := false },
      .noSolution) := by
  obtain ⟨nds, dm, pm, sv, a1, a2⟩ := st
  simp only at hsv hn
  subst hsv
  subst hn
  rfl

theorem astarStep_cont (m : Grid) (endP : Coord) (t : Int) {st : ASt}
    {f0 g : Nat} {c : Coord} {rest : List (Nat × Nat × Coord)}
    (hsv : st.solving = true) (hn : st.nodes = (f0, g, c) :: rest)
    (hc : c ≠ endP) :
    astarStep m endP false t st =
      ({ st with nodes := (dirs.foldl (aRelaxStep m endP c g) (st.dists, st.parents, rest, [])).2.2.1, dists := (dirs.foldl (aRelaxStep m endP c g) (st.dists, st.parents, rest, [])).1, parents := (dirs.foldl (aRelaxStep m endP c g) (st.dists, st.parents, rest, [])).2.1 },
        .cont (dirs.foldl (aRelaxStep m endP c g)
          (st.dists, st.parents, rest, [])).2.2.2) := by
  obtain ⟨nds, dm, pm, sv, a1, a2⟩ := st
  simp only at hsv hn
  subst hsv
  subst hn
  unfold astarStep
  simp only [if_neg hc]
  rfl

/- Total recorded distance over the discovered list: the second component
of the termination measure for A*. -/
def sumDm (dl : List Coord) (dm : DMap) : Nat :=
  (dl.map (fun v => (dm v).getD 0)).sum

theorem sumDm_le {dl : List Coord} {dm dm' : DMap}
    (h : ∀ v ∈ dl, (dm' v).getD 0 ≤ (dm v).getD 0) :
    sumDm dl dm' ≤ sumDm dl dm := by
  induction dl with
  | nil => exact Nat.le_refl 0
  | cons a t ih =>
    simp only [sumDm, List.map_cons, List.sum_cons]
    have h1 := h a (List.mem_cons_self a t)
    have h2 : sumDm t dm' ≤ sumDm t dm :=
      ih (fun v hv => h v (List.mem_cons_of_mem a hv))
    simp only [sumDm] at h2
    omega

theorem sumDm_lt {dl : List Coord} {dm dm' : DMap}
    (h : ∀ v ∈ dl, (dm' v).getD 0 ≤ (dm v).getD 0)
    (hex : ∃ v ∈ dl, (dm' v).getD 0 < (dm v).getD 0) :
    sumDm dl dm' < sumDm dl dm := by
  induction dl with
  | nil =>
    obtain ⟨v, hv, _⟩ := hex
    exact absurd hv (List.not_mem_nil v)
  | cons a t ih =>
    simp only [sumDm, List.map_cons, List.sum_cons]
    have h2 : sumDm t dm' ≤ sumDm t dm :=
      sumDm_le (fun v hv => h v (List.mem_cons_of_mem a hv))
    simp only [sumDm] at h2
    obtain ⟨v, hv, hvlt⟩ := hex
    rcases List.mem_cons.mp hv with rfl | hv
    · omega
    · have h1 := h a (List.mem_cons_self a t)
      have h3 : sumDm t dm' < sumDm t dm :=
        ih (fun w hw => h w (List.mem_cons_of_mem a hw)) ⟨v, hv, hvlt⟩
      simp only [sumDm] at h3
      omega

theorem sumDm_congr {dl : List Coord} {dm dm' : DMap}
    (h : ∀ v ∈ dl, dm' v = dm v) : sumDm dl dm' = sumDm dl dm := by
  induction dl with
  | nil => rfl
  | cons a t ih =>
    simp only [sumDm, List.map_cons, List.sum_cons]
    rw [h a (List.mem_cons_self a t)]
    have := ih (fun v hv => h v (List.mem_cons_of_mem a hv))
    simp only [sumDm] at this
    omega

/- The counting invariant of the A* termination argument. -/
def ATI (m : Grid) (s : Coord) (dl : List Coord) (st : ASt) : Prop :=
  dl.Nodup ∧
  (∀ v, st.dists v ≠ none ↔ v ∈ dl) ∧
  (∀ v ∈ dl, isPass m v = true ∧ Reach m s v) ∧
  (∀ e ∈ st.nodes, (e : Nat × Nat × Coord).2.2 ∈ dl)

/- One unpaused A* call from a live state either reports exhaustion,
discovers at least one fresh cell, strictly lowers some recorded distance,
or shrinks the heap — the three-component termination measure. -/
theorem astar_call_cases (m : Grid) (endP s : Coord) (t0 : Int)
    (sched : Nat → Bool) (tms : Nat → Int)
    (hsched : ∀ i, sched i = false)
    (hunreach : ¬ Reach m s endP) (k : Nat) (dl : List Coord)
    (hq : ATI m s dl (stAfter (astarStep m endP) sched tms (aInit s t0) k))
    (hsv : (stAfter (astarStep m endP) sched tms
      (aInit s t0) k).solving = true) :
    resAt (astarStep m endP) sched tms (aInit s t0) k = Res.noSolution ∨
    (∃ fr : List Coord, fr ≠ [] ∧
      ATI m s (dl ++ fr)
        (stAfter (astarStep m endP) sched tms (aInit s t0) (k + 1)) ∧
      (stAfter (astarStep m endP) sched tms
        (aInit s t0) (k + 1)).solving = true) ∨
    (ATI m s dl (stAfter (astarStep m endP) sched tms (aInit s t0) (k + 1)) ∧
      (stAfter (astarStep m endP) sched tms
        (aInit s t0) (k + 1)).solving = true ∧
      sumDm dl (stAfter (astarStep m endP) sched tms
        (aInit s t0) (k + 1)).dists <
      sumDm dl (stAfter (astarStep m endP) sched tms
        (aInit s t0) k).dists) ∨
    (ATI m s dl (stAfter (astarStep m endP) sched tms (aInit s t0) (k + 1)) ∧
      (stAfter (astarStep m endP) sched tms
        (aInit s t0) (k + 1)).solving = true ∧
      sumDm dl (stAfter (astarStep m endP) sched tms
        (aInit s t0) (k + 1)).dists =
      sumDm dl (stAfter (astarStep m endP) sched tms
        (aInit s t0) k).dists ∧
      (stAfter (astarStep m endP) sched tms
        (aInit s t0) (k + 1)).nodes.length <
      (stAfter (astarStep m endP) sched tms
        (aInit s t0) k).nodes.length) := by
  set stk := stAfter (astarStep m endP) sched tms (aInit s t0) k with hstk
  set stk1 := stAfter (astarStep m endP) sched tms (aInit s t0) (k + 1)
    with hstk1
  obtain ⟨hnd, hiff, hpr, hent⟩ := hq
  cases hnn : stk.nodes with
  | nil =>
    left
    show (astarStep m endP (sched k) (tms k) stk).2 = Res.noSolution
    rw [hsched k, astarStep_empty m endP (tms k) hsv hnn]
  | cons e rest =>
    obtain ⟨f0, g, c⟩ := e
    have hcdl : c ∈ dl := hent (f0, g, c) (by
      rw [hnn]
      exact List.mem_cons_self _ _)
    have hcne : c ≠ endP := fun hce => hunreach (hce ▸ (hpr c hcdl).2)
    have hstep := astarStep_cont m endP (tms k) hsv hnn hcne
    have hnods : stk1.nodes = (dirs.foldl (aRelaxStep m endP c g)
        (stk.dists, stk.parents, rest, [])).2.2.1 := by
      rw [hstk1, stAfter_succ, hsched k, ← hstk, hstep]
    have hdists : stk1.dists = (dirs.foldl (aRelaxStep m endP c g)
        (stk.dists, stk.parents, rest, [])).1 := by
      rw [hstk1, stAfter_succ, hsched k, ← hstk, hstep]
    have hsv1 : stk1.solving = true := by
      rw [hstk1, stAfter_succ, hsched k, ← hstk, hstep]
      exact hsv
    obtain ⟨ps, psnd, hmem, hval, hkeep, hheap, hlen⟩ :=
      aRelaxF_spec m endP c g dirs stk.dists stk.parents rest []
        (dirs_pairwise c)
    by_cases hfr : ∃ v ∈ ps, stk.dists v = none
    · right
      left
      obtain ⟨v0, hv0, hv0n⟩ := hfr
      refine ⟨ps.filter (fun v => (stk.dists v).isNone), ?_, ?_, hsv1⟩
      · apply List.ne_nil_of_mem
        show v0 ∈ ps.filter (fun v => (stk.dists v).isNone)
        rw [List.mem_filter]
        exact ⟨hv0, by rw [hv0n]; rfl⟩
      · have hfrsub : ∀ v ∈ ps.filter (fun v => (stk.dists v).isNone),
            v ∈ ps ∧ stk.dists v = none := by
          intro v hv
          obtain ⟨h1, h2⟩ := List.mem_filter.mp hv
          exact ⟨h1, Option.isNone_iff_eq_none.mp h2⟩
        refine ⟨?_, ?_, ?_, ?_⟩
        · refine List.Nodup.append hnd (psnd.filter _) ?_
          intro a ha hb
          exact ((hiff a).mpr ha) (hfrsub a hb).2
        · intro v
          rw [hdists]
          by_cases hvps : v ∈ ps
          · rw [(hval v hvps).1]
            constructor
            · intro _
              by_cases hvn : stk.dists v = none
              · refine List.mem_append.mpr (Or.inr ?_)
                rw [List.mem_filter]
                exact ⟨hvps, by rw [hvn]; rfl⟩
              · exact List.mem_append.mpr (Or.inl ((hiff v).mp hvn))
            · intro _
              exact fun h => Option.noConfusion h
          · rw [(hkeep v hvps).1]
            rw [hiff v]
            constructor
            · intro h
              exact List.mem_append.mpr (Or.inl h)
            · intro h
              rcases List.mem_append.mp h with h | h
              · exact h
              · exact absurd (hfrsub v h).1 hvps
        · intro v hv
          rcases List.mem_append.mp hv with hv | hv
          · exact hpr v hv
          · obtain ⟨hps1, ⟨dd, hdd, rfl⟩, _⟩ := (hmem _).mp (hfrsub _ hv).1
            exact ⟨hps1, ((hpr c hcdl).2).step hdd hps1⟩
        · intro e he
          rw [hnods] at he
          rcases (hheap e).mp he with he | ⟨v, hv, rfl⟩
          · exact List.mem_append.mpr (Or.inl (hent e (by
              rw [hnn]
              exact List.mem_cons_of_mem _ he)))
          · by_cases hvn : stk.dists v = none
            · refine List.mem_append.mpr (Or.inr ?_)
              rw [List.mem_filter]
              exact ⟨hv, by rw [hvn]; rfl⟩
            · exact List.mem_append.mpr (Or.inl ((hiff v).mp hvn))
    · right
      right
      have hrec : ∀ v ∈ ps, ∃ dv, stk.dists v = some dv ∧ g + 1 < dv := by
        intro v hv
        obtain ⟨_, _, hcase⟩ := (hmem v).mp hv
        rcases hcase with h | h
        · exact absurd ⟨v, hv, h⟩ hfr
        · exact h
      have hpsdl : ∀ v ∈ ps, v ∈ dl := by
        intro v hv
        obtain ⟨dv, hdv, _⟩ := hrec v hv
        exact (hiff v).mp (by rw [hdv]; exact fun h => Option.noConfusion h)
      have hiff1 : ∀ v, stk1.dists v ≠ none ↔ v ∈ dl := by
        intro v
        rw [hdists]
        by_cases hvps : v ∈ ps
        · rw [(hval v hvps).1]
          constructor
          · intro _
            exact hpsdl v hvps
          · intro _
            exact fun h => Option.noConfusion h
        · rw [(hkeep v hvps).1]
          exact hiff v
      have hent1 : ∀ e ∈ stk1.nodes, (e : Nat × Nat × Coord).2.2 ∈ dl := by
        intro e he
        rw [hnods] at he
        rcases (hheap e).mp he with he | ⟨v, hv, rfl⟩
        · exact hent e (by
            rw [hnn]
            exact List.mem_cons_of_mem _ he)
        · exact hpsdl v hv
      by_cases hps : ps = []
      · right
        have hdmeq : ∀ v, stk1.dists v = stk.dists v := by
          intro v
          rw [hdists]
          exact (hkeep v (by rw [hps]; exact List.not_mem_nil v)).1
        refine ⟨⟨hnd, hiff1, hpr, hent1⟩, hsv1, ?_, ?_⟩
        · exact sumDm_congr (fun v _ => hdmeq v)
        · rw [hnods, hlen, hps]
          simp
      · left
        refine ⟨⟨hnd, hiff1, hpr, hent1⟩, hsv1, ?_⟩
        have hle : ∀ v ∈ dl, (stk1.dists v).getD 0 ≤ (stk.dists v).getD 0 := by
          intro v _
          rw [hdists]
          by_cases hvps : v ∈ ps
          · rw [(hval v hvps).1]
            obtain ⟨dv, hdv, hlt⟩ := hrec v hvps
            rw [hdv]
            simp only [Option.getD_some]
            omega
          · rw [(hkeep v hvps).1]
        obtain ⟨v0, hv0⟩ := List.exists_mem_of_ne_nil ps hps
        refine sumDm_lt hle ⟨v0, hpsdl v0 hv0, ?_⟩
        rw [hdists, (hval v0 hv0).1]
        obtain ⟨dv, hdv, hlt⟩ := hrec v0 hv0
        rw [hdv]
        simp only [Option.getD_some]
        omega

theorem dl_le_rl {m : Grid} {s : Coord} {rl dl : List Coord}
    (hcov : ∀ v, isPass m v = true → Reach m s v → v ∈ rl)
    (hnd : dl.Nodup) (hpr : ∀ v ∈ dl, isPass m v = true ∧ Reach m s v) :
    dl.length ≤ rl.length :=
  List.Subperm.length_le (List.subperm_of_subset hnd
    (fun a ha => hcov a (hpr a ha).1 (hpr a ha).2))

/- A* reaches the empty-frontier report after finitely many unpaused calls
when the goal is unreachable: triple lexicographic descent on
(undiscovered cells, total recorded distance, heap size). -/
theorem astar_exhaust (m : Grid) (endP s : Coord) (t0 : Int)
    (sched : Nat → Bool) (tms : Nat → Int) (rl : List Coord)
    (hsched : ∀ i, sched i = false) (hrl : rl.Nodup)
    (hcov : ∀ v, isPass m v = true → Reach m s v → v ∈ rl)
    (hunreach : ¬ Reach m s endP) :
    ∀ (A B C k : Nat) (dl : List Coord),
      ATI m s dl (stAfter (astarStep m endP) sched tms (aInit s t0) k) →
      (stAfter (astarStep m endP) sched tms (aInit s t0) k).solving = true →
      rl.length ≤ A + dl.length →
      sumDm dl (stAfter (astarStep m endP) sched tms
        (aInit s t0) k).dists ≤ B →
      (stAfter (astarStep m endP) sched tms (aInit s t0) k).nodes.length
        ≤ C →
      ∃ j, resAt (astarStep m endP) sched tms (aInit s t0) j =
        Res.noSolution := by
  intro A
  induction A with
  | zero =>
    intro B
    induction B with
    | zero =>
      intro C
      induction C with
      | zero =>
        intro k dl hq hsv hA hB hC
        rcases astar_call_cases m endP s t0 sched tms hsched hunreach k dl hq
            hsv with hdone | ⟨fr, hfrne, hq2, hsv2⟩ | ⟨hq3, hsv3, hlt3⟩ |
            ⟨hq4, hsv4, heq4, hlt4⟩
        · exact ⟨k, hdone⟩
        · exfalso
          obtain ⟨hnd2, _, hpr2, _⟩ := hq2
          have hlen2 := dl_le_rl hcov hnd2 hpr2
          have hfr1 : 0 < fr.length := List.length_pos.mpr hfrne
          simp only [List.length_append] at hlen2
          omega
        · exfalso
          omega
        · exfalso
          omega
      | succ C ihC =>
        intro k dl hq hsv hA hB hC
        rcases astar_call_cases m endP s t0 sched tms hsched hunreach k dl hq
            hsv with hdone | ⟨fr, hfrne, hq2, hsv2⟩ | ⟨hq3, hsv3, hlt3⟩ |
            ⟨hq4, hsv4, heq4, hlt4⟩
        · exact ⟨k, hdone⟩
        · exfalso
          obtain ⟨hnd2, _, hpr2, _⟩ := hq2
          have hlen2 := dl_le_rl hcov hnd2 hpr2
          have hfr1 : 0 < fr.length := List.length_pos.mpr hfrne
          simp only [List.length_append] at hlen2
          omega
        · exfalso
          omega
        · refine ihC (k + 1) dl hq4 hsv4 hA ?_ ?_
          · omega
          · omega
    | succ B ihB =>
      intro C
      induction C with
      | zero =>
        intro k dl hq hsv hA hB hC
        rcases astar_call_cases m endP s t0 sched tms hsched hunreach k dl hq
            hsv with hdone | ⟨fr, hfrne, hq2, hsv2⟩ | ⟨hq3, hsv3, hlt3⟩ |
            ⟨hq4, hsv4, heq4, hlt4⟩
        · exact ⟨k, hdone⟩
        · exfalso
          obtain ⟨hnd2, _, hpr2, _⟩ := hq2
          have hlen2 := dl_le_rl hcov hnd2 hpr2
          have hfr1 : 0 < fr.length := List.length_pos.mpr hfrne
          simp only [List.length_append] at hlen2
          omega
        · refine ihB ((stAfter (astarStep m endP) sched tms
              (aInit s t0) (k + 1)).nodes.length) (k + 1) dl hq3 hsv3 hA ?_
            (Nat.le_refl _)
          omega
        · exfalso
          omega
      | succ C ihC =>
        intro k dl hq hsv hA hB hC
        rcases astar_call_cases m endP s t0 sched tms hsched hunreach k dl hq
            hsv with hdone | ⟨fr, hfrne, hq2, hsv2⟩ | ⟨hq3, hsv3, hlt3⟩ |
            ⟨hq4, hsv4, heq4, hlt4⟩
        · exact ⟨k, hdone⟩
        · exfalso
          obtain ⟨hnd2, _, hpr2, _⟩ := hq2
          have hlen2 := dl_le_rl hcov hnd2 hpr2
          have hfr1 : 0 < fr.length := List.length_pos.mpr hfrne
          simp only [List.length_append] at hlen2
          omega
        · refine ihB ((stAfter (astarStep m endP) sched tms
              (aInit s t0) (k + 1)).nodes.length) (k + 1) dl hq3 hsv3 hA ?_
            (Nat.le_refl _)
          omega
        · refine ihC (k + 1) dl hq4 hsv4 hA ?_ ?_
          · omega
          · omega
  | succ A ihA =>
    intro B
    induction B with
    | zero =>
      intro C
      induction C with
      | zero =>
        intro k dl hq hsv hA hB hC
        rcases astar_call_cases m endP s t0 sched tms hsched hunreach k dl hq
            hsv with hdone | ⟨fr, hfrne, hq2, hsv2⟩ | ⟨hq3, hsv3, hlt3⟩ |
            ⟨hq4, hsv4, heq4, hlt4⟩
        · exact ⟨k, hdone⟩
        · have hfr1 : 0 < fr.length := List.length_pos.mpr hfrne
          refine ihA (sumDm (dl ++ fr) (stAfter (astarStep m endP) sched tms
              (aInit s t0) (k + 1)).dists)
            ((stAfter (astarStep m endP) sched tms
              (aInit s t0) (k + 1)).nodes.length) (k + 1) (dl ++ fr) hq2 hsv2
            ?_ (Nat.le_refl _) (Nat.le_refl _)
          simp only [List.length_append]
          omega
        · exfalso
          omega
        · exfalso
          omega
      | succ C ihC =>
        intro k dl hq hsv hA hB hC
        rcases astar_call_cases m endP s t0 sched tms hsched hunreach k dl hq
            hsv with hdone | ⟨fr, hfrne, hq2, hsv2⟩ | ⟨hq3, hsv3, hlt3⟩ |
            ⟨hq4, hsv4, heq4, hlt4⟩
        · exact ⟨k, hdone⟩
        · have hfr1 : 0 < fr.length := List.length_pos.mpr hfrne
          refine ihA (sumDm (dl ++ fr) (stAfter (astarStep m endP) sched tms
              (aInit s t0) (k + 1)).dists)
            ((stAfter (astarStep m endP) sched tms
              (aInit s t0) (k + 1)).nodes.length) (k + 1) (dl ++ fr) hq2 hsv2
            ?_ (Nat.le_refl _) (Nat.le_refl _)
          simp only [List.length_append]
          omega
        · exfalso
          omega
        · refine ihC (k + 1) dl hq4 hsv4 hA ?_ ?_
          · omega
          · omega
    | succ B ihB =>
      intro C
      induction C with
      | zero =>
        intro k dl hq hsv hA hB hC
        rcases astar_call_cases m endP s t0 sched tms hsched hunreach k dl hq
            hsv with hdone | ⟨fr, hfrne, hq2, hsv2⟩ | ⟨hq3, hsv3, hlt3⟩ |
            ⟨hq4, hsv4, heq4, hlt4⟩
        · exact ⟨k, hdone⟩
        · have hfr1 : 0 < fr.length := List.length_pos.mpr hfrne
          refine ihA (sumDm (dl ++ fr) (stAfter (astarStep m endP) sched tms
              (aInit s t0) (k + 1)).dists)
            ((stAfter (astarStep m endP) sched tms
              (aInit s t0) (k + 1)).nodes.length) (k + 1) (dl ++ fr) hq2 hsv2
            ?_ (Nat.le_refl _) (Nat.le_refl _)
          simp only [List.length_append]
          omega
        · refine ihB ((stAfter (astarStep m endP) sched tms
              (aInit s t0) (k + 1)).nodes.length) (k + 1) dl hq3 hsv3 hA ?_
            (Nat.le_refl _)
          omega
        · exfalso
          omega
      | succ C ihC =>
        intro k dl hq hsv hA hB hC
        rcases astar_call_cases m endP s t0 sched tms hsched hunreach k dl hq
            hsv with hdone | ⟨fr, hfrne, hq2, hsv2⟩ | ⟨hq3, hsv3, hlt3⟩ |
            ⟨hq4, hsv4, heq4, hlt4⟩
        · exact ⟨k, hdone⟩
        · have hfr1 : 0 < fr.length := List.length_pos.mpr hfrne
          refine ihA (sumDm (dl ++ fr) (stAfter (astarStep m endP) sched tms
              (aInit s t0) (k + 1)).dists)
            ((stAfter (astarStep m endP) sched tms
              (aInit s t0) (k + 1)).nodes.length) (k + 1) (dl ++ fr) hq2 hsv2
            ?_ (Nat.le_refl _) (Nat.le_refl _)
          simp only [List.length_append]
          omega
        · refine ihB ((stAfter (astarStep m endP) sched tms
              (aInit s t0) (k + 1)).nodes.length) (k + 1) dl hq3 hsv3 hA ?_
            (Nat.le_refl _)
          omega
        · refine ihC (k + 1) dl hq4 hsv4 hA ?_ ?_
          · omega
          · omega

theorem qInit_QTI (m : Grid) (s : Coord) (t0 : Int)
    (hps : isPass m s = true) : QTI m s [s] (qInit s t0) := by
  refine ⟨List.nodup_singleton s, ?_, ?_, List.nodup_singleton s,
    fun v hv => hv⟩
  · intro v
    show pmSet pmEmpty s none v ≠ none ↔ v ∈ [s]
    by_cases hvs : v = s
    · subst hvs
      rw [pmSet, if_pos rfl]
      simp
    · rw [pmSet, if_neg hvs]
      simp [hvs, pmEmpty]
  · intro v hv
    have hvs : v = s := by simpa using hv
    subst hvs
    exact ⟨hps, 0, PathN.refl hps⟩

theorem dInit_DTI (m : Grid) (s : Coord) (t0 : Int)
    (hps : isPass m s = true) : DTI m s [s] (dInit s t0) := by
  refine ⟨by simp, ?_, ?_, ?_, ?_, ?_⟩
  · intro v
    show dmSet dmEmpty s 0 v ≠ none ↔ v ∈ [s]
    by_cases hvs : v = s
    · subst hvs
      rw [dmSet, if_pos rfl]
      simp
    · rw [dmSet, if_neg hvs]
      simp [hvs, dmEmpty]
  · intro v hv
    have hvs : v = s := by simpa using hv
    subst hvs
    exact ⟨hps, 0, PathN.refl hps⟩
  · intro e he
    have he2 : e ∈ [((0 : Nat), s)] := he
    have hes : e = (0, s) := by simpa using he2
    subst hes
    simp
  · exact List.pairwise_singleton _ _
  · intro e0 he0 v dv hdv
    have he02 : some ((0 : Nat), s) = some e0 := he0
    have he03 : e0 = (0, s) := (Option.some.inj he02).symm
    subst he03
    have hdv2 : dmSet dmEmpty s 0 v = some dv := hdv
    by_cases hvs : v = s
    · rw [hvs, dmSet, if_pos rfl] at hdv2
      have : dv = 0 := (Option.some.inj hdv2).symm
      omega
    · rw [dmSet, if_neg hvs] at hdv2
      exact Option.noConfusion hdv2

theorem aInit_ATI (m : Grid) (s : Coord) (t0 : Int)
    (hps : isPass m s = true) : ATI m s [s] (aInit s t0) := by
  refine ⟨by simp, ?_, ?_, ?_⟩
  · intro v
    show dmSet dmEmpty s 0 v ≠ none ↔ v ∈ [s]
    by_cases hvs : v = s
    · subst hvs
      rw [dmSet, if_pos rfl]
      simp
    · rw [dmSet, if_neg hvs]
      simp [hvs, dmEmpty]
  · intro v hv
    have hvs : v = s := by simpa using hv
    subst hvs
    exact ⟨hps, 0, PathN.refl hps⟩
  · intro e he
    have he2 : e ∈ [((0 : Nat), (0 : Nat), s)] := he
    have hes : e = (0, 0, s) := by simpa using he2
    subst hes
    simp

/-- C7 amended: driven unpaused on a configuration whose goal cell is not
reachable from the passable start cell, BFS, DFS and Dijkstra reach the
Exhausted outcome within `N + 1` `step()` calls (call index at most `N`),
where `N` bounds the number of passage cells reachable from the start (any
duplicate-free list `rl` covering them); the spec's bound of `N` calls is
off by one, because the first `N` calls expand the reachable cells and the
following call observes the empty frontier and reports the result.  A*
also reaches Exhausted within a finite number of calls. -/
theorem C7_exhaustion (m : Grid) (endP s : Coord) (t0 : Int)
    (sched : Nat → Bool) (tms : Nat → Int) (rl : List Coord)
    (hsched : ∀ i, sched i = false) (hps : isPass m s = true)
    (hrl : rl.Nodup)
    (hcov : ∀ v, isPass m v = true → Reach m s v → v ∈ rl)
    (hunreach : ¬ Reach m s endP) :
    (∃ j, j ≤ rl.length ∧
      resAt (bfsStep m endP) sched tms (qInit s t0) j = Res.noSolution) ∧
    (∃ j, j ≤ rl.length ∧
      resAt (dfsStep m endP) sched tms (qInit s t0) j = Res.noSolution) ∧
    (∃ j, j ≤ rl.length ∧
      resAt (dijStep m endP) sched tms (dInit s t0) j = Res.noSolution) ∧
    (∃ j, resAt (astarStep m endP) sched tms (aInit s t0) j =
      Res.noSolution) := by
  refine ⟨?_, ?_, ?_, ?_⟩
  · obtain ⟨j, hj, hres⟩ := bfs_exhaust m endP s t0 sched tms rl hsched hrl
      hcov hunreach rl.length 0 [s] (qInit_QTI m s t0 hps) rfl (by
        show ([s] : List Coord).length + rl.length ≤ rl.length + 1
        simp only [List.length_singleton]
        omega)
    exact ⟨j, by omega, hres⟩
  · obtain ⟨j, hj, hres⟩ := dfs_exhaust m endP s t0 sched tms rl hsched hrl
      hcov hunreach rl.length 0 [s] (qInit_QTI m s t0 hps) rfl (by
        show ([s] : List Coord).length + rl.length ≤ rl.length + 1
        simp only [List.length_singleton]
        omega)
    exact ⟨j, by omega, hres⟩
  · obtain ⟨j, hj, hres⟩ := dij_exhaust m endP s t0 sched tms rl hsched hrl
      hcov hunreach rl.length 0 [s] (dInit_DTI m s t0 hps) rfl (by
        show ([((0 : Nat), s)] : List (Nat × Coord)).length + rl.length ≤
          rl.length + 1
        simp only [List.length_singleton]
        omega)
    exact ⟨j, by omega, hres⟩
  · exact astar_exhaust m endP s t0 sched tms rl hsched hrl hcov hunreach
      rl.length (sumDm [s] (aInit s t0).dists) 1 0 [s]
      (aInit_ATI m s t0 hps) rfl (by
        show rl.length ≤ rl.length + ([s] : List Coord).length
        simp only [List.length_singleton]
        omega) (Nat.le_refl _) (by
        show ([((0 : Nat), (0 : Nat), s)] :
          List (Nat × Nat × Coord)).length ≤ 1
        simp only [List.length_singleton]
        omega)

/- On the unsolvable fixture the only cell reachable from `(1,1)` is
`(1,1)` itself: all four of its neighbours are walls. -/
theorem fixU_reach_only : ∀ v n, PathN fixU (1, 1) v n → v = (1, 1) := by
  intro v n h
  induction h with
  | refl _ => rfl
  | step hu hdd hp ih =>
    exfalso
    rw [ih] at hp
    have hdd2 : _ ∈ ([(1, 0), (0, 1), (-1, 0), (0, -1)] : List Coord) := hdd
    fin_cases hdd2 <;> exact absurd hp (by decide)

theorem fixU_cover : ∀ v, isPass fixU v = true → Reach fixU (1, 1) v →
    v ∈ ([(1, 1)] : List Coord) := by
  intro v _ hr
  obtain ⟨n, hn⟩ := hr
  rw [fixU_reach_only v n hn]
  exact List.mem_cons_self _ _

theorem fixU_unreach : ¬ Reach fixU (1, 1) (3, 3) := by
  intro hr
  obtain ⟨n, hn⟩ := hr
  exact absurd (fixU_reach_only _ n hn) (by decide)

/-- C7 counterexample: on the unsolvable 5×5 fixture exactly one passage
cell is reachable from the start `(1,1)` (so `N = 1`), yet the first call
of every variant returns a Continue outcome, not Exhausted — the original
bound of `N` calls is violated; Exhausted appears only at the second call
(index 1, the `(N+1)`-st call). -/
theorem C7_counterexample :
    (∀ v n, PathN fixU (1, 1) v n → v = (1, 1)) ∧
    resAt (bfsStep fixU (3, 3)) noPause zeroT (qInit (1, 1) 0) 0 =
      Res.cont [] ∧
    resAt (dfsStep fixU (3, 3)) noPause zeroT (qInit (1, 1) 0) 0 =
      Res.cont [] ∧
    resAt (dijStep fixU (3, 3)) noPause zeroT (dInit (1, 1) 0) 0 =
      Res.cont [] ∧
    resAt (astarStep fixU (3, 3)) noPause zeroT (aInit (1, 1) 0) 0 =
      Res.cont [] ∧
    resAt (bfsStep fixU (3, 3)) noPause zeroT (qInit (1, 1) 0) 1 =
      Res.noSolution ∧
    resAt (dfsStep fixU (3, 3)) noPause zeroT (qInit (1, 1) 0) 1 =
      Res.noSolution ∧
    resAt (dijStep fixU (3, 3)) noPause zeroT (dInit (1, 1) 0) 1 =
      Res.noSolution ∧
    resAt (astarStep fixU (3, 3)) noPause zeroT (aInit (1, 1) 0) 1 =
      Res.noSolution :=
  ⟨fixU_reach_only, by decide, by decide, by decide, by decide, by decide,
    by decide, by decide, by decide⟩

/-- Witness for the amended C7 on the unsolvable fixture: the hypotheses
hold with the one-element reachable cover `[(1,1)]`, and each of BFS, DFS
and Dijkstra reports Exhausted by call index 1 = N, while A* does so at
some finite call. -/
theorem C7_witness :
    (∀ i, noPause i = false) ∧ isPass fixU (1, 1) = true ∧
    ([(1, 1)] : List Coord).Nodup ∧
    (∀ v, isPass fixU v = true → Reach fixU (1, 1) v →
      v ∈ ([(1, 1)] : List Coord)) ∧
    ¬ Reach fixU (1, 1) (3, 3) ∧
    ((∃ j, j ≤ ([(1, 1)] : List Coord).length ∧
      resAt (bfsStep fixU (3, 3)) noPause zeroT (qInit (1, 1) 0) j =
        Res.noSolution) ∧
    (∃ j, j ≤ ([(1, 1)] : List Coord).length ∧
      resAt (dfsStep fixU (3, 3)) noPause zeroT (qInit (1, 1) 0) j =
        Res.noSolution) ∧
    (∃ j, j ≤ ([(1, 1)] : List Coord).length ∧
      resAt (dijStep fixU (3, 3)) noPause zeroT (dInit (1, 1) 0) j =
        Res.noSolution) ∧
    (∃ j, resAt (astarStep fixU (3, 3)) noPause zeroT (aInit (1, 1) 0) j =
      Res.noSolution)) :=
  ⟨fun i => rfl, by decide, by decide, fixU_cover, fixU_unreach,
    C7_exhaustion fixU (3, 3) (1, 1) 0 noPause zeroT [(1, 1)]
      (fun i => rfl) (by decide) (by decide) fixU_cover fixU_unreach⟩

theorem e3Le_true_le {a b : Nat × Nat × Coord} (h : e3Le a b = true) :
    a.1 ≤ b.1 := by
  unfold e3Le at h
  simp only [Bool.or_eq_true, Bool.and_eq_true, decide_eq_true_eq] at h
  rcases h with h | ⟨h, _⟩
  · omega
  · omega

theorem e3Le_false_le {a b : Nat × Nat × Coord} (h : e3Le a b = false) :
    b.1 ≤ a.1 := by
  unfold e3Le at h
  simp only [Bool.or_eq_false_iff, Bool.and_eq_false_iff,
    decide_eq_false_iff_not] at h
  omega

theorem sIns_pairwise3 (x : Nat × Nat × Coord) :
    ∀ l : List (Nat × Nat × Coord),
      List.Pairwise (fun a b : Nat × Nat × Coord => a.1 ≤ b.1) l →
      List.Pairwise (fun a b : Nat × Nat × Coord => a.1 ≤ b.1)
        (sIns e3Le x l) := by
  intro l
  induction l with
  | nil =>
    intro _
    exact List.pairwise_cons.mpr ⟨by simp, List.Pairwise.nil⟩
  | cons y ys ih =>
    intro h
    obtain ⟨hy, hys⟩ := List.pairwise_cons.mp h
    unfold sIns
    by_cases hle : e3Le x y = true
    · rw [if_pos hle]
      refine List.pairwise_cons.mpr ⟨?_, h⟩
      intro z hz
      rcases List.mem_cons.mp hz with rfl | hz
      · exact e3Le_true_le hle
      · exact Nat.le_trans (e3Le_true_le hle) (hy z hz)
    · rw [if_neg hle]
      have hfalse : e3Le x y = false := Bool.not_eq_true _ ▸ hle
      refine List.pairwise_cons.mpr ⟨?_, ih hys⟩
      intro z hz
      rcases (sIns_mem e3Le x ys z).mp hz with rfl | hz
      · exact e3Le_false_le hfalse
      · exact hy z hz

theorem aRelaxStep_pairwise (m : Grid) (endP c : Coord) (g : Nat)
    (acc : DMap × PMap × List (Nat × Nat × Coord) × List Coord) (d : Coord)
    (h : List.Pairwise (fun a b : Nat × Nat × Coord => a.1 ≤ b.1)
      acc.2.2.1) :
    List.Pairwise (fun a b : Nat × Nat × Coord => a.1 ≤ b.1)
      (aRelaxStep m endP c g acc d).2.2.1 := by
  obtain ⟨dm, pm, hp, vs⟩ := acc
  by_cases hp1 : isPass m (cadd c d) = true
  · by_cases hcond : ((dm (cadd c d)).isNone ||
        decide (g + 1 < (dm (cadd c d)).getD 0)) = true
    · have hred : aRelaxStep m endP c g (dm, pm, hp, vs) d =
          (dmSet dm (cadd c d) (g + 1), pmSet pm (cadd c d) (some c),
            sIns e3Le (g + 1 + manh (cadd c d) endP, g + 1, cadd c d) hp,
            vs ++ [cadd c d]) := by
        unfold aRelaxStep
        rw [if_pos hp1, if_pos hcond]
        rfl
      rw [hred]
      exact sIns_pairwise3 _ hp h
    · have hred : aRelaxStep m endP c g (dm, pm, hp, vs) d =
          (dm, pm, hp, vs) := by
        unfold aRelaxStep
        rw [if_pos hp1, if_neg hcond]
      rw [hred]
      exact h
  · have hred : aRelaxStep m endP c g (dm, pm, hp, vs) d =
        (dm, pm, hp, vs) := by
      unfold aRelaxStep
      rw [if_neg hp1]
    rw [hred]
    exact h

theorem aRelaxFold_pairwise (m : Grid) (endP c : Coord) (g : Nat) :
    ∀ (ds : List Coord)
      (acc : DMap × PMap × List (Nat × Nat × Coord) × List Coord),
      List.Pairwise (fun a b : Nat × Nat × Coord => a.1 ≤ b.1) acc.2.2.1 →
      List.Pairwise (fun a b : Nat × Nat × Coord => a.1 ≤ b.1)
        (ds.foldl (aRelaxStep m endP c g) acc).2.2.1 := by
  intro ds
  induction ds with
  | nil =>
    intro acc h
    exact h
  | cons d ds ih =>
    intro acc h
    simp only [List.foldl_cons]
    exact ih _ (aRelaxStep_pairwise m endP c g acc d h)

theorem manh_self (a : Coord) : manh a a = 0 := by
  simp [manh]

/- Forward decomposition of a passage path: a walk of positive length
starts with one unit move. -/
theorem pathN_fwd {m : Grid} {v : Coord} :
    ∀ (r : Nat) {t : Coord}, PathN m v t (r + 1) →
      ∃ dd ∈ dirs, isPass m (cadd v dd) = true ∧
        PathN m (cadd v dd) t r := by
  intro r
  induction r with
  | zero =>
    intro t h
    cases h with
    | step hu hdd hp =>
      rename_i u dd
      have huv : u = v := pathN_zero hu
      subst huv
      exact ⟨dd, hdd, hp, PathN.refl hp⟩
  | succ r ih =>
    intro t h
    cases h with
    | step hu hdd hp =>
      obtain ⟨dd0, hdd0, hp0, hP⟩ := ih hu
      exact ⟨dd0, hdd0, hp0, hP.step hdd hp⟩

theorem dijStep_goal (m : Grid) (t : Coord) (p : Bool) (tm : Int) (st : DSt)
    (h : (dijStep m t p tm st).2 = Res.goalReached) :
    st.solving = true ∧ ∃ cost rest, st.nodes = (cost, t) :: rest := by
  obtain ⟨nds, dm, pm, sv, a1, a2⟩ := st
  unfold dijStep at h
  cases sv
  · simp at h
  · cases p
    · cases nds with
      | nil => simp at h
      | cons e rest =>
        obtain ⟨cost, c⟩ := e
        by_cases hc : c = t
        · subst hc
          exact ⟨rfl, cost, rest, rfl⟩
        · simp only [if_neg hc] at h
          simp at h
    · simp at h

theorem astarStep_goal (m : Grid) (t : Coord) (p : Bool) (tm : Int)
    (st : ASt) (h : (astarStep m t p tm st).2 = Res.goalReached) :
    st.solving = true ∧ ∃ f g rest, st.nodes = (f, g, t) :: rest := by
  obtain ⟨nds, dm, pm, sv, a1, a2⟩ := st
  unfold astarStep at h
  cases sv
  · simp at h
  · cases p
    · cases nds with
      | nil => simp at h
      | cons e rest =>
        obtain ⟨f0, g, c⟩ := e
        by_cases hc : c = t
        · subst hc
          exact ⟨rfl, f0, g, rest, rfl⟩
        · simp only [if_neg hc] at h
          simp at h
    · simp at h

/- The cost-optimality invariant of the Dijkstra loop: a key-sorted heap,
every heap entry realised by an actual path of exactly its key length and
dominating the recorded distance, every recorded distance realised by a
path, the start recorded at 0, the goal's current-best entry still queued,
and every recorded non-goal cell either queued at its current distance or
fully relaxed. -/
def CID (m : Grid) (s t : Coord) (st : DSt) : Prop :=
  st.solving = true →
    List.Pairwise (fun a b : Nat × Coord => a.1 ≤ b.1) st.nodes ∧
    (∀ e ∈ st.nodes, ∃ dv, st.dists (e : Nat × Coord).2 = some dv ∧
      dv ≤ e.1 ∧ PathN m s e.2 e.1) ∧
    (∀ v dv, st.dists v = some dv → PathN m s v dv) ∧
    st.dists s = some 0 ∧
    (∀ dvt, st.dists t = some dvt →
      ∃ e ∈ st.nodes, (e : Nat × Coord).2 = t ∧ e.1 = dvt) ∧
    (∀ v dv, st.dists v = some dv → v ≠ t →
      ((∃ e ∈ st.nodes, (e : Nat × Coord).2 = v ∧ e.1 = dv) ∨
       (∀ dd ∈ dirs, isPass m (cadd v dd) = true →
         ∃ dw, st.dists (cadd v dd) = some dw ∧ dw ≤ dv + 1)))

theorem CID_not_solving (m : Grid) (s t : Coord)
    (nds : List (Nat × Coord)) (dm : DMap) (pm : PMap) (x y : Int) :
    CID m s t ⟨nds, dm, pm, false, x, y⟩ :=
  fun h => Bool.noConfusion h

theorem dijStep_CID (m : Grid) (s t : Coord) (p : Bool) (tm : Int)
    (st : DSt) (h : CID m s t st) : CID m s t (dijStep m t p tm st).1 := by
  obtain ⟨nds, dm, pm, sv, a1, a2⟩ := st
  unfold dijStep
  cases sv
  · exact h
  · cases p
    · cases nds with
      | nil => exact CID_not_solving m s t [] dm pm a1 a2
      | cons e rest =>
        obtain ⟨cost, c⟩ := e
        by_cases hc : c = t
        · simp only [if_pos hc]
          exact CID_not_solving m s t rest dm pm a1 (tm - a1)
        · simp only [if_neg hc]
          obtain ⟨hpw, hent, hdmp, hdms, hG1, hP4⟩ := h rfl
          have hpwB : List.Pairwise (fun a b : Nat × Coord => a.1 ≤ b.1)
              ((cost, c) :: rest) := hpw
          have hentB : ∀ e ∈ (cost, c) :: rest, ∃ dv,
              dm (e : Nat × Coord).2 = some dv ∧ dv ≤ e.1 ∧
              PathN m s e.2 e.1 := hent
          have hdmpB : ∀ v dv, dm v = some dv → PathN m s v dv := hdmp
          have hdmsB : dm s = some 0 := hdms
          have hG1B : ∀ dvt, dm t = some dvt →
              ∃ e ∈ (cost, c) :: rest, (e : Nat × Coord).2 = t ∧
                e.1 = dvt := hG1
          have hP4B : ∀ v dv, dm v = some dv → v ≠ t →
              ((∃ e ∈ (cost, c) :: rest, (e : Nat × Coord).2 = v ∧
                e.1 = dv) ∨
               (∀ dd ∈ dirs, isPass m (cadd v dd) = true →
                 ∃ dw, dm (cadd v dd) = some dw ∧ dw ≤ dv + 1)) := hP4
          obtain ⟨dc, hdc, hdcle, hpathc⟩ :=
            hentB (cost, c) (List.mem_cons_self _ _)
          obtain ⟨ps, psnd, hmem, hval, hkeep, hheap, hlen⟩ :=
            dRelaxF_spec m c cost dirs dm pm rest [] (dirs_pairwise c)
          show CID m s t ⟨(dirs.foldl (dRelaxStep m c cost)
            (dm, pm, rest, [])).2.2.1, (dirs.foldl (dRelaxStep m c cost)
            (dm, pm, rest, [])).1, (dirs.foldl (dRelaxStep m c cost)
            (dm, pm, rest, [])).2.1, true, a1, a2⟩
          set F := dirs.foldl (dRelaxStep m c cost) (dm, pm, rest, [])
            with hF
          have hdec : ∀ w dw, dm w = some dw →
              ∃ dw2, F.1 w = some dw2 ∧ dw2 ≤ dw := by
            intro w dw hdw
            by_cases hwps : w ∈ ps
            · refine ⟨cost + 1, (hval w hwps).1, ?_⟩
              obtain ⟨_, _, hcase⟩ := (hmem w).mp hwps
              rcases hcase with hnone | ⟨dv0, hdv0, hlt0⟩
              · rw [hdw] at hnone
                exact Option.noConfusion hnone
              · rw [hdw] at hdv0
                have h9 := Option.some.inj hdv0
                omega
            · exact ⟨dw, by rw [(hkeep w hwps).1]; exact hdw, Nat.le_refl dw⟩
          have hfull : ∀ dd ∈ dirs, isPass m (cadd c dd) = true →
              ∃ dw, F.1 (cadd c dd) = some dw ∧ dw ≤ cost + 1 := by
            intro dd hdd hp1
            by_cases hwps : cadd c dd ∈ ps
            · exact ⟨cost + 1, (hval _ hwps).1, Nat.le_refl _⟩
            · cases hdmw : dm (cadd c dd) with
              | none =>
                exact absurd ((hmem _).mpr ⟨hp1, ⟨dd, hdd, rfl⟩,
                  Or.inl hdmw⟩) hwps
              | some dw =>
                refine ⟨dw, by rw [(hkeep _ hwps).1]; exact hdmw, ?_⟩
                by_contra hgt
                exact hwps ((hmem _).mpr ⟨hp1, ⟨dd, hdd, rfl⟩,
                  Or.inr ⟨dw, hdmw, by omega⟩⟩)
          intro _
          refine ⟨?_, ?_, ?_, ?_, ?_, ?_⟩
          · show List.Pairwise (fun a b : Nat × Coord => a.1 ≤ b.1) F.2.2.1
            rw [hF]
            exact dRelaxFold_pairwise m c cost dirs (dm, pm, rest, [])
              (List.pairwise_cons.mp hpwB).2
          · intro e he
            have he2 : e ∈ F.2.2.1 := he
            show ∃ dv, F.1 (e : Nat × Coord).2 = some dv ∧ dv ≤ e.1 ∧
              PathN m s e.2 e.1
            rcases (hheap e).mp he2 with he3 | ⟨v, hv, rfl⟩
            · obtain ⟨dv, hdv, hle, hpath⟩ :=
                hentB e (List.mem_cons_of_mem _ he3)
              obtain ⟨dw2, hdw2, hle2⟩ := hdec e.2 dv hdv
              exact ⟨dw2, hdw2, by omega, hpath⟩
            · obtain ⟨hp1, ⟨dd, hdd, hveq⟩, _⟩ := (hmem v).mp hv
              subst hveq
              exact ⟨cost + 1, (hval _ hv).1, Nat.le_refl _,
                hpathc.step hdd hp1⟩
          · intro v dv hdv
            have hdv2 : F.1 v = some dv := hdv
            by_cases hvps : v ∈ ps
            · rw [(hval v hvps).1] at hdv2
              have h9 := Option.some.inj hdv2
              obtain ⟨hp1, ⟨dd, hdd, hveq⟩, _⟩ := (hmem v).mp hvps
              subst hveq
              rw [← h9]
              exact hpathc.step hdd hp1
            · rw [(hkeep v hvps).1] at hdv2
              exact hdmpB v dv hdv2
          · show F.1 s = some 0
            have hsps : s ∉ ps := by
              intro hs
              obtain ⟨_, _, hcase⟩ := (hmem s).mp hs
              rcases hcase with h9 | ⟨dv0, h9, hlt⟩
              · rw [hdmsB] at h9
                exact Option.noConfusion h9
              · rw [hdmsB] at h9
                have := Option.some.inj h9
                omega
            rw [(hkeep s hsps).1]
            exact hdmsB
          · intro dvt hdvt
            have hdvt2 : F.1 t = some dvt := hdvt
            by_cases htps : t ∈ ps
            · rw [(hval t htps).1] at hdvt2
              have h9 := Option.some.inj hdvt2
              refine ⟨(cost + 1, t), ?_, rfl, h9⟩
              exact (hheap _).mpr (Or.inr ⟨t, htps, rfl⟩)
            · rw [(hkeep t htps).1] at hdvt2
              obtain ⟨e0, he0mem, he0co, he0key⟩ := hG1B dvt hdvt2
              rcases List.mem_cons.mp he0mem with rfl | he0r
              · exact absurd he0co hc
              · exact ⟨e0, (hheap e0).mpr (Or.inl he0r), he0co, he0key⟩
          · intro v dv hdv hvt
            have hdv2 : F.1 v = some dv := hdv
            by_cases hvps : v ∈ ps
            · left
              rw [(hval v hvps).1] at hdv2
              have h9 := Option.some.inj hdv2
              refine ⟨(cost + 1, v), ?_, rfl, h9⟩
              exact (hheap _).mpr (Or.inr ⟨v, hvps, rfl⟩)
            · rw [(hkeep v hvps).1] at hdv2
              by_cases hvc : v = c
              · subst hvc
                have hdvdc : dv = dc := by
                  rw [hdv2] at hdc
                  exact Option.some.inj hdc
                rcases hP4B v dv hdv2 hvt with
                  ⟨e0, he0mem, he0co, he0key⟩ | hexp
                · rcases List.mem_cons.mp he0mem with rfl | he0r
                  · right
                    intro dd hdd hp1
                    obtain ⟨dw, hfw, hwle⟩ := hfull dd hdd hp1
                    have h9 : cost = dv := he0key
                    exact ⟨dw, hfw, by omega⟩
                  · left
                    exact ⟨e0, (hheap e0).mpr (Or.inl he0r), he0co, he0key⟩
                · right
                  intro dd hdd hp1
                  obtain ⟨dw, hdw, hwle⟩ := hexp dd hdd hp1
                  obtain ⟨dw2, hdw2, hle2⟩ := hdec _ dw hdw
                  exact ⟨dw2, hdw2, by omega⟩
              · rcases hP4B v dv hdv2 hvt with
                  ⟨e0, he0mem, he0co, he0key⟩ | hexp
                · rcases List.mem_cons.mp he0mem with rfl | he0r
                  · exact absurd he0co (fun h9 => hvc h9.symm)
                  · left
                    exact ⟨e0, (hheap e0).mpr (Or.inl he0r), he0co, he0key⟩
                · right
                  intro dd hdd hp1
                  obtain ⟨dw, hdw, hwle⟩ := hexp dd hdd hp1
                  obtain ⟨dw2, hdw2, hle2⟩ := hdec _ dw hdw
                  exact ⟨dw2, hdw2, by omega⟩
    · exact h

/- The cost-optimality invariant of the A* loop: heap sorted by f, every
entry's f equals its g plus the Manhattan heuristic of its cell (except
the seed entry `(0, 0, start)`), entries and recorded distances realised
by actual paths, the goal's current-best entry still queued, and every
recorded non-goal cell queued at its current distance or fully relaxed. -/
def CIA (m : Grid) (s t : Coord) (st : ASt) : Prop :=
  st.solving = true →
    List.Pairwise (fun a b : Nat × Nat × Coord => a.1 ≤ b.1) st.nodes ∧
    (∀ e ∈ st.nodes, (e : Nat × Nat × Coord).1 =
      e.2.1 + manh e.2.2 t ∨ e = (0, 0, s)) ∧
    (∀ e ∈ st.nodes, ∃ dv,
      st.dists (e : Nat × Nat × Coord).2.2 = some dv ∧
      dv ≤ e.2.1 ∧ PathN m s e.2.2 e.2.1) ∧
    (∀ v dv, st.dists v = some dv → PathN m s v dv) ∧
    st.dists s = some 0 ∧
    (∀ dvt, st.dists t = some dvt →
      ∃ e ∈ st.nodes, (e : Nat × Nat × Coord).2.2 = t ∧ e.2.1 = dvt) ∧
    (∀ v dv, st.dists v = some dv → v ≠ t →
      ((∃ e ∈ st.nodes, (e : Nat × Nat × Coord).2.2 = v ∧ e.2.1 = dv) ∨
       (∀ dd ∈ dirs, isPass m (cadd v dd) = true →
         ∃ dw, st.dists (cadd v dd) = some dw ∧ dw ≤ dv + 1)))

theorem CIA_not_solving (m : Grid) (s t : Coord)
    (nds : List (Nat × Nat × Coord)) (dm : DMap) (pm : PMap) (x y : Int) :
    CIA m s t ⟨nds, dm, pm, false, x, y⟩ :=
  fun h => Bool.noConfusion h

theorem astarStep_CIA (m : Grid) (s t : Coord) (p : Bool) (tm : Int)
    (st : ASt) (h : CIA m s t st) : CIA m s t (astarStep m t p tm st).1 := by
  obtain ⟨nds, dm, pm, sv, a1, a2⟩ := st
  unfold astarStep
  cases sv
  · exact h
  · cases p
    · cases nds with
      | nil => exact CIA_not_solving m s t [] dm pm a1 a2
      | cons e rest =>
        obtain ⟨f0, g, c⟩ := e
        by_cases hc : c = t
        · simp only [if_pos hc]
          exact CIA_not_solving m s t rest dm pm a1 (tm - a1)
        · simp only [if_neg hc]
          obtain ⟨hpw, hA2, hent, hdmp, hdms, hG1, hP4⟩ := h rfl
          have hpwB : List.Pairwise
              (fun a b : Nat × Nat × Coord => a.1 ≤ b.1)
              ((f0, g, c) :: rest) := hpw
          have hA2B : ∀ e ∈ (f0, g, c) :: rest,
              (e : Nat × Nat × Coord).1 = e.2.1 + manh e.2.2 t ∨
                e = (0, 0, s) := hA2
          have hentB : ∀ e ∈ (f0, g, c) :: rest, ∃ dv,
              dm (e : Nat × Nat × Coord).2.2 = some dv ∧ dv ≤ e.2.1 ∧
              PathN m s e.2.2 e.2.1 := hent
          have hdmpB : ∀ v dv, dm v = some dv → PathN m s v dv := hdmp
          have hdmsB : dm s = some 0 := hdms
          have hG1B : ∀ dvt, dm t = some dvt →
              ∃ e ∈ (f0, g, c) :: rest, (e : Nat × Nat × Coord).2.2 = t ∧
                e.2.1 = dvt := hG1
          have hP4B : ∀ v dv, dm v = some dv → v ≠ t →
              ((∃ e ∈ (f0, g, c) :: rest, (e : Nat × Nat × Coord).2.2 = v ∧
                e.2.1 = dv) ∨
               (∀ dd ∈ dirs, isPass m (cadd v dd) = true →
                 ∃ dw, dm (cadd v dd) = some dw ∧ dw ≤ dv + 1)) := hP4
          obtain ⟨dc, hdc, hdcle, hpathc⟩ :=
            hentB (f0, g, c) (List.mem_cons_self _ _)
          obtain ⟨ps, psnd, hmem, hval, hkeep, hheap, hlen⟩ :=
            aRelaxF_spec m t c g dirs dm pm rest [] (dirs_pairwise c)
          show CIA m s t ⟨(dirs.foldl (aRelaxStep m t c g)
            (dm, pm, rest, [])).2.2.1, (dirs.foldl (aRelaxStep m t c g)
            (dm, pm, rest, [])).1, (dirs.foldl (aRelaxStep m t c g)
            (dm, pm, rest, [])).2.1, true, a1, a2⟩
          set F := dirs.foldl (aRelaxStep m t c g) (dm, pm, rest, [])
            with hF
          have hdec : ∀ w dw, dm w = some dw →
              ∃ dw2, F.1 w = some dw2 ∧ dw2 ≤ dw := by
            intro w dw hdw
            by_cases hwps : w ∈ ps
            · refine ⟨g + 1, (hval w hwps).1, ?_⟩
              obtain ⟨_, _, hcase⟩ := (hmem w).mp hwps
              rcases hcase with hnone | ⟨dv0, hdv0, hlt0⟩
              · rw [hdw] at hnone
                exact Option.noConfusion hnone
              · rw [hdw] at hdv0
                have h9 := Option.some.inj hdv0
                omega
            · exact ⟨dw, by rw [(hkeep w hwps).1]; exact hdw, Nat.le_refl dw⟩
          have hfull : ∀ dd ∈ dirs, isPass m (cadd c dd) = true →
              ∃ dw, F.1 (cadd c dd) = some dw ∧ dw ≤ g + 1 := by
            intro dd hdd hp1
            by_cases hwps : cadd c dd ∈ ps
            · exact ⟨g + 1, (hval _ hwps).1, Nat.le_refl _⟩
            · cases hdmw : dm (cadd c dd) with
              | none =>
                exact absurd ((hmem _).mpr ⟨hp1, ⟨dd, hdd, rfl⟩,
                  Or.inl hdmw⟩) hwps
              | some dw =>
                refine ⟨dw, by rw [(hkeep _ hwps).1]; exact hdmw, ?_⟩
                by_contra hgt
                exact hwps ((hmem _).mpr ⟨hp1, ⟨dd, hdd, rfl⟩,
                  Or.inr ⟨dw, hdmw, by omega⟩⟩)
          intro _
          refine ⟨?_, ?_, ?_, ?_, ?_, ?_, ?_⟩
          · show List.Pairwise (fun a b : Nat × Nat × Coord => a.1 ≤ b.1)
              F.2.2.1
            rw [hF]
            exact aRelaxFold_pairwise m t c g dirs (dm, pm, rest, [])
              (List.pairwise_cons.mp hpwB).2
          · intro e he
            have he2 : e ∈ F.2.2.1 := he
            rcases (hheap e).mp he2 with he3 | ⟨v, hv, rfl⟩
            · exact hA2B e (List.mem_cons_of_mem _ he3)
            · left
              rfl
          · intro e he
            have he2 : e ∈ F.2.2.1 := he
            show ∃ dv, F.1 (e : Nat × Nat × Coord).2.2 = some dv ∧
              dv ≤ e.2.1 ∧ PathN m s e.2.2 e.2.1
            rcases (hheap e).mp he2 with he3 | ⟨v, hv, rfl⟩
            · obtain ⟨dv, hdv, hle, hpath⟩ :=
                hentB e (List.mem_cons_of_mem _ he3)
              obtain ⟨dw2, hdw2, hle2⟩ := hdec e.2.2 dv hdv
              exact ⟨dw2, hdw2, by omega, hpath⟩
            · obtain ⟨hp1, ⟨dd, hdd, hveq⟩, _⟩ := (hmem v).mp hv
              subst hveq
              exact ⟨g + 1, (hval _ hv).1, Nat.le_refl _,
                hpathc.step hdd hp1⟩
          · intro v dv hdv
            have hdv2 : F.1 v = some dv := hdv
            by_cases hvps : v ∈ ps
            · rw [(hval v hvps).1] at hdv2
              have h9 := Option.some.inj hdv2
              obtain ⟨hp1, ⟨dd, hdd, hveq⟩, _⟩ := (hmem v).mp hvps
              subst hveq
              rw [← h9]
              exact hpathc.step hdd hp1
            · rw [(hkeep v hvps).1] at hdv2
              exact hdmpB v dv hdv2
          · show F.1 s = some 0
            have hsps : s ∉ ps := by
              intro hs
              obtain ⟨_, _, hcase⟩ := (hmem s).mp hs
              rcases hcase with h9 | ⟨dv0, h9, hlt⟩
              · rw [hdmsB] at h9
                exact Option.noConfusion h9
              · rw [hdmsB] at h9
                have := Option.some.inj h9
                omega
            rw [(hkeep s hsps).1]
            exact hdmsB
          · intro dvt hdvt
            have hdvt2 : F.1 t = some dvt := hdvt
            by_cases htps : t ∈ ps
            · rw [(hval t htps).1] at hdvt2
              have h9 := Option.some.inj hdvt2
              refine ⟨(g + 1 + manh t t, g + 1, t), ?_, rfl, h9⟩
              exact (hheap _).mpr (Or.inr ⟨t, htps, rfl⟩)
            · rw [(hkeep t htps).1] at hdvt2
              obtain ⟨e0, he0mem, he0co, he0key⟩ := hG1B dvt hdvt2
              rcases List.mem_cons.mp he0mem with rfl | he0r
              · exact absurd he0co hc
              · exact ⟨e0, (hheap e0).mpr (Or.inl he0r), he0co, he0key⟩
          · intro v dv hdv hvt
            have hdv2 : F.1 v = some dv := hdv
            by_cases hvps : v ∈ ps
            · left
              rw [(hval v hvps).1] at hdv2
              have h9 := Option.some.inj hdv2
              refine ⟨(g + 1 + manh v t, g + 1, v), ?_, rfl, h9⟩
              exact (hheap _).mpr (Or.inr ⟨v, hvps, rfl⟩)
            · rw [(hkeep v hvps).1] at hdv2
              by_cases hvc : v = c
              · subst hvc
                have hdvdc : dv = dc := by
                  rw [hdv2] at hdc
                  exact Option.some.inj hdc
                rcases hP4B v dv hdv2 hvt with
                  ⟨e0, he0mem, he0co, he0key⟩ | hexp
                · rcases List.mem_cons.mp he0mem with rfl | he0r
                  · right
                    intro dd hdd hp1
                    obtain ⟨dw, hfw, hwle⟩ := hfull dd hdd hp1
                    have h9 : g = dv := he0key
                    exact ⟨dw, hfw, by omega⟩
                  · left
                    exact ⟨e0, (hheap e0).mpr (Or.inl he0r), he0co, he0key⟩
                · right
                  intro dd hdd hp1
                  obtain ⟨dw, hdw, hwle⟩ := hexp dd hdd hp1
                  obtain ⟨dw2, hdw2, hle2⟩ := hdec _ dw hdw
                  exact ⟨dw2, hdw2, by omega⟩
              · rcases hP4B v dv hdv2 hvt with
                  ⟨e0, he0mem, he0co, he0key⟩ | hexp
                · rcases List.mem_cons.mp he0mem with rfl | he0r
                  · exact absurd he0co (fun h9 => hvc h9.symm)
                  · left
                    exact ⟨e0, (hheap e0).mpr (Or.inl he0r), he0co, he0key⟩
                · right
                  intro dd hdd hp1
                  obtain ⟨dw, hdw, hwle⟩ := hexp dd hdd hp1
                  obtain ⟨dw2, hdw2, hle2⟩ := hdec _ dw hdw
                  exact ⟨dw2, hdw2, by omega⟩
    · exact h

theorem dInit_CID (m : Grid) (s t : Coord) (t0 : Int)
    (hps : isPass m s = true) : CID m s t (dInit s t0) := by
  intro _
  have hdm : ∀ v dv, dmSet dmEmpty s 0 v = some dv → v = s ∧ dv = 0 := by
    intro v dv hdv
    by_cases hvs : v = s
    · subst hvs
      rw [dmSet, if_pos rfl] at hdv
      exact ⟨rfl, (Option.some.inj hdv).symm⟩
    · rw [dmSet, if_neg hvs] at hdv
      exact Option.noConfusion hdv
  have hdms : dmSet dmEmpty s 0 s = some 0 := by
    rw [dmSet, if_pos rfl]
  refine ⟨List.pairwise_singleton _ _, ?_, ?_, hdms, ?_, ?_⟩
  · intro e he
    have he2 : e ∈ [((0 : Nat), s)] := he
    have hes : e = (0, s) := by simpa using he2
    subst hes
    exact ⟨0, hdms, Nat.le_refl 0, PathN.refl hps⟩
  · intro v dv hdv
    obtain ⟨hvs, hdv0⟩ := hdm v dv hdv
    subst hvs
    subst hdv0
    exact PathN.refl hps
  · intro dvt hdvt
    obtain ⟨hts, hdv0⟩ := hdm t dvt hdvt
    subst hdv0
    refine ⟨(0, s), List.mem_cons_self _ _, ?_, rfl⟩
    exact hts.symm
  · intro v dv hdv hvt
    obtain ⟨hvs, hdv0⟩ := hdm v dv hdv
    subst hvs
    subst hdv0
    left
    exact ⟨(0, v), List.mem_cons_self _ _, rfl, rfl⟩

theorem aInit_CIA (m : Grid) (s t : Coord) (t0 : Int)
    (hps : isPass m s = true) : CIA m s t (aInit s t0) := by
  intro _
  have hdm : ∀ v dv, dmSet dmEmpty s 0 v = some dv → v = s ∧ dv = 0 := by
    intro v dv hdv
    by_cases hvs : v = s
    · subst hvs
      rw [dmSet, if_pos rfl] at hdv
      exact ⟨rfl, (Option.some.inj hdv).symm⟩
    · rw [dmSet, if_neg hvs] at hdv
      exact Option.noConfusion hdv
  have hdms : dmSet dmEmpty s 0 s = some 0 := by
    rw [dmSet, if_pos rfl]
  refine ⟨List.pairwise_singleton _ _, ?_, ?_, ?_, hdms, ?_, ?_⟩
  · intro e he
    have he2 : e ∈ [((0 : Nat), (0 : Nat), s)] := he
    have hes : e = (0, 0, s) := by simpa using he2
    subst hes
    right
    rfl
  · intro e he
    have he2 : e ∈ [((0 : Nat), (0 : Nat), s)] := he
    have hes : e = (0, 0, s) := by simpa using he2
    subst hes
    exact ⟨0, hdms, Nat.le_refl 0, PathN.refl hps⟩
  · intro v dv hdv
    obtain ⟨hvs, hdv0⟩ := hdm v dv hdv
    subst hvs
    subst hdv0
    exact PathN.refl hps
  · intro dvt hdvt
    obtain ⟨hts, hdv0⟩ := hdm t dvt hdvt
    subst hdv0
    refine ⟨(0, 0, s), List.mem_cons_self _ _, ?_, rfl⟩
    exact hts.symm
  · intro v dv hdv hvt
    obtain ⟨hvs, hdv0⟩ := hdm v dv hdv
    subst hvs
    subst hdv0
    left
    exact ⟨(0, 0, v), List.mem_cons_self _ _, rfl, rfl⟩

theorem dij_CID_all (m : Grid) (s t : Coord) (t0 : Int)
    (sched : Nat → Bool) (tms : Nat → Int) (hps : isPass m s = true) :
    ∀ k, CID m s t (stAfter (dijStep m t) sched tms (dInit s t0) k) := by
  intro k
  induction k with
  | zero => exact dInit_CID m s t t0 hps
  | succ k ih =>
    exact dijStep_CID m s t (sched k) (tms k)
      (stAfter (dijStep m t) sched tms (dInit s t0) k) ih

theorem astar_CIA_all (m : Grid) (s t : Coord) (t0 : Int)
    (sched : Nat → Bool) (tms : Nat → Int) (hps : isPass m s = true) :
    ∀ k, CIA m s t (stAfter (astarStep m t) sched tms (aInit s t0) k) := by
  intro k
  induction k with
  | zero => exact aInit_CIA m s t t0 hps
  | succ k ih =>
    exact astarStep_CIA m s t (sched k) (tms k)
      (stAfter (astarStep m t) sched tms (aInit s t0) k) ih

/- The cover walk: along any passage path to the goal, the minimum heap
key never exceeds the recorded distance of the current cell plus the
remaining walk length.  Instantiated at the start it bounds the popped
goal key by the shortest-path length. -/
theorem CID_cover {m : Grid} {s t : Coord} {dm : DMap} {e0 : Nat × Coord}
    {rest : List (Nat × Coord)}
    (hpw : List.Pairwise (fun a b : Nat × Coord => a.1 ≤ b.1) (e0 :: rest))
    (hG1 : ∀ dvt, dm t = some dvt →
      ∃ e ∈ e0 :: rest, (e : Nat × Coord).2 = t ∧ e.1 = dvt)
    (hP4 : ∀ v dv, dm v = some dv → v ≠ t →
      ((∃ e ∈ e0 :: rest, (e : Nat × Coord).2 = v ∧ e.1 = dv) ∨
       (∀ dd ∈ dirs, isPass m (cadd v dd) = true →
         ∃ dw, dm (cadd v dd) = some dw ∧ dw ≤ dv + 1))) :
    ∀ (r : Nat) (v : Coord), PathN m v t r → ∀ (i dv : Nat),
      dm v = some dv → dv ≤ i → e0.1 ≤ i + r := by
  have hmin : ∀ e ∈ e0 :: rest, e0.1 ≤ (e : Nat × Coord).1 := by
    intro e he
    rcases List.mem_cons.mp he with rfl | he
    · exact Nat.le_refl _
    · exact (List.pairwise_cons.mp hpw).1 e he
  intro r
  induction r with
  | zero =>
    intro v hpath i dv hdv hle
    have htv : t = v := pathN_zero hpath
    subst htv
    obtain ⟨e, hem, _, hekey⟩ := hG1 dv hdv
    have := hmin e hem
    omega
  | succ r ih =>
    intro v hpath i dv hdv hle
    by_cases hvt : v = t
    · subst hvt
      obtain ⟨e, hem, _, hekey⟩ := hG1 dv hdv
      have := hmin e hem
      omega
    · rcases hP4 v dv hdv hvt with ⟨e, hem, _, hekey⟩ | hexp
      · have := hmin e hem
        omega
      · obtain ⟨dd, hdd, hp1, hP⟩ := pathN_fwd r hpath
        obtain ⟨dw, hdw, hwle⟩ := hexp dd hdd hp1
        have := ih (cadd v dd) hP (i + 1) dw hdw (by omega)
        omega

theorem CIA_cover {m : Grid} {s t : Coord} {dm : DMap}
    {e0 : Nat × Nat × Coord} {rest : List (Nat × Nat × Coord)}
    (hpw : List.Pairwise (fun a b : Nat × Nat × Coord => a.1 ≤ b.1)
      (e0 :: rest))
    (hA2 : ∀ e ∈ e0 :: rest, (e : Nat × Nat × Coord).1 =
      e.2.1 + manh e.2.2 t ∨ e = (0, 0, s))
    (hG1 : ∀ dvt, dm t = some dvt →
      ∃ e ∈ e0 :: rest, (e : Nat × Nat × Coord).2.2 = t ∧ e.2.1 = dvt)
    (hP4 : ∀ v dv, dm v = some dv → v ≠ t →
      ((∃ e ∈ e0 :: rest, (e : Nat × Nat × Coord).2.2 = v ∧ e.2.1 = dv) ∨
       (∀ dd ∈ dirs, isPass m (cadd v dd) = true →
         ∃ dw, dm (cadd v dd) = some dw ∧ dw ≤ dv + 1))) :
    ∀ (r : Nat) (v : Coord), PathN m v t r → ∀ (i dv : Nat),
      dm v = some dv → dv ≤ i → e0.1 ≤ i + r := by
  have hmin : ∀ e ∈ e0 :: rest, e0.1 ≤ (e : Nat × Nat × Coord).1 := by
    intro e he
    rcases List.mem_cons.mp he with rfl | he
    · exact Nat.le_refl _
    · exact (List.pairwise_cons.mp hpw).1 e he
  have hfb : ∀ e ∈ e0 :: rest, (e : Nat × Nat × Coord).1 ≤
      e.2.1 + manh e.2.2 t := by
    intro e he
    rcases hA2 e he with h | h
    · omega
    · subst h
      exact Nat.zero_le _
  intro r
  induction r with
  | zero =>
    intro v hpath i dv hdv hle
    have htv : t = v := pathN_zero hpath
    subst htv
    obtain ⟨e, hem, heco, hekey⟩ := hG1 dv hdv
    have h1 := hmin e hem
    have h2 := hfb e hem
    rw [heco, manh_self, hekey] at h2
    omega
  | succ r ih =>
    intro v hpath i dv hdv hle
    by_cases hvt : v = t
    · subst hvt
      obtain ⟨e, hem, heco, hekey⟩ := hG1 dv hdv
      have h1 := hmin e hem
      have h2 := hfb e hem
      rw [heco, manh_self, hekey] at h2
      omega
    · rcases hP4 v dv hdv hvt with ⟨e, hem, heco, hekey⟩ | hexp
      · have h1 := hmin e hem
        have h2 := hfb e hem
        rw [heco, hekey] at h2
        have h3 : manh v t ≤ r + 1 := pathN_manh_le hpath
        omega
      · obtain ⟨dd, hdd, hp1, hP⟩ := pathN_fwd r hpath
        obtain ⟨dw, hdw, hwle⟩ := hexp dd hdd hp1
        have := ih (cadd v dd) hP (i + 1) dw hdw (by omega)
        omega

/-- C5: A* cost optimality relative to Dijkstra.  On any grid, for any
start/goal pair whose shortest 4-connected passage path has `n` edges,
whenever the Dijkstra drive signals GoalReached the heap entry it pops is
`(n, goal)`, and whenever the A* drive signals GoalReached the entry it
pops carries accumulated cost `g = n` as well — the Manhattan heuristic
being admissible and consistent, the first pop of the goal is cost-optimal
in both variants, so A*'s accumulated cost at the goal equals Dijkstra's,
under any pause schedules and clock streams for the two runs. -/
theorem C5_goal_cost (m : Grid) (s t : Coord) (t0D t0A : Int)
    (schedD schedA : Nat → Bool) (tmsD tmsA : Nat → Int) (n jD jA : Nat)
    (hshort : IsShort m s t n)
    (hgD : resAt (dijStep m t) schedD tmsD (dInit s t0D) jD =
      Res.goalReached)
    (hgA : resAt (astarStep m t) schedA tmsA (aInit s t0A) jA =
      Res.goalReached) :
    ∃ cD restD fA gA restA,
      (stAfter (dijStep m t) schedD tmsD (dInit s t0D) jD).nodes =
        (cD, t) :: restD ∧
      (stAfter (astarStep m t) schedA tmsA (aInit s t0A) jA).nodes =
        (fA, gA, t) :: restA ∧
      cD = n ∧ gA = n := by
  have hps : isPass m s = true := hshort.1.pass_start
  obtain ⟨hsvD, cD, restD, hnodesD⟩ :=
    dijStep_goal m t (schedD jD) (tmsD jD)
      (stAfter (dijStep m t) schedD tmsD (dInit s t0D) jD) hgD
  obtain ⟨hpwD, hentD, _, hdmsD, hG1D, hP4D⟩ :=
    dij_CID_all m s t t0D schedD tmsD hps jD hsvD
  rw [hnodesD] at hpwD hentD hG1D hP4D
  obtain ⟨dvc, hdvc, hdvcle, hpathD⟩ :=
    hentD (cD, t) (List.mem_cons_self _ _)
  have hlowD : n ≤ cD := hshort.2 cD hpathD
  have hupD : ((cD, t) : Nat × Coord).1 ≤ 0 + n :=
    @CID_cover m s t
      (stAfter (dijStep m t) schedD tmsD (dInit s t0D) jD).dists
      (cD, t) restD hpwD hG1D hP4D n s hshort.1 0 0 hdmsD (Nat.le_refl 0)
  have hupD2 : cD ≤ 0 + n := hupD
  have hcDn : cD = n := by omega
  obtain ⟨hsvA, fA, gA, restA, hnodesA⟩ :=
    astarStep_goal m t (schedA jA) (tmsA jA)
      (stAfter (astarStep m t) schedA tmsA (aInit s t0A) jA) hgA
  obtain ⟨hpwA, hA2A, hentA, _, hdmsA, hG1A, hP4A⟩ :=
    astar_CIA_all m s t t0A schedA tmsA hps jA hsvA
  rw [hnodesA] at hpwA hA2A hentA hG1A hP4A
  obtain ⟨dva, hdva, hdvale, hpathA⟩ :=
    hentA (fA, gA, t) (List.mem_cons_self _ _)
  have hlowA : n ≤ gA := hshort.2 gA hpathA
  have hupA : ((fA, gA, t) : Nat × Nat × Coord).1 ≤ 0 + n :=
    CIA_cover hpwA hA2A hG1A hP4A n s hshort.1 0 0 hdmsA (Nat.le_refl 0)
  have hupA2 : fA ≤ 0 + n := hupA
  have hgAn : gA = n := by
    rcases hA2A (fA, gA, t) (List.mem_cons_self _ _) with hlft | hrgt
    · have h9 : fA = gA + manh t t := hlft
      rw [manh_self] at h9
      omega
    · have h9 : gA = 0 :=
        congrArg (fun e : Nat × Nat × Coord => e.2.1) hrgt
      omega
  exact ⟨cD, restD, fA, gA, restA, hnodesD, hnodesA, hcDn, hgAn⟩

/-- Witness for C5 on the 5×5 corridor fixture: the shortest path from
`(1,1)` to `(1,3)` has 2 edges; both Dijkstra and A* signal GoalReached on
their third call (index 2), Dijkstra popping the entry `(2, (1,3))` and A*
popping an entry with accumulated cost `g = 2`. -/
theorem C5_witness :
    IsShort fix5 (1, 1) (1, 3) 2 ∧
    resAt (dijStep fix5 (1, 3)) noPause zeroT (dInit (1, 1) 0) 2 =
      Res.goalReached ∧
    resAt (astarStep fix5 (1, 3)) noPause zeroT (aInit (1, 1) 0) 2 =
      Res.goalReached ∧
    ∃ cD restD fA gA restA,
      (stAfter (dijStep fix5 (1, 3)) noPause zeroT (dInit (1, 1) 0)
        2).nodes = (cD, (1, 3)) :: restD ∧
      (stAfter (astarStep fix5 (1, 3)) noPause zeroT (aInit (1, 1) 0)
        2).nodes = (fA, gA, (1, 3)) :: restA ∧
      cD = 2 ∧ gA = 2 :=
  ⟨fix5_short, by decide, by decide,
    C5_goal_cost fix5 (1, 1) (1, 3) 0 0 noPause noPause zeroT zeroT 2 2 2
      fix5_short (by decide) (by decide)⟩

end MS
